import Mathlib

/-!
# userfs: an in-memory file system (src/3/userfs.c)

A shallow embedding of the storage engine of `userfs.c` and a verification of
its specification.

Modelling conventions.

* The global variables of the C file (`file_list`, `file_descriptors`,
  `file_descriptor_count`, `file_descriptor_capacity`, `ufs_error_code`) are the
  fields of `State`; every operation takes a state and returns the new one.
* A linked list of the program (the chain of blocks of a file, the list of all
  files) is a Lean list in link order; `block->next` is the tail of the list.
* A `struct file` is identified by `addr`, the address `malloc` gave it.  The
  allocator never hands out an address twice (`State.next_addr`), so a
  descriptor whose file was freed by `ufs_delete` refers to no file.
* Memory returned by `malloc` / `realloc` is not initialised.  Its contents
  are the fields of `Uninit`, fixed but arbitrary.
* An execution that dereferences a null, freed or indeterminate pointer, or
  copies past the end of a buffer, has no defined result: the operation
  returns `none`.  The same holds for a loop that never ends.
* `size_t` arithmetic is arithmetic modulo `SIZE_MOD = 2 ^ 64`; the cast
  `(int)` of a `size_t` is `toInt32`.  The `int` fields (`occupied`,
  `current_block`, `current_position`, the table counters) hold natural
  numbers.  An `int` operation whose result is more than `INT_MAX` has no
  defined result: the sum `current_block * BLOCK_SIZE + current_position` in
  the test of line 259 is checked in `ufs_write`, the product
  `file_descriptor_capacity *= 2` of line 104 in
  `resize_file_descriptors_int`.
* `malloc` and `realloc` are taken to succeed.  In the same way
  `resize_file_descriptors`, the function `create_fd` calls, doubles the
  capacity as a natural number: it is the program for every table of capacity
  below `2 ^ 30`, and the table of `2 ^ 30` open descriptors, where the doubling
  overflows, is studied with `resize_file_descriptors_int`.
-/

namespace Userfs

/-- One byte of file data (`char`). -/
abbrev Byte := Fin 256

def BLOCK_SIZE : Nat := 512

def MAX_FILE_SIZE : Nat := 1024 * 1024 * 100

/-- The modulus of `size_t` arithmetic. -/
def SIZE_MOD : Nat := 18446744073709551616

def INT_MAX : Nat := 2147483647

/-- The largest size of an object in memory (`PTRDIFF_MAX`): no buffer handed
to `ufs_write` is longer. -/
def PTRDIFF_MAX : Nat := 9223372036854775807

/-- The cast `(int)x` of a `size_t` value: the low 32 bits, read as a signed
number. -/
def toInt32 (x : Nat) : Int :=
  if x % 4294967296 < 2147483648 then ((x % 4294967296 : Nat) : Int)
  else ((x % 4294967296 : Nat) : Int) - 4294967296

/-- Modelled from the spec: `userfs.h` is not among the sources.  The spec
lists the open flags `CREATE`, `READ_ONLY`, `WRITE_ONLY`, `READ_WRITE` next to
the plain `0`; they are distinct non-zero `int` constants, given here the
values of the course header. -/
def UFS_CREATE : Int := 1

/-- Modelled from the spec: see `UFS_CREATE`. -/
def UFS_READ_ONLY : Int := 2

/-- Modelled from the spec: see `UFS_CREATE`. -/
def UFS_WRITE_ONLY : Int := 4

/-- Modelled from the spec: see `UFS_CREATE`. -/
def UFS_READ_WRITE : Int := 8

/-- Modelled from the spec: the error kinds of `userfs.h` (section 7 of the
spec: `NoFile`, `NoPermission`, `NoMem`, `NotImplemented`, and no error). -/
inductive ufs_error_code where
  | UFS_ERR_NO_ERR
  | UFS_ERR_NO_FILE
  | UFS_ERR_NO_MEM
  | UFS_ERR_NOT_IMPLEMENTED
  | UFS_ERR_NO_PERMISSION
  deriving DecidableEq, Repr

open ufs_error_code

/-- The `struct block`: `memory` is the buffer of `BLOCK_SIZE` bytes, the
links are the position in the chain. -/
structure block where
  memory : List Byte
  occupied : Nat
  deriving DecidableEq, Repr

/-- The `struct file`.  `block_list` is the chain from its head; `last_block`
is the index in the chain of the block the C field points to. -/
structure file where
  addr : Nat
  block_list : List block
  last_block : Nat
  refs : Int
  name : String
  size : Nat
  deriving DecidableEq, Repr

/-- The `struct filedesc`; `file` is the address of the file. -/
structure filedesc where
  file : Nat
  mode : Int
  current_block : Nat
  current_position : Nat
  deriving DecidableEq, Repr

/-- One element of the array `file_descriptors`: a null pointer, a pointer to
a descriptor, or the indeterminate non-null bits of memory never written. -/
inductive slot where
  | null
  | desc (d : filedesc)
  | wild
  deriving DecidableEq, Repr

/-- The contents of memory as `malloc` and `realloc` return it.
`refs a` is the field `refs` of the file allocated at address `a`;
`slot_null i` tells whether element `i` of the descriptor array reads as a null
pointer before it is first written; `byte a k j` is byte `j` of the buffer of
block `k` of the file at `a`. -/
structure Uninit where
  refs : Nat → Int
  slot_null : Nat → Bool
  byte : Nat → Nat → Nat → Byte

/-- The global variables of `userfs.c`. -/
structure State where
  file_list : List file
  file_descriptors : List slot
  file_descriptor_count : Nat
  file_descriptor_capacity : Nat
  error_code : ufs_error_code
  next_addr : Nat
  uninit : Uninit

/-- The state of the program at start: no file, no descriptor array. -/
def init (u : Uninit) : State :=
  { file_list := [], file_descriptors := [], file_descriptor_count := 0,
    file_descriptor_capacity := 0, error_code := UFS_ERR_NO_ERR, next_addr := 0,
    uninit := u }

/-- `ufs_errno`. -/
def ufs_errno (s : State) : ufs_error_code := s.error_code

/-- The element `file_descriptors[i]`; an element outside the array reads as
indeterminate. -/
def slot_at (s : State) (i : Nat) : slot :=
  (s.file_descriptors.get? i).getD slot.wild

/-- `is_incorrect_fd`. -/
def is_incorrect_fd (s : State) (fd : Int) : Bool :=
  decide (fd < 0) || decide (fd ≥ (s.file_descriptor_capacity : Int)) ||
    (match slot_at s fd.toNat with
     | slot.null => true
     | _ => false)

/-- `does_have_read_permission`, on the mode of the descriptor. -/
def does_have_read_permission (mode : Int) : Bool :=
  decide (mode = UFS_READ_WRITE) || decide (mode = UFS_READ_ONLY)

/-- `does_have_write_permission`, on the mode of the descriptor. -/
def does_have_write_permission (mode : Int) : Bool :=
  decide (mode = UFS_READ_WRITE) || decide (mode = UFS_WRITE_ONLY)

/-- The array element `i` as `malloc` or `realloc` leaves it. -/
def fresh_slot (u : Uninit) (i : Nat) : slot :=
  if u.slot_null i then slot.null else slot.wild

/-- `resize_file_descriptors`: a first array of two elements, then doubling
when the array is full; `realloc` keeps the old elements.  The capacity is
doubled as a natural number; `resize_file_descriptors_int` has the `int`
overflow of the doubling. -/
def resize_file_descriptors (s : State) : State :=
  let s1 : State :=
    if s.file_descriptor_capacity = 0 then
      { s with file_descriptor_capacity := 2,
               file_descriptors := (List.range 2).map (fresh_slot s.uninit) }
    else s
  if s1.file_descriptor_count = s1.file_descriptor_capacity then
    { s1 with file_descriptor_capacity := s1.file_descriptor_capacity * 2,
              file_descriptors := s1.file_descriptors ++
                (List.range' s1.file_descriptor_capacity s1.file_descriptor_capacity).map
                  (fresh_slot s1.uninit) }
  else s1

/-- The file at address `a`, when it is live. -/
def file_at : List file → Nat → Option file
  | [], _ => none
  | f :: rest, a => if f.addr = a then some f else file_at rest a

/-- The store `*p = g` through a pointer `p` to the file at address `a`. -/
def set_file (fl : List file) (a : Nat) (g : file) : List file :=
  fl.map (fun f => if f.addr = a then g else f)

/-- The scan of `create_fd` for a free slot: the first `i` from `i` on, below
`i + n`, with `file_descriptors[i]` null. -/
def find_free (s : State) : Nat → Nat → Option Nat
  | 0, _ => none
  | n + 1, i =>
    match slot_at s i with
    | slot.null => some i
    | _ => find_free s n (i + 1)

/-- `create_fd`, for the file at address `a`. -/
def create_fd (s : State) (a : Nat) (mode : Int) : Option (Int × State) :=
  match file_at s.file_list a with
  | none => none
  | some f =>
    let d : filedesc := { file := a, mode := mode, current_block := 0, current_position := 0 }
    let s1 : State := { s with file_list := set_file s.file_list a { f with refs := f.refs + 1 } }
    match find_free s1 s1.file_descriptor_count 0 with
    | some i =>
      some ((i : Int), { s1 with file_descriptors := s1.file_descriptors.set i (slot.desc d) })
    | none =>
      let s2 := resize_file_descriptors s1
      if s2.file_descriptor_count < s2.file_descriptors.length then
        some ((s2.file_descriptor_count : Int),
          { s2 with file_descriptors := s2.file_descriptors.set s2.file_descriptor_count (slot.desc d),
                    file_descriptor_count := s2.file_descriptor_count + 1 })
      else none

/-- `delete_fd`. -/
def delete_fd (s : State) (fd : Int) : Option (Int × State) :=
  if is_incorrect_fd s fd then
    some (-1, { s with error_code := UFS_ERR_NO_FILE })
  else
    match slot_at s fd.toNat with
    | slot.desc d =>
      match file_at s.file_list d.file with
      | none => none
      | some f =>
        some (0, { s with file_list := set_file s.file_list d.file { f with refs := f.refs - 1 },
                          file_descriptors := s.file_descriptors.set fd.toNat slot.null })
    | _ => none

/-- `get_file`: the first file of the list with the name. -/
def get_file : List file → String → Option file
  | [], _ => none
  | f :: rest, filename => if f.name = filename then some f else get_file rest filename

/-- `file_list_add`: the file goes after the last element. -/
def file_list_add : List file → file → List file
  | [], f => [f]
  | c :: rest, f => c :: file_list_add rest f

/-- The buffer of a block as `malloc(BLOCK_SIZE)` returns it. -/
def fresh_memory (u : Uninit) (a k : Nat) : List Byte :=
  (List.range BLOCK_SIZE).map (u.byte a k)

/-- The file `ufs_open` allocates for a name that does not exist (lines
218-231): one empty block; the field `refs` is not set. -/
def new_file (u : Uninit) (a : Nat) (filename : String) : file :=
  { addr := a, block_list := [{ memory := fresh_memory u a 0, occupied := 0 }], last_block := 0,
    refs := u.refs a, name := filename, size := 0 }

/-- `ufs_open`. -/
def ufs_open (s : State) (filename : String) (flags : Int) : Option (Int × State) :=
  if flags ≠ UFS_CREATE then
    match get_file s.file_list filename with
    | none => some (-1, { s with error_code := UFS_ERR_NO_FILE })
    | some f =>
      if flags = 0 then create_fd s f.addr UFS_READ_WRITE
      else create_fd s f.addr flags
  else
    match get_file s.file_list filename with
    | some f => create_fd s f.addr UFS_READ_WRITE
    | none =>
      let f : file := new_file s.uninit s.next_addr filename
      create_fd { s with file_list := file_list_add s.file_list f, next_addr := s.next_addr + 1 }
        f.addr UFS_READ_WRITE

/-- The result of the first loop of `ufs_write`, and of the second: whether the
loop left through `return -1` (`nomem`), the blocks it wrote, the cursor, the
field `size` of the file, and the bytes of the buffer not yet written. -/
structure wloop where
  nomem : Bool
  blocks : List block
  current_block : Nat
  current_position : Nat
  size : Nat
  rest : List Byte
  deriving DecidableEq, Repr

/-- The variable `left_space = BLOCK_SIZE - current_position` of the first loop
of `ufs_write`: an `int` difference stored in a `size_t`. -/
def left_space (pos : Nat) : Nat :=
  if pos ≤ BLOCK_SIZE then BLOCK_SIZE - pos else SIZE_MOD - (pos - BLOCK_SIZE)

/-- The variable `write_size` of `ufs_write`: what is left of the `n` bytes to
write, or the space `left` when that is less. -/
def write_size (n left : Nat) : Nat :=
  if n < left then n else left

/-- The block after `memcpy(block->memory + pos, src, src.length)` and the
update of `occupied` (lines 277-283); `pos1` is the cursor after the copy. -/
def store_block (b : block) (pos : Nat) (src : List Byte) : block :=
  { memory := b.memory.take pos ++ src ++ b.memory.drop (pos + src.length),
    occupied := if pos + src.length > b.occupied then pos + src.length else b.occupied }

/-- The field `file->size` after lines 279-283: less the old `occupied`, plus
the cursor `pos1`, when the cursor has passed `occupied`. -/
def size_after (fsize occupied pos1 : Nat) : Nat :=
  if pos1 > occupied then
    ((fsize + SIZE_MOD - occupied % SIZE_MOD) % SIZE_MOD + pos1) % SIZE_MOD
  else fsize

/-- The first loop of `ufs_write` (lines 268-294), which writes into blocks
that exist.  `bs` is the chain from `block` on, `data` the bytes of the buffer
from `written_data_size` on, `fsize` the field `file->size`. -/
def write_existing : List block → Nat → Nat → Nat → List Byte → Option wloop
  | [], cb, pos, fsize, data =>
    if data.length = 0 then some ⟨false, [], cb, pos, fsize, data⟩
    else if (cb * BLOCK_SIZE + pos + write_size data.length (left_space pos)) % SIZE_MOD
        ≥ MAX_FILE_SIZE then
      some ⟨true, [], cb, pos, fsize, data⟩
    else none
  | b :: rest, cb, pos, fsize, data =>
    if data.length = 0 then some ⟨false, b :: rest, cb, pos, fsize, data⟩
    else if (cb * BLOCK_SIZE + pos + write_size data.length (left_space pos)) % SIZE_MOD
        ≥ MAX_FILE_SIZE then
      some ⟨true, b :: rest, cb, pos, fsize, data⟩
    else if pos + write_size data.length (left_space pos) > BLOCK_SIZE then none
    else
      match rest with
      | [] =>
        some ⟨false, [store_block b pos (data.take (write_size data.length (left_space pos)))],
          cb, pos + write_size data.length (left_space pos),
          size_after fsize b.occupied (pos + write_size data.length (left_space pos)),
          data.drop (write_size data.length (left_space pos))⟩
      | c :: rest1 =>
        match write_existing (c :: rest1) (cb + 1) 0
            (size_after fsize b.occupied (pos + write_size data.length (left_space pos)))
            (data.drop (write_size data.length (left_space pos))) with
        | none => none
        | some r =>
          some { r with
            blocks := store_block b pos (data.take (write_size data.length (left_space pos)))
                        :: r.blocks }

/-- The block the second loop of `ufs_write` appends: a new buffer, then
`memcpy(new_last_block->memory, src, src.length)` and `occupied += ...`. -/
def new_block (u : Uninit) (a k : Nat) (src : List Byte) : block :=
  { memory := src ++ (fresh_memory u a k).drop src.length, occupied := 0 + src.length }

/-- The second loop of `ufs_write` (lines 296-325), which appends new blocks to
the file at address `a`.  The first argument bounds the number of rounds; a
round writes at least one byte, so the length of the data is enough. -/
def write_new (u : Uninit) (a : Nat) : Nat → Nat → Nat → Nat → List Byte → Option wloop
  | fuel, cb, pos, fsize, data =>
    if data.length = 0 then some ⟨false, [], cb, pos, fsize, data⟩
    else
      match fuel with
      | 0 => none
      | fuel + 1 =>
        if ((cb + 1) * BLOCK_SIZE + 0 + write_size data.length BLOCK_SIZE) % SIZE_MOD
            > MAX_FILE_SIZE then
          some ⟨true, [{ memory := fresh_memory u a (cb + 1), occupied := 0 }], cb + 1, 0, fsize, data⟩
        else
          match write_new u a fuel (cb + 1) (0 + write_size data.length BLOCK_SIZE)
              ((fsize + write_size data.length BLOCK_SIZE) % SIZE_MOD)
              (data.drop (write_size data.length BLOCK_SIZE)) with
          | none => none
          | some r =>
            some { r with
              blocks := new_block u a (cb + 1) (data.take (write_size data.length BLOCK_SIZE))
                          :: r.blocks }

/-- The file `f` after a write: the chain `chain`, the size `size`, and
`last_block` at index `last`. -/
def written_file (f : file) (chain : List block) (size last : Nat) : file :=
  { f with block_list := chain, size := size, last_block := last }

/-- The state after a write through `fd`, whose descriptor is `d` and whose
file is `f`: the file is `written_file f chain size last`, the cursor is at
block `cb`, offset `pos`. -/
def set_written (s : State) (fd : Int) (d : filedesc) (f : file) (chain : List block)
    (size last cb pos : Nat) : State :=
  { s with
    file_list := set_file s.file_list d.file (written_file f chain size last),
    file_descriptors :=
      s.file_descriptors.set fd.toNat
        (slot.desc { d with current_block := cb, current_position := pos }) }

/-- `ufs_write`; `buf` holds the `size` bytes to write, `size = buf.length`.
In the test of line 259 the sum `current_block * BLOCK_SIZE + current_position`
is an `int`, converted to `size_t` to add `size`: where it is more than
`INT_MAX` the addition overflows and the call has no defined result. -/
def ufs_write (s : State) (fd : Int) (buf : List Byte) : Option (Int × State) :=
  if is_incorrect_fd s fd then
    some (-1, { s with error_code := UFS_ERR_NO_FILE })
  else
    match slot_at s fd.toNat with
    | slot.desc d =>
      if !does_have_write_permission d.mode then
        some (-1, { s with error_code := UFS_ERR_NO_PERMISSION })
      else
        match file_at s.file_list d.file with
        | none => none
        | some f =>
          if d.current_block * BLOCK_SIZE + d.current_position > INT_MAX then none
          else if (d.current_block * BLOCK_SIZE + d.current_position + buf.length) % SIZE_MOD
              > MAX_FILE_SIZE then
            some (-1, { s with error_code := UFS_ERR_NO_MEM })
          else if d.current_block > f.block_list.length then none
          else
            match write_existing (f.block_list.drop d.current_block) d.current_block
                d.current_position f.size buf with
            | none => none
            | some r1 =>
              if r1.nomem then
                some (-1,
                  { set_written s fd d f (f.block_list.take d.current_block ++ r1.blocks) r1.size
                      f.last_block r1.current_block r1.current_position with
                    error_code := UFS_ERR_NO_MEM })
              else
                match write_new s.uninit d.file r1.rest.length r1.current_block
                    r1.current_position r1.size r1.rest with
                | none => none
                | some r2 =>
                  if r2.nomem then
                    some (-1,
                      { set_written s fd d f
                          (f.block_list.take d.current_block ++ r1.blocks ++ r2.blocks) r2.size
                          (if r2.blocks.length = 0 then f.last_block else r2.current_block)
                          r2.current_block r2.current_position with
                        error_code := UFS_ERR_NO_MEM })
                  else
                    some (((buf.length - r2.rest.length : Nat) : Int),
                      set_written s fd d f
                        (f.block_list.take d.current_block ++ r1.blocks ++ r2.blocks) r2.size
                        (if r2.blocks.length = 0 then f.last_block else r2.current_block)
                        r2.current_block r2.current_position)
    | _ => none

/-- The state of the last loop of `ufs_read`: the cursor, `read_data_size`
and the bytes copied to `buf` so far. -/
structure rloop where
  current_block : Nat
  current_position : Nat
  read_data_size : Nat
  out : List Byte
  deriving DecidableEq, Repr

/-- The variable `read_size` of the last loop of `ufs_read` (line 379): the
smaller of `(int)(size - read_data_size)` and `block->occupied`. -/
def loop_read_size (left occupied : Nat) : Int :=
  if toInt32 left < (occupied : Int) then toInt32 left else (occupied : Int)

/-- The last loop of `ufs_read` (lines 378-394).  `bs` is the chain from
`block` on.  The first argument bounds the number of rounds: a round that does
not leave the loop copies a byte or moves to the next block, or else repeats
for ever; `none` stands for that, and for a copy of negative length. -/
def read_loop : Nat → List block → Nat → Nat → Nat → Nat → List Byte → Option rloop
  | 0, _, _, _, _, _, _ => none
  | fuel + 1, bs, cb, pos, read, size, out =>
    if read < size then
      match bs with
      | [] => none
      | b :: rest =>
        if loop_read_size (size - read) b.occupied < 0 then none
        else if (loop_read_size (size - read) b.occupied).toNat > BLOCK_SIZE then none
        else if pos + (loop_read_size (size - read) b.occupied).toNat > INT_MAX then none
        else if b.occupied < BLOCK_SIZE then
          some ⟨cb, pos + (loop_read_size (size - read) b.occupied).toNat,
            (read + (loop_read_size (size - read) b.occupied).toNat) % SIZE_MOD,
            out ++ b.memory.take (loop_read_size (size - read) b.occupied).toNat⟩
        else if (read + (loop_read_size (size - read) b.occupied).toNat) % SIZE_MOD < size
            ∧ rest ≠ [] then
          read_loop fuel rest (cb + 1) 0
            ((read + (loop_read_size (size - read) b.occupied).toNat) % SIZE_MOD) size
            (out ++ b.memory.take (loop_read_size (size - read) b.occupied).toNat)
        else
          read_loop fuel (b :: rest) cb (pos + (loop_read_size (size - read) b.occupied).toNat)
            ((read + (loop_read_size (size - read) b.occupied).toNat) % SIZE_MOD) size
            (out ++ b.memory.take (loop_read_size (size - read) b.occupied).toNat)
    else some ⟨cb, pos, read, out⟩

/-- The test `current_position == block->occupied && !block->next` of
`ufs_read`, for the chain `bs` from `block` on. -/
def end_of_chain (bs : List block) (pos : Nat) : Bool :=
  match bs with
  | [] => false
  | b :: rest => decide (pos = b.occupied) && rest.isEmpty

/-- The variable `available_size = block->occupied - current_position` of
`ufs_read`: an `int` difference stored in a `size_t`. -/
def available_size (occupied pos : Nat) : Nat :=
  if pos ≤ occupied then occupied - pos else SIZE_MOD - (pos - occupied)

/-- The state after a read through `fd` has left the cursor of its descriptor
`d` at block `cb`, offset `pos`. -/
def set_cursor (s : State) (fd : Int) (d : filedesc) (cb pos : Nat) : State :=
  { s with
    file_descriptors :=
      s.file_descriptors.set fd.toNat
        (slot.desc { d with current_block := cb, current_position := pos }) }

/-- The part of `ufs_read` after the first test of the end of the data (lines
359-396), for `size > 0`: `b :: rest` is the chain from `block` on, `rs` the
first `read_size`, `fuel` the bound on the rounds of the last loop. -/
def read_blocks (s : State) (fd : Int) (d : filedesc) (b : block) (rest : List block)
    (size rs fuel : Nat) : Option (Int × List Byte × State) :=
  if d.current_position + rs > BLOCK_SIZE then none
  else if rs < size ∧ rest ≠ [] then
    if end_of_chain rest 0 then
      some ((rs : Int), (b.memory.drop d.current_position).take rs,
        set_cursor s fd d (d.current_block + 1) 0)
    else
      match read_loop fuel rest (d.current_block + 1) 0 rs size
          ((b.memory.drop d.current_position).take rs) with
      | none => none
      | some r =>
        some ((r.read_data_size : Int), r.out,
          set_cursor s fd d r.current_block r.current_position)
  else
    if end_of_chain (b :: rest) (d.current_position + rs) then
      some ((rs : Int), (b.memory.drop d.current_position).take rs,
        set_cursor s fd d d.current_block (d.current_position + rs))
    else
      match read_loop fuel (b :: rest) d.current_block (d.current_position + rs) rs size
          ((b.memory.drop d.current_position).take rs) with
      | none => none
      | some r =>
        some ((r.read_data_size : Int), r.out,
          set_cursor s fd d r.current_block r.current_position)

/-- `ufs_read`; the result holds the return value, the bytes copied to `buf`
(its first `read_data_size` bytes) and the new state. -/
def ufs_read (s : State) (fd : Int) (size : Nat) : Option (Int × List Byte × State) :=
  if is_incorrect_fd s fd then
    some (-1, [], { s with error_code := UFS_ERR_NO_FILE })
  else
    match slot_at s fd.toNat with
    | slot.desc d =>
      if !does_have_read_permission d.mode then
        some (-1, [], { s with error_code := UFS_ERR_NO_PERMISSION })
      else
        match file_at s.file_list d.file with
        | none => none
        | some f =>
          match f.block_list.drop d.current_block with
          | [] => none
          | b :: rest =>
            if end_of_chain (b :: rest) d.current_position then some (0, [], s)
            else if size = 0 then some (0, [], s)
            else
              read_blocks s fd d b rest size
                (write_size size (available_size b.occupied d.current_position))
                (size + f.block_list.length + 1)
    | _ => none

/-- `ufs_close`. -/
def ufs_close (s : State) (fd : Int) : Option (Int × State) :=
  delete_fd s fd

/-- The list of files after `ufs_delete` has unlinked the file at index `i`
(lines 415-425): the only element, the head, the tail, or an inner element. -/
def unlink (fl : List file) (i : Nat) : List file :=
  if i = 0 ∧ i + 1 = fl.length then []
  else if i = 0 then fl.drop 1
  else if i + 1 = fl.length then fl.take i
  else fl.take i ++ fl.drop (i + 1)

/-- The index in the list of the file `get_file` returns. -/
def get_file_index : List file → String → Nat
  | [], _ => 0
  | f :: rest, filename => if f.name = filename then 0 else get_file_index rest filename + 1

/-- `ufs_delete`. -/
def ufs_delete (s : State) (filename : String) : Int × State :=
  match get_file s.file_list filename with
  | none => (-1, { s with error_code := UFS_ERR_NO_FILE })
  | some _ => (0, { s with file_list := unlink s.file_list (get_file_index s.file_list filename) })

/-! ## Reachable states and the invariant of the engine -/

/-- The sum of `occupied` over a chain of blocks. -/
def occupied_sum : List block → Nat
  | [] => 0
  | b :: rest => b.occupied + occupied_sum rest

/-- The bytes a chain holds: of every block the first `occupied` bytes. -/
def contents : List block → List Byte
  | [] => []
  | b :: rest => b.memory.take b.occupied ++ contents rest

/-- Every block of the chain but the last is full. -/
def interior_full : List block → Prop
  | [] => True
  | [_] => True
  | b :: c :: rest => b.occupied = BLOCK_SIZE ∧ interior_full (c :: rest)

/-- The states the engine reaches from the start by calls of its operations
whose result is defined.  (A call through a handle whose file was deleted has
no defined result, so no such call occurs.)  A buffer given to `ufs_write` is
an object in memory, no longer than `PTRDIFF_MAX`; the `size` given to
`ufs_read` is a `size_t`. -/
inductive Reachable : State → Prop
  | start (u : Uninit) : Reachable (init u)
  | opened {s s1 : State} {r : Int} (filename : String) (flags : Int) :
      Reachable s → ufs_open s filename flags = some (r, s1) → Reachable s1
  | written {s s1 : State} {r : Int} (fd : Int) (buf : List Byte) :
      Reachable s → buf.length ≤ PTRDIFF_MAX → ufs_write s fd buf = some (r, s1) → Reachable s1
  | read {s s1 : State} {r : Int} {out : List Byte} (fd : Int) (size : Nat) :
      Reachable s → size < SIZE_MOD → ufs_read s fd size = some (r, out, s1) → Reachable s1
  | closed {s s1 : State} {r : Int} (fd : Int) :
      Reachable s → ufs_close s fd = some (r, s1) → Reachable s1
  | deleted {s : State} (filename : String) :
      Reachable s → Reachable (ufs_delete s filename).2

/-- What holds of every file of the list in a reachable state. -/
structure file_ok (f : file) : Prop where
  nonempty : f.block_list ≠ []
  size_eq : f.size = occupied_sum f.block_list
  occ_le : ∀ b ∈ f.block_list, b.occupied ≤ BLOCK_SIZE
  mem_len : ∀ b ∈ f.block_list, b.memory.length = BLOCK_SIZE
  full : interior_full f.block_list
  len_le : f.block_list.length * BLOCK_SIZE ≤ MAX_FILE_SIZE

/-- What holds of every descriptor in a reachable state. -/
structure desc_ok (s : State) (d : filedesc) : Prop where
  addr_lt : d.file < s.next_addr
  pos_le : d.current_position ≤ INT_MAX
  block_lt : ∀ f, file_at s.file_list d.file = some f → d.current_block < f.block_list.length

/-- The invariant of the engine. -/
structure Inv (s : State) : Prop where
  files_ok : ∀ f ∈ s.file_list, file_ok f
  addr_lt : ∀ f ∈ s.file_list, f.addr < s.next_addr
  addr_nodup : (s.file_list.map file.addr).Nodup
  name_nodup : (s.file_list.map file.name).Nodup
  table_len : s.file_descriptors.length = s.file_descriptor_capacity
  count_le : s.file_descriptor_count ≤ s.file_descriptor_capacity
  below_count : ∀ i, i < s.file_descriptor_count → slot_at s i ≠ slot.wild
  desc_below : ∀ i d, slot_at s i = slot.desc d → i < s.file_descriptor_count
  descs_ok : ∀ i d, slot_at s i = slot.desc d → desc_ok s d

/-- What the first loop of `ufs_write` establishes, on the chain `bs` from the
cursor on, when `A` is the sum of `occupied` over the blocks before it. -/
structure we_post (bs : List block) (cb pos A : Nat) (r : wloop) : Prop where
  len : r.blocks.length = bs.length
  occ_le : ∀ b ∈ r.blocks, b.occupied ≤ BLOCK_SIZE
  mem_len : ∀ b ∈ r.blocks, b.memory.length = BLOCK_SIZE
  full : interior_full r.blocks
  size_eq : r.size = A + occupied_sum r.blocks
  cb_ge : cb ≤ r.current_block
  cb_lt : r.current_block < cb + bs.length
  pos_le : r.current_position ≤ BLOCK_SIZE ∨ r.current_position = pos
  more : r.nomem = false → r.rest ≠ [] →
    (∀ b ∈ r.blocks, b.occupied = BLOCK_SIZE) ∧ r.current_block + 1 = cb + bs.length ∧
    r.current_position = BLOCK_SIZE ∧
    r.current_block * BLOCK_SIZE + BLOCK_SIZE + r.rest.length ≤ MAX_FILE_SIZE

/-- What the second loop of `ufs_write` establishes when it starts at block
`cb` with the bytes `data` left to write. -/
structure wn_post (cb pos fsize : Nat) (data : List Byte) (r : wloop) : Prop where
  nomem : r.nomem = false
  rest : r.rest = []
  occ_le : ∀ b ∈ r.blocks, b.occupied ≤ BLOCK_SIZE
  mem_len : ∀ b ∈ r.blocks, b.memory.length = BLOCK_SIZE
  full : interior_full r.blocks
  sum : occupied_sum r.blocks = data.length
  size_eq : r.size = fsize + data.length
  cb_eq : r.current_block = cb + r.blocks.length
  len_eq : r.blocks.length = (data.length + 511) / 512
  pos_eq : r.current_position =
    if data.length = 0 then pos else data.length - 512 * ((data.length - 1) / 512)
  bytes : contents r.blocks = data

/-- What `create_fd` establishes for the file `f` at address `a`. -/
structure create_post (s : State) (a : Nat) (mode : Int) (f : file) (fd : Int) (s1 : State) :
    Prop where
  fd_nonneg : 0 ≤ fd
  was_free : ∀ d, slot_at s fd.toNat ≠ slot.desc d
  files : s1.file_list = set_file s.file_list a { f with refs := f.refs + 1 }
  slot_eq : slot_at s1 fd.toNat = slot.desc ⟨a, mode, 0, 0⟩
  others : ∀ i, i ≠ fd.toNat → i < s.file_descriptors.length → slot_at s1 i = slot_at s i
  open_iff : ∀ i d, i ≠ fd.toNat → (slot_at s1 i = slot.desc d ↔ slot_at s i = slot.desc d)
  next_addr : s1.next_addr = s.next_addr
  error : s1.error_code = s.error_code
  uninit : s1.uninit = s.uninit
  inv : Inv s1

/-- The list of files without the first file of the name: what `unlink` leaves
when it is given the index `get_file_index` finds. -/
def erase_name : List file → String → List file
  | [], _ => []
  | f :: rest, filename => if f.name = filename then rest else f :: erase_name rest filename

/-! ## Concrete runs -/

/-- An assignment of the uninitialised memory: every byte 0, every fresh slot
of the descriptor array non-null garbage, every fresh `refs` 0. -/
def demo_u : Uninit := { refs := fun _ => 0, slot_null := fun _ => false, byte := fun _ _ _ => 0 }

/-- The state a call leaves when its result is defined (and `s` otherwise). -/
def state_of (r : Option (Int × State)) (s : State) : State :=
  match r with
  | some (_, s1) => s1
  | none => s

/-- The first file of the list of files of a state. -/
def first_file (s : State) : file := s.file_list.headD (new_file s.uninit 0 "")

/-- The engine after `ufs_open("a", UFS_CREATE)`. -/
def demo_s1 : State := state_of (ufs_open (init demo_u) "a" UFS_CREATE) (init demo_u)

/-- The engine after `ufs_open("a", UFS_CREATE)` and a write of three bytes. -/
def demo_s2 : State := state_of (ufs_write demo_s1 0 [1, 2, 3]) demo_s1

/-- The engine after `ufs_open("a", UFS_CREATE)`, a write of three bytes and
`ufs_open("b", UFS_CREATE)`. -/
def demo_s3 : State := state_of (ufs_open demo_s2 "b" UFS_CREATE) demo_s2

/-- The file at index `i` of the list of files of a state. -/
def nth_file (s : State) (i : Nat) : file := (s.file_list.drop i).headD (new_file s.uninit 0 "")

/-- The engine after `ufs_open("a", UFS_CREATE)` and a write of 1024 bytes. -/
def demo_r2 : State := state_of (ufs_write demo_s1 0 (List.replicate 1024 7)) demo_s1

/-- The engine of `demo_r2` after `ufs_open("a", UFS_READ_ONLY)`, which
returns the handle 1. -/
def demo_r3 : State := state_of (ufs_open demo_r2 "a" UFS_READ_ONLY) demo_r2

/-- The engine after `ufs_open("a", UFS_CREATE)` and a write of 513 bytes. -/
def demo_t2 : State := state_of (ufs_write demo_s1 0 (List.replicate 513 7)) demo_s1

/-- The engine of `demo_t2` after a second `ufs_open("a", UFS_CREATE)`, which
returns the handle 1. -/
def demo_t3 : State := state_of (ufs_open demo_t2 "a" UFS_CREATE) demo_t2

/-- The return value of a call, when its result is defined. -/
def value_of (r : Option (Int × State)) : Option Int := r.map Prod.fst

/-- The 104857599 bytes, one less than `MAX_FILE_SIZE`, of the first write of
the run that ends at the size cap. -/
def cap_data : List Byte := List.replicate 104857599 0

/-- The calls `ufs_write(fd, w)` for the buffers `w` of a list, in order: the
return values and the last state. -/
def write_all (s : State) (fd : Int) : List (List Byte) → Option (List Int × State)
  | [] => some ([], s)
  | w :: ws =>
    match ufs_write s fd w with
    | none => none
    | some (r, s1) =>
      match write_all s1 fd ws with
      | none => none
      | some (rs, s2) => some (r :: rs, s2)

/-- An assignment of the uninitialised memory in which the field `refs` of a
new `struct file` reads 41 (every byte 0, every fresh slot of the descriptor
array non-null garbage). -/
def demo_v : Uninit := { refs := fun _ => 41, slot_null := fun _ => false, byte := fun _ _ _ => 0 }

/-- The number of open descriptors on the file at address `a`: the elements of
the array `file_descriptors` that point to a descriptor whose `file` is `a`. -/
def open_count (s : State) (a : Nat) : Nat :=
  (s.file_descriptors.filter (fun x =>
    match x with
    | slot.desc d => decide (d.file = a)
    | _ => false)).length

/-- The guard of line 259 of `ufs_write`,
`current_block * BLOCK_SIZE + current_position + size > MAX_FILE_SIZE`: the
sum is computed in `size_t`, the type of `size`. -/
def cap_guard (cb pos size : Nat) : Bool :=
  decide ((cb * BLOCK_SIZE + pos + size) % SIZE_MOD > MAX_FILE_SIZE)

/-- One call of an operation of the engine whose result is defined, from the
state `s` to the state `s1`. -/
inductive Step : State → State → Prop
  | opened {s s1 : State} {r : Int} (filename : String) (flags : Int) :
      ufs_open s filename flags = some (r, s1) → Step s s1
  | written {s s1 : State} {r : Int} (fd : Int) (buf : List Byte) :
      buf.length ≤ PTRDIFF_MAX → ufs_write s fd buf = some (r, s1) → Step s s1
  | read {s s1 : State} {r : Int} {out : List Byte} (fd : Int) (size : Nat) :
      size < SIZE_MOD → ufs_read s fd size = some (r, out, s1) → Step s s1
  | closed {s s1 : State} {r : Int} (fd : Int) :
      ufs_close s fd = some (r, s1) → Step s s1
  | deleted {s : State} (filename : String) : Step s (ufs_delete s filename).2
/-- The engine of `demo_s2` after `ufs_open("a", UFS_WRITE_ONLY)`, which
returns the handle 1. -/
def demo_w : State := state_of (ufs_open demo_s2 "a" UFS_WRITE_ONLY) demo_s2

/-- The engine of `demo_s3`, where the handles 0 and 1 are open, after
`ufs_close(0)`. -/
def demo_c : State := state_of (ufs_close demo_s3 0) demo_s3

/-- Every block of the chain `l` has a block at the same index of the chain
`l1`, whose `occupied` is at least as large. -/
def occupied_le : List block → List block → Prop
  | [], _ => True
  | _ :: _, [] => False
  | b :: rest, c :: rest1 => b.occupied ≤ c.occupied ∧ occupied_le rest rest1

/-- What holds of the chain of every file in a reachable state beyond
`file_ok`: no block after the first is empty, and `last_block` is the last
block of the chain. -/
structure chain_ok (f : file) : Prop where
  tail_pos : ∀ b ∈ f.block_list.drop 1, 1 ≤ b.occupied
  last_eq : f.last_block + 1 = f.block_list.length

/-- The layout of a file that holds `T` bytes written in sequence: the chain
has `max 1 (ceil (T / BLOCK_SIZE))` blocks, every block but the last is full,
the last holds the remaining `T - BLOCK_SIZE * (blocks - 1)` bytes, and
`last_block` is the last block of the chain. -/
def sequential_layout (f : file) (T : Nat) : Prop :=
  f.block_list.length = max 1 ((T + BLOCK_SIZE - 1) / BLOCK_SIZE) ∧
  (∀ b ∈ f.block_list.dropLast, b.occupied = BLOCK_SIZE) ∧
  (∀ b, f.block_list.getLast? = some b →
    b.occupied = T - BLOCK_SIZE * (f.block_list.length - 1)) ∧
  f.last_block + 1 = f.block_list.length

/-- The handle `fd` is open on the live file at address `a`, which has the
name `name` and the size `size`, and its cursor is at the end of the data: in
the last block of the chain, at the linear offset `size`. -/
def cursor_at_end (s : State) (fd : Int) (a : Nat) (name : String) (size : Nat) : Prop :=
  ∃ d f, slot_at s fd.toNat = slot.desc d ∧ d.file = a ∧ file_at s.file_list a = some f ∧
    f.name = name ∧ f.size = size ∧ d.current_block + 1 = f.block_list.length ∧
    d.current_block * BLOCK_SIZE + d.current_position = size

/-- The engine of `demo_r2`, whose file "a" holds 1024 bytes in two full
blocks, after a second `ufs_open("a", UFS_CREATE)`, which returns the handle 1,
open read-write at cursor 0. -/
def demo_o3 : State := state_of (ufs_open demo_r2 "a" UFS_CREATE) demo_r2

/-- `resize_file_descriptors` with the `int` arithmetic of the counter
`file_descriptor_capacity`: where the product of `file_descriptor_capacity *= 2`
(line 104) is more than `INT_MAX` the multiplication overflows and the call has
no defined result.  (`resize_file_descriptors` is this function with the
counter a natural number: it is the same wherever this one has a result.) -/
def resize_file_descriptors_int (s : State) : Option State :=
  let s1 : State :=
    if s.file_descriptor_capacity = 0 then
      { s with file_descriptor_capacity := 2,
               file_descriptors := (List.range 2).map (fresh_slot s.uninit) }
    else s
  if s1.file_descriptor_count = s1.file_descriptor_capacity then
    if s1.file_descriptor_capacity * 2 > INT_MAX then none
    else
      some { s1 with file_descriptor_capacity := s1.file_descriptor_capacity * 2,
                     file_descriptors := s1.file_descriptors ++
                       (List.range' s1.file_descriptor_capacity
                         s1.file_descriptor_capacity).map (fresh_slot s1.uninit) }
  else some s1

/-- The engine after `n + 1` calls `ufs_open("a", UFS_CREATE)` from the start:
`n + 1` descriptors are open on the file "a". -/
def opens : Nat → State
  | 0 => demo_s1
  | n + 1 => state_of (ufs_open (opens n) "a" UFS_CREATE) (opens n)

/-! ## Lists of files -/

theorem file_list_add_eq (fl : List file) (f : file) : file_list_add fl f = fl ++ [f] := by
  induction fl with
  | nil => rfl
  | cons c rest ih => simp [file_list_add, ih]

theorem file_at_some {fl : List file} {a : Nat} {f : file} (h : file_at fl a = some f) :
    f ∈ fl ∧ f.addr = a := by
  induction fl with
  | nil => simp [file_at] at h
  | cons c rest ih =>
    unfold file_at at h
    split at h
    · cases h; simp_all
    · have := ih h; simp_all

theorem file_at_none {fl : List file} {a : Nat} (h : file_at fl a = none) :
    ∀ f ∈ fl, f.addr ≠ a := by
  induction fl with
  | nil => simp
  | cons c rest ih =>
    unfold file_at at h
    split at h
    · cases h
    · intro f hf
      rcases List.mem_cons.mp hf with rfl | hf
      · assumption
      · exact ih h f hf

theorem file_at_of_mem {fl : List file} {f : file} (hn : (fl.map file.addr).Nodup)
    (hf : f ∈ fl) : file_at fl f.addr = some f := by
  induction fl with
  | nil => cases hf
  | cons c rest ih =>
    simp only [List.map_cons, List.nodup_cons] at hn
    unfold file_at
    rcases List.mem_cons.mp hf with rfl | hf
    · simp
    · have hne : c.addr ≠ f.addr := by
        intro h
        exact hn.1 (h ▸ List.mem_map_of_mem file.addr hf)
      simp [hne, ih hn.2 hf]

theorem get_file_some {fl : List file} {n : String} {f : file} (h : get_file fl n = some f) :
    f ∈ fl ∧ f.name = n := by
  induction fl with
  | nil => simp [get_file] at h
  | cons c rest ih =>
    unfold get_file at h
    split at h
    · cases h; simp_all
    · have := ih h; simp_all

theorem get_file_none {fl : List file} {n : String} (h : get_file fl n = none) :
    ∀ f ∈ fl, f.name ≠ n := by
  induction fl with
  | nil => simp
  | cons c rest ih =>
    unfold get_file at h
    split at h
    · cases h
    · intro f hf
      rcases List.mem_cons.mp hf with rfl | hf
      · assumption
      · exact ih h f hf

theorem get_file_of_mem {fl : List file} {f : file} (hn : (fl.map file.name).Nodup)
    (hf : f ∈ fl) : get_file fl f.name = some f := by
  induction fl with
  | nil => cases hf
  | cons c rest ih =>
    simp only [List.map_cons, List.nodup_cons] at hn
    unfold get_file
    rcases List.mem_cons.mp hf with rfl | hf
    · simp
    · have hne : c.name ≠ f.name := by
        intro h
        exact hn.1 (h ▸ List.mem_map_of_mem file.name hf)
      simp [hne, ih hn.2 hf]

theorem set_file_length (fl : List file) (a : Nat) (g : file) :
    (set_file fl a g).length = fl.length := by
  simp [set_file]

theorem set_file_map_addr (fl : List file) (a : Nat) (g : file) (hg : g.addr = a) :
    (set_file fl a g).map file.addr = fl.map file.addr := by
  induction fl with
  | nil => rfl
  | cons c rest ih =>
    simp only [set_file, List.map_cons] at ih ⊢
    rw [ih]
    by_cases h : c.addr = a <;> simp [h, hg]

theorem set_file_map_name (fl : List file) (a : Nat) (g f : file)
    (hf : file_at fl a = some f) (hn : (fl.map file.addr).Nodup) (hg : g.name = f.name) :
    (set_file fl a g).map file.name = fl.map file.name := by
  unfold set_file
  rw [List.map_map]
  apply List.map_congr_left
  intro x hx
  simp only [Function.comp]
  split
  · rename_i hxa
    have h1 := file_at_of_mem hn hx
    rw [hxa, hf] at h1
    cases h1
    exact hg
  · rfl

theorem mem_set_file {fl : List file} {a : Nat} {g x : file} (hx : x ∈ set_file fl a g) :
    x = g ∨ (x ∈ fl ∧ x.addr ≠ a) := by
  unfold set_file at hx
  rcases List.mem_map.mp hx with ⟨y, hy, rfl⟩
  by_cases h : y.addr = a
  · left; simp [h]
  · right; simp [h, hy]

theorem file_at_set_file_same {fl : List file} {a : Nat} {g f : file}
    (hf : file_at fl a = some f) (hg : g.addr = a) : file_at (set_file fl a g) a = some g := by
  induction fl with
  | nil => simp [file_at] at hf
  | cons c rest ih =>
    unfold file_at at hf
    simp only [set_file, List.map_cons] at ih ⊢
    split at hf
    · rename_i hc
      simp [hc, file_at, hg]
    · rename_i hc
      simp only [hc, if_false]
      unfold file_at
      simp only [hc, if_false]
      exact ih hf

theorem file_at_set_file_other {fl : List file} {a b : Nat} {g : file}
    (hg : g.addr = a) (hb : b ≠ a) : file_at (set_file fl a g) b = file_at fl b := by
  induction fl with
  | nil => rfl
  | cons c rest ih =>
    simp only [set_file, List.map_cons] at ih ⊢
    by_cases hc : c.addr = a
    · have h1 : ¬ g.addr = b := by omega
      have h2 : ¬ c.addr = b := by omega
      simp only [hc, if_true]
      unfold file_at
      simp only [h1, h2, if_false]
      exact ih
    · simp only [hc, if_false]
      unfold file_at
      rw [ih]

theorem file_at_set_file_none {fl : List file} {a b : Nat} {g : file}
    (hg : g.addr = a) (h : file_at fl b = none) : file_at (set_file fl a g) b = none := by
  by_cases hb : b = a
  · subst hb
    induction fl with
    | nil => rfl
    | cons c rest ih =>
      unfold file_at at h
      split at h
      · cases h
      · rename_i hc
        simp only [set_file, List.map_cons, hc, if_false] at ih ⊢
        unfold file_at
        simp only [hc, if_false]
        exact ih h
  · rw [file_at_set_file_other hg hb]; exact h

/-! ## The loops of `ufs_write` -/

theorem write_size_le (n left : Nat) : write_size n left ≤ n := by
  unfold write_size; split <;> omega

theorem write_size_cases (n pos : Nat) (h : pos + write_size n (left_space pos) ≤ BLOCK_SIZE) :
    write_size n (left_space pos) = n ∨
      (write_size n (left_space pos) = BLOCK_SIZE - pos ∧ BLOCK_SIZE - pos < n) := by
  unfold write_size left_space at *
  simp only [BLOCK_SIZE, SIZE_MOD] at *
  split_ifs at * <;> omega

theorem store_block_memory_length (b : block) (pos : Nat) (src : List Byte)
    (hb : b.memory.length = BLOCK_SIZE) (h : pos + src.length ≤ BLOCK_SIZE) :
    (store_block b pos src).memory.length = BLOCK_SIZE := by
  simp only [store_block, List.length_append, List.length_take, List.length_drop, hb]
  omega

theorem store_block_occupied (b : block) (pos : Nat) (src : List Byte) :
    (store_block b pos src).occupied = max (pos + src.length) b.occupied := by
  simp only [store_block]
  split <;> omega

theorem size_after_eq (A occ pos1 : Nat) (h1 : A + pos1 < SIZE_MOD) (h2 : A + occ < SIZE_MOD) :
    size_after (A + occ) occ pos1 = A + max pos1 occ := by
  unfold size_after
  simp only [SIZE_MOD] at *
  split <;> omega

theorem occupied_sum_le (bs : List block) (h : ∀ b ∈ bs, b.occupied ≤ BLOCK_SIZE) :
    occupied_sum bs ≤ BLOCK_SIZE * bs.length := by
  induction bs with
  | nil => simp [occupied_sum]
  | cons b rest ih =>
    have h1 := h b (List.mem_cons_self _ _)
    have h2 := ih (fun x hx => h x (List.mem_cons_of_mem _ hx))
    simp only [occupied_sum, List.length_cons, BLOCK_SIZE] at *
    omega

theorem interior_full_cons {x : block} {l : List block} (hx : x.occupied = BLOCK_SIZE)
    (hl : interior_full l) : interior_full (x :: l) := by
  cases l with
  | nil => trivial
  | cons y ys => exact ⟨hx, hl⟩

theorem write_existing_post (bs : List block) : ∀ (cb pos fsize A : Nat) (data : List Byte) (r : wloop),
    (∀ b ∈ bs, b.occupied ≤ BLOCK_SIZE) → (∀ b ∈ bs, b.memory.length = BLOCK_SIZE) →
    interior_full bs → fsize = A + occupied_sum bs → A ≤ BLOCK_SIZE * cb →
    (cb + bs.length) * BLOCK_SIZE ≤ MAX_FILE_SIZE →
    cb * BLOCK_SIZE + pos + data.length ≤ MAX_FILE_SIZE → bs ≠ [] →
    write_existing bs cb pos fsize data = some r → we_post bs cb pos A r := by
  induction bs with
  | nil => intro _ _ _ _ _ _ _ _ _ _ _ _ _ hne; exact absurd rfl hne
  | cons b rest ih =>
    intro cb pos fsize A data r hocc hmem hfull hsize hA hlen hbud _ h
    have hb_occ := hocc b (List.mem_cons_self _ _)
    have hb_mem := hmem b (List.mem_cons_self _ _)
    unfold write_existing at h
    by_cases hd : data.length = 0
    · simp only [hd, if_true] at h
      cases h
      refine ⟨rfl, hocc, hmem, hfull, hsize, le_refl _, ?_, Or.inr rfl, ?_⟩
      · simp only [List.length_cons]; omega
      · intro _ hr
        exact absurd (List.length_eq_zero.mp hd) hr
    · simp only [hd, if_false] at h
      by_cases hck : (cb * BLOCK_SIZE + pos + write_size data.length (left_space pos)) % SIZE_MOD
          ≥ MAX_FILE_SIZE
      · simp only [hck, if_true] at h
        cases h
        refine ⟨rfl, hocc, hmem, hfull, hsize, le_refl _, ?_, Or.inr rfl, ?_⟩
        · simp only [List.length_cons]; omega
        · intro hn; cases hn
      · simp only [hck, if_false] at h
        by_cases hoob : pos + write_size data.length (left_space pos) > BLOCK_SIZE
        · simp only [hoob, if_true] at h
          cases h
        · simp only [hoob, if_false] at h
          have hws_le := write_size_le data.length (left_space pos)
          have hws := write_size_cases data.length pos (by omega)
          generalize write_size data.length (left_space pos) = ws at *
          have htake : (data.take ws).length = ws := by
            rw [List.length_take]; omega
          have hsb_mem := store_block_memory_length b pos (data.take ws) hb_mem (by omega)
          have hsb_occ := store_block_occupied b pos (data.take ws)
          rw [htake] at hsb_occ
          have hdrop : (data.drop ws).length = data.length - ws := List.length_drop _ _
          cases rest with
          | nil =>
            simp only at h
            cases h
            have hsz := size_after_eq A b.occupied (pos + ws)
              (by simp only [SIZE_MOD, BLOCK_SIZE, MAX_FILE_SIZE] at *; omega)
              (by simp only [SIZE_MOD, BLOCK_SIZE, MAX_FILE_SIZE] at *; omega)
            have hsize1 : fsize = A + b.occupied := by
              rw [hsize]; simp only [occupied_sum]; omega
            rw [hsize1]
            refine ⟨rfl, ?_, ?_, trivial, ?_, le_refl _, ?_, Or.inl ?_, ?_⟩
            · intro x hx
              rw [List.mem_singleton] at hx
              subst hx
              rw [hsb_occ]; omega
            · intro x hx
              rw [List.mem_singleton] at hx
              subst hx
              exact hsb_mem
            · show size_after (A + b.occupied) b.occupied (pos + ws)
                = A + occupied_sum [store_block b pos (List.take ws data)]
              simp only [occupied_sum]
              rw [hsz, hsb_occ]; omega
            · show cb < cb + [b].length
              simp
            · show pos + ws ≤ BLOCK_SIZE
              omega
            · intro _ hr
              have hpos : 0 < (data.drop ws).length := List.length_pos.mpr hr
              refine ⟨?_, rfl, ?_, ?_⟩
              · intro x hx
                rw [List.mem_singleton] at hx
                subst hx
                rw [hsb_occ]; simp only [BLOCK_SIZE] at *; omega
              · show pos + ws = BLOCK_SIZE
                simp only [BLOCK_SIZE] at *; omega
              · show cb * BLOCK_SIZE + BLOCK_SIZE + (data.drop ws).length ≤ MAX_FILE_SIZE
                simp only [BLOCK_SIZE, MAX_FILE_SIZE] at *; omega
          | cons c rest1 =>
            simp only at h
            cases hrec : write_existing (c :: rest1) (cb + 1) 0
                (size_after fsize b.occupied (pos + ws)) (data.drop ws) with
            | none => rw [hrec] at h; cases h
            | some r1 =>
              rw [hrec] at h
              cases h
              have hbfull : b.occupied = BLOCK_SIZE := hfull.1
              have hsum := occupied_sum_le (c :: rest1)
                (fun x hx => hocc x (List.mem_cons_of_mem _ hx))
              have hsz := size_after_eq (A + occupied_sum (c :: rest1)) b.occupied (pos + ws)
                (by simp only [SIZE_MOD, BLOCK_SIZE, MAX_FILE_SIZE, List.length_cons] at *; omega)
                (by simp only [SIZE_MOD, BLOCK_SIZE, MAX_FILE_SIZE, List.length_cons] at *; omega)
              have hsize1 : fsize = A + occupied_sum (c :: rest1) + b.occupied := by
                rw [hsize]; simp only [occupied_sum]; omega
              rw [hsize1] at hrec
              rw [hsz] at hrec
              have hpost := ih (cb + 1) 0 _ (A + max (pos + ws) b.occupied) (data.drop ws) r1
                (fun x hx => hocc x (List.mem_cons_of_mem _ hx))
                (fun x hx => hmem x (List.mem_cons_of_mem _ hx))
                hfull.2 (by omega)
                (by simp only [BLOCK_SIZE] at *; omega)
                (by simp only [BLOCK_SIZE, MAX_FILE_SIZE, List.length_cons] at *; omega)
                (by simp only [BLOCK_SIZE, MAX_FILE_SIZE, List.length_cons] at *; omega)
                (by simp) hrec
              have hsb_full : (store_block b pos (List.take ws data)).occupied = BLOCK_SIZE := by
                rw [hsb_occ]; omega
              refine ⟨?_, ?_, ?_, ?_, ?_, ?_, ?_, ?_, ?_⟩
              · show (store_block b pos (List.take ws data) :: r1.blocks).length
                  = (b :: c :: rest1).length
                simp only [List.length_cons, hpost.len]
              · intro x hx
                rcases List.mem_cons.mp hx with rfl | hx
                · rw [hsb_occ]; omega
                · exact hpost.occ_le x hx
              · intro x hx
                rcases List.mem_cons.mp hx with rfl | hx
                · exact hsb_mem
                · exact hpost.mem_len x hx
              · exact interior_full_cons hsb_full hpost.full
              · show r1.size = A + occupied_sum (store_block b pos (List.take ws data) :: r1.blocks)
                simp only [occupied_sum]
                rw [hpost.size_eq, hsb_occ]; omega
              · have := hpost.cb_ge
                show cb ≤ r1.current_block
                omega
              · have := hpost.cb_lt
                show r1.current_block < cb + (b :: c :: rest1).length
                simp only [List.length_cons] at *; omega
              · left
                show r1.current_position ≤ BLOCK_SIZE
                rcases hpost.pos_le with h1 | h1 <;> omega
              · intro hn hr
                obtain ⟨h1, h2, h3, h4⟩ := hpost.more hn hr
                refine ⟨?_, ?_, h3, h4⟩
                · intro x hx
                  rcases List.mem_cons.mp hx with rfl | hx
                  · exact hsb_full
                  · exact h1 x hx
                · show r1.current_block + 1 = cb + (b :: c :: rest1).length
                  simp only [List.length_cons] at *; omega

theorem fresh_memory_length (u : Uninit) (a k : Nat) : (fresh_memory u a k).length = BLOCK_SIZE := by
  simp [fresh_memory]

theorem new_block_memory_length (u : Uninit) (a k : Nat) (src : List Byte)
    (h : src.length ≤ BLOCK_SIZE) : (new_block u a k src).memory.length = BLOCK_SIZE := by
  simp only [new_block, List.length_append, List.length_drop, fresh_memory_length]
  omega

theorem write_new_post (u : Uninit) (a : Nat) (fuel : Nat) :
    ∀ (cb pos fsize : Nat) (data : List Byte), data.length ≤ fuel →
    (data.length = 0 ∨ cb * BLOCK_SIZE + BLOCK_SIZE + data.length ≤ MAX_FILE_SIZE) →
    fsize + data.length < SIZE_MOD →
    ∃ r, write_new u a fuel cb pos fsize data = some r ∧ wn_post cb pos fsize data r := by
  induction fuel with
  | zero =>
    intro cb pos fsize data hfuel _ _
    have hd : data.length = 0 := by omega
    refine ⟨⟨false, [], cb, pos, fsize, data⟩, ?_, ?_⟩
    · unfold write_new; simp only [hd, if_true]
    · have hnil : data = [] := List.length_eq_zero.mp hd
      subst hnil
      exact ⟨rfl, rfl, by simp, by simp, trivial, rfl, rfl, rfl, rfl, rfl, rfl⟩
  | succ fuel ih =>
    intro cb pos fsize data hfuel hbud hsz
    by_cases hd : data.length = 0
    · refine ⟨⟨false, [], cb, pos, fsize, data⟩, ?_, ?_⟩
      · unfold write_new; simp only [hd, if_true]
      · have hnil : data = [] := List.length_eq_zero.mp hd
        subst hnil
        exact ⟨rfl, rfl, by simp, by simp, trivial, rfl, rfl, rfl, rfl, rfl, rfl⟩
    · have hbud1 : cb * BLOCK_SIZE + BLOCK_SIZE + data.length ≤ MAX_FILE_SIZE := by
        rcases hbud with h | h
        · exact absurd h hd
        · exact h
      have hws_le := write_size_le data.length BLOCK_SIZE
      have hws : write_size data.length BLOCK_SIZE = data.length ∧ data.length ≤ BLOCK_SIZE ∨
          write_size data.length BLOCK_SIZE = BLOCK_SIZE ∧ BLOCK_SIZE < data.length := by
        unfold write_size; split <;> omega
      have hck : ¬ ((cb + 1) * BLOCK_SIZE + 0 + write_size data.length BLOCK_SIZE) % SIZE_MOD
          > MAX_FILE_SIZE := by
        simp only [BLOCK_SIZE, MAX_FILE_SIZE, SIZE_MOD] at *
        omega
      unfold write_new
      simp only [hd, if_false, hck]
      generalize write_size data.length BLOCK_SIZE = ws at *
      have hdrop : (data.drop ws).length = data.length - ws := List.length_drop _ _
      have htake : (data.take ws).length = ws := by rw [List.length_take]; omega
      obtain ⟨r1, hr1, hp⟩ := ih (cb + 1) (0 + ws) ((fsize + ws) % SIZE_MOD) (data.drop ws)
        (by simp only [BLOCK_SIZE] at *; omega)
        (by simp only [BLOCK_SIZE, MAX_FILE_SIZE] at *; omega)
        (by simp only [SIZE_MOD] at *; omega)
      rw [hr1]
      refine ⟨_, rfl, ?_⟩
      have hnb_occ : (new_block u a (cb + 1) (data.take ws)).occupied = ws := by
        simp only [new_block, htake]; omega
      have hnb_mem := new_block_memory_length u a (cb + 1) (data.take ws) (by omega)
      have hlen1 := hp.len_eq
      rw [hdrop] at hlen1
      refine ⟨hp.nomem, hp.rest, ?_, ?_, ?_, ?_, ?_, ?_, ?_, ?_, ?_⟩
      · intro x hx
        rcases List.mem_cons.mp hx with rfl | hx
        · rw [hnb_occ]; omega
        · exact hp.occ_le x hx
      · intro x hx
        rcases List.mem_cons.mp hx with rfl | hx
        · exact hnb_mem
        · exact hp.mem_len x hx
      · show interior_full (new_block u a (cb + 1) (data.take ws) :: r1.blocks)
        cases hb : r1.blocks with
        | nil => trivial
        | cons y ys =>
          have hfull := hp.full
          rw [hb] at hfull hlen1
          refine ⟨?_, hfull⟩
          rw [hnb_occ]
          simp only [List.length_cons, BLOCK_SIZE] at *
          omega
      · show occupied_sum (new_block u a (cb + 1) (data.take ws) :: r1.blocks) = data.length
        simp only [occupied_sum, hp.sum, hnb_occ, hdrop]
        omega
      · show r1.size = fsize + data.length
        rw [hp.size_eq, hdrop]
        simp only [SIZE_MOD] at *
        omega
      · show r1.current_block = cb + (new_block u a (cb + 1) (data.take ws) :: r1.blocks).length
        rw [hp.cb_eq]
        simp only [List.length_cons]
        omega
      · show (new_block u a (cb + 1) (data.take ws) :: r1.blocks).length = (data.length + 511) / 512
        simp only [List.length_cons, hlen1, BLOCK_SIZE] at *
        omega
      · show r1.current_position = _
        rw [hp.pos_eq, hdrop]
        simp only [hd, if_false, BLOCK_SIZE] at *
        split <;> omega
      · show contents (new_block u a (cb + 1) (data.take ws) :: r1.blocks) = data
        simp only [contents, hp.bytes, hnb_occ]
        simp only [new_block]
        rw [List.take_append_of_le_length (by omega), List.take_of_length_le (by omega)]
        exact List.take_append_drop ws data

/-! ## The descriptor table -/

theorem slot_at_set (s : State) (fds : List slot) (i j : Nat) (x : slot)
    (hfds : fds = s.file_descriptors.set i x) (s1 : State) (h1 : s1.file_descriptors = fds) :
    slot_at s1 j = if i = j ∧ i < s.file_descriptors.length then x else slot_at s j := by
  subst hfds
  unfold slot_at
  rw [h1]
  by_cases hij : i = j
  · subst hij
    by_cases hlt : i < s.file_descriptors.length
    · simp [hlt, List.getElem?_set_self]
    · simp [hlt]
      have h2 : s.file_descriptors.length ≤ i := by omega
      simp [List.getElem?_eq_none, h2]
  · simp [hij, List.getElem?_set_ne]

theorem slot_at_lt_of_desc {s : State} {i : Nat} {d : filedesc} (h : slot_at s i = slot.desc d) :
    i < s.file_descriptors.length := by
  unfold slot_at at h
  by_contra hlt
  have h2 : s.file_descriptors.length ≤ i := by omega
  simp [List.getElem?_eq_none, h2] at h

theorem slot_at_lt_of_null {s : State} {i : Nat} (h : slot_at s i = slot.null) :
    i < s.file_descriptors.length := by
  unfold slot_at at h
  by_contra hlt
  have h2 : s.file_descriptors.length ≤ i := by omega
  simp [List.getElem?_eq_none, h2] at h

theorem slot_at_congr {s s1 : State} (h : s1.file_descriptors = s.file_descriptors) (i : Nat) :
    slot_at s1 i = slot_at s i := by
  unfold slot_at; rw [h]

theorem find_free_some (s : State) (n : Nat) : ∀ (i j : Nat), find_free s n i = some j →
    i ≤ j ∧ j < i + n ∧ slot_at s j = slot.null := by
  induction n with
  | zero => intro i j h; simp [find_free] at h
  | succ n ih =>
    intro i j h
    unfold find_free at h
    split at h
    · rename_i hnull
      cases h
      exact ⟨le_refl _, by omega, hnull⟩
    · obtain ⟨h1, h2, h3⟩ := ih (i + 1) j h
      exact ⟨by omega, by omega, h3⟩

theorem find_free_none (s : State) (n : Nat) : ∀ (i : Nat), find_free s n i = none →
    ∀ j, i ≤ j → j < i + n → slot_at s j ≠ slot.null := by
  induction n with
  | zero => intro i _ j h1 h2; omega
  | succ n ih =>
    intro i h j h1 h2
    unfold find_free at h
    split at h
    · cases h
    · rename_i hnull
      by_cases hij : j = i
      · subst hij
        intro hc
        exact hnull hc
      · exact ih (i + 1) h j (by omega) (by omega)

theorem find_free_congr {s s1 : State} (h : s1.file_descriptors = s.file_descriptors) (n : Nat) :
    ∀ i, find_free s1 n i = find_free s n i := by
  induction n with
  | zero => intro i; rfl
  | succ n ih =>
    intro i
    unfold find_free
    rw [slot_at_congr h, ih]

/-! ## The invariant -/

theorem desc_ok_congr {s s1 : State} {d : filedesc} (h : desc_ok s d)
    (h1 : s1.file_list = s.file_list) (h2 : s1.next_addr = s.next_addr) : desc_ok s1 d := by
  refine ⟨?_, h.pos_le, ?_⟩
  · rw [h2]; exact h.addr_lt
  · rw [h1]; exact h.block_lt

theorem Inv_congr {s s1 : State} (h : Inv s) (h1 : s1.file_list = s.file_list)
    (h2 : s1.file_descriptors = s.file_descriptors)
    (h3 : s1.file_descriptor_count = s.file_descriptor_count)
    (h4 : s1.file_descriptor_capacity = s.file_descriptor_capacity)
    (h5 : s1.next_addr = s.next_addr) : Inv s1 := by
  refine ⟨?_, ?_, ?_, ?_, ?_, ?_, ?_, ?_, ?_⟩
  · rw [h1]; exact h.files_ok
  · rw [h1, h5]; exact h.addr_lt
  · rw [h1]; exact h.addr_nodup
  · rw [h1]; exact h.name_nodup
  · rw [h2, h4]; exact h.table_len
  · rw [h3, h4]; exact h.count_le
  · intro i hi; rw [slot_at_congr h2]; rw [h3] at hi; exact h.below_count i hi
  · intro i d hd; rw [slot_at_congr h2] at hd; rw [h3]; exact h.desc_below i d hd
  · intro i d hd; rw [slot_at_congr h2] at hd; exact desc_ok_congr (h.descs_ok i d hd) h1 h5

theorem Inv_init (u : Uninit) : Inv (init u) := by
  refine ⟨?_, ?_, ?_, ?_, rfl, le_refl _, ?_, ?_, ?_⟩
  · intro f hf; cases hf
  · intro f hf; cases hf
  · exact List.nodup_nil
  · exact List.nodup_nil
  · intro i hi; simp [init] at hi
  · intro i d hd; simp [slot_at, init] at hd
  · intro i d hd; simp [slot_at, init] at hd

theorem Inv_set_file {s s1 : State} (h : Inv s) {a : Nat} {f g : file}
    (hf : file_at s.file_list a = some f) (hga : g.addr = a) (hgn : g.name = f.name)
    (hg : file_ok g) (hlen : f.block_list.length ≤ g.block_list.length)
    (h1 : s1.file_list = set_file s.file_list a g)
    (h2 : s1.file_descriptors = s.file_descriptors)
    (h3 : s1.file_descriptor_count = s.file_descriptor_count)
    (h4 : s1.file_descriptor_capacity = s.file_descriptor_capacity)
    (h5 : s1.next_addr = s.next_addr) : Inv s1 := by
  have hfm := file_at_some hf
  refine ⟨?_, ?_, ?_, ?_, ?_, ?_, ?_, ?_, ?_⟩
  · intro x hx
    rw [h1] at hx
    rcases mem_set_file hx with rfl | ⟨hx, _⟩
    · exact hg
    · exact h.files_ok x hx
  · intro x hx
    rw [h1] at hx
    rw [h5]
    rcases mem_set_file hx with rfl | ⟨hx, _⟩
    · rw [hga, ← hfm.2]; exact h.addr_lt f hfm.1
    · exact h.addr_lt x hx
  · rw [h1, set_file_map_addr _ _ _ hga]; exact h.addr_nodup
  · rw [h1, set_file_map_name _ _ _ _ hf h.addr_nodup hgn]; exact h.name_nodup
  · rw [h2, h4]; exact h.table_len
  · rw [h3, h4]; exact h.count_le
  · intro i hi; rw [slot_at_congr h2]; rw [h3] at hi; exact h.below_count i hi
  · intro i d hd; rw [slot_at_congr h2] at hd; rw [h3]; exact h.desc_below i d hd
  · intro i d hd
    rw [slot_at_congr h2] at hd
    have hd1 := h.descs_ok i d hd
    refine ⟨?_, hd1.pos_le, ?_⟩
    · rw [h5]; exact hd1.addr_lt
    · intro x hx
      rw [h1] at hx
      by_cases hda : d.file = a
      · rw [hda, file_at_set_file_same hf hga] at hx
        cases hx
        have := hd1.block_lt f (hda ▸ hf)
        omega
      · rw [file_at_set_file_other hga hda] at hx
        exact hd1.block_lt x hx

theorem Inv_set_slot {s s1 : State} (h : Inv s) {i : Nat} {x : slot}
    (hi : i < s.file_descriptor_count)
    (hx : x = slot.null ∨ ∃ d, x = slot.desc d ∧ desc_ok s d)
    (h1 : s1.file_list = s.file_list)
    (h2 : s1.file_descriptors = s.file_descriptors.set i x)
    (h3 : s1.file_descriptor_count = s.file_descriptor_count)
    (h4 : s1.file_descriptor_capacity = s.file_descriptor_capacity)
    (h5 : s1.next_addr = s.next_addr) : Inv s1 := by
  have hslot : ∀ j, slot_at s1 j = if i = j ∧ i < s.file_descriptors.length then x
      else slot_at s j := fun j => slot_at_set s _ i j x rfl s1 h2
  refine ⟨?_, ?_, ?_, ?_, ?_, ?_, ?_, ?_, ?_⟩
  · rw [h1]; exact h.files_ok
  · rw [h1, h5]; exact h.addr_lt
  · rw [h1]; exact h.addr_nodup
  · rw [h1]; exact h.name_nodup
  · rw [h2, h4, List.length_set]; exact h.table_len
  · rw [h3, h4]; exact h.count_le
  · intro j hj
    rw [hslot j]
    rw [h3] at hj
    split
    · rcases hx with rfl | ⟨d, rfl, _⟩ <;> simp
    · exact h.below_count j hj
  · intro j d hd
    rw [hslot j] at hd
    rw [h3]
    split at hd
    · rename_i hij
      omega
    · exact h.desc_below j d hd
  · intro j d hd
    rw [hslot j] at hd
    split at hd
    · rcases hx with rfl | ⟨d1, rfl, hd1⟩
      · cases hd
      · cases hd
        exact desc_ok_congr hd1 h1 h5
    · exact desc_ok_congr (h.descs_ok j d hd) h1 h5

theorem fresh_slot_ne_desc (u : Uninit) (i : Nat) (d : filedesc) : fresh_slot u i ≠ slot.desc d := by
  unfold fresh_slot; split <;> simp

theorem getD_map_fresh_ne_desc (u : Uninit) (l : List Nat) (i : Nat) (d : filedesc) :
    ((l.map (fresh_slot u)).get? i).getD slot.wild ≠ slot.desc d := by
  rw [List.get?_eq_getElem?, List.getElem?_map]
  cases l[i]? with
  | none => simp
  | some k => simpa using fresh_slot_ne_desc u k d

theorem resize_post (s : State) (hlen : s.file_descriptors.length = s.file_descriptor_capacity)
    (hcount : s.file_descriptor_count ≤ s.file_descriptor_capacity) :
    (resize_file_descriptors s).file_list = s.file_list ∧
    (resize_file_descriptors s).next_addr = s.next_addr ∧
    (resize_file_descriptors s).error_code = s.error_code ∧
    (resize_file_descriptors s).uninit = s.uninit ∧
    (resize_file_descriptors s).file_descriptor_count = s.file_descriptor_count ∧
    (resize_file_descriptors s).file_descriptors.length
      = (resize_file_descriptors s).file_descriptor_capacity ∧
    s.file_descriptor_count < (resize_file_descriptors s).file_descriptor_capacity ∧
    (∀ i, i < s.file_descriptors.length → slot_at (resize_file_descriptors s) i = slot_at s i) ∧
    (∀ i d, s.file_descriptors.length ≤ i → slot_at (resize_file_descriptors s) i ≠ slot.desc d) := by
  generalize hr : resize_file_descriptors s = s2
  unfold resize_file_descriptors at hr
  by_cases hc : s.file_descriptor_capacity = 0
  · have h0 : s.file_descriptor_count = 0 := by omega
    have hnil : s.file_descriptors = [] := List.length_eq_zero.mp (by omega)
    simp only [hc, if_true, h0] at hr
    simp only [show ¬ (0 = 2) by decide, if_false] at hr
    subst hr
    refine ⟨rfl, rfl, rfl, rfl, h0.symm, by simp, ?_, ?_, ?_⟩
    · show s.file_descriptor_count < 2
      omega
    · intro i hi
      rw [hnil] at hi
      cases hi
    · intro i d _
      exact getD_map_fresh_ne_desc s.uninit _ i d
  · simp only [hc, if_false] at hr
    by_cases hfull : s.file_descriptor_count = s.file_descriptor_capacity
    · simp only [hfull, if_true] at hr
      subst hr
      refine ⟨rfl, rfl, rfl, rfl, hfull.symm, ?_, ?_, ?_, ?_⟩
      · simp [hlen]; omega
      · show s.file_descriptor_count < s.file_descriptor_capacity * 2
        omega
      · intro i hi
        simp only [slot_at]
        rw [List.get?_eq_getElem?, List.get?_eq_getElem?, List.getElem?_append_left hi]
      · intro i d hi
        simp only [slot_at]
        rw [List.get?_eq_getElem?, List.getElem?_append_right hi, ← List.get?_eq_getElem?]
        exact getD_map_fresh_ne_desc s.uninit _ _ d
    · simp only [hfull, if_false] at hr
      subst hr
      refine ⟨rfl, rfl, rfl, rfl, rfl, hlen, by omega, fun _ _ => rfl, ?_⟩
      intro i d hi hd
      have := slot_at_lt_of_desc hd
      omega

theorem create_fd_post {s : State} (h : Inv s) {a : Nat} {f : file} (mode : Int)
    (hf : file_at s.file_list a = some f) :
    ∃ fd s1, create_fd s a mode = some (fd, s1) ∧ create_post s a mode f fd s1 := by
  have hfm := file_at_some hf
  have hfok := h.files_ok f hfm.1
  have hInv1 : Inv { s with file_list := set_file s.file_list a { f with refs := f.refs + 1 } } :=
    Inv_set_file h hf (show ({ f with refs := f.refs + 1 } : file).addr = a from hfm.2) rfl
      ⟨hfok.nonempty, hfok.size_eq, hfok.occ_le, hfok.mem_len, hfok.full, hfok.len_le⟩
      (le_refl _) rfl rfl rfl rfl rfl
  have hdok : desc_ok { s with file_list := set_file s.file_list a { f with refs := f.refs + 1 } }
      ⟨a, mode, 0, 0⟩ := by
    refine ⟨?_, by simp [INT_MAX], ?_⟩
    · show a < s.next_addr
      rw [← hfm.2]; exact h.addr_lt f hfm.1
    · intro x hx
      have hx1 : file_at (set_file s.file_list a { f with refs := f.refs + 1 }) a = some x := hx
      rw [file_at_set_file_same hf
        (show ({ f with refs := f.refs + 1 } : file).addr = a from hfm.2)] at hx1
      cases hx1
      exact List.length_pos.mpr hfok.nonempty
  unfold create_fd
  simp only [hf]
  cases hfree : find_free { s with file_list := set_file s.file_list a { f with refs := f.refs + 1 } }
      s.file_descriptor_count 0 with
  | some i =>
    obtain ⟨_, hi2, hi3⟩ := find_free_some _ _ _ _ hfree
    have hi4 : slot_at s i = slot.null := hi3
    have hilt := slot_at_lt_of_null hi4
    refine ⟨(i : Int), _, rfl, ?_⟩
    have hslot : ∀ j, slot_at { s with
          file_list := set_file s.file_list a { f with refs := f.refs + 1 },
          file_descriptors := s.file_descriptors.set i (slot.desc ⟨a, mode, 0, 0⟩) } j
        = if i = j ∧ i < s.file_descriptors.length then slot.desc ⟨a, mode, 0, 0⟩
          else slot_at s j := fun j => slot_at_set s _ i j _ rfl _ rfl
    refine ⟨by omega, ?_, rfl, ?_, ?_, ?_, rfl, rfl, rfl, ?_⟩
    · intro d; simp [hi4]
    · simp only [Int.toNat_ofNat]; rw [hslot]; simp [hilt]
    · intro j hj _
      simp only [Int.toNat_ofNat] at hj
      rw [hslot]
      have : ¬ (i = j ∧ i < s.file_descriptors.length) := by omega
      simp [this]
    · intro j d hj
      simp only [Int.toNat_ofNat] at hj
      rw [hslot]
      have : ¬ (i = j ∧ i < s.file_descriptors.length) := by omega
      simp [this]
    · exact Inv_set_slot hInv1 (by simpa using hi2) (Or.inr ⟨_, rfl, hdok⟩) rfl rfl rfl rfl rfl
  | none =>
    simp only
    have hnn := find_free_none _ _ _ hfree
    obtain ⟨r1, r2, r3, r4, r5, r6, r7, r8, r9⟩ := resize_post
      { s with file_list := set_file s.file_list a { f with refs := f.refs + 1 } }
      h.table_len h.count_le
    generalize resize_file_descriptors
      { s with file_list := set_file s.file_list a { f with refs := f.refs + 1 } } = s2 at *
    have r5a : s2.file_descriptor_count = s.file_descriptor_count := r5
    have r7a : s.file_descriptor_count < s2.file_descriptor_capacity := r7
    have r8a : ∀ i, i < s.file_descriptors.length → slot_at s2 i = slot_at s i := r8
    have r9a : ∀ i d, s.file_descriptors.length ≤ i → slot_at s2 i ≠ slot.desc d := r9
    have hlt : s2.file_descriptor_count < s2.file_descriptors.length := by omega
    simp only [hlt, if_true]
    refine ⟨_, _, rfl, ?_⟩
    have hslot : ∀ j, slot_at { s2 with
          file_descriptors := s2.file_descriptors.set s2.file_descriptor_count
            (slot.desc ⟨a, mode, 0, 0⟩),
          file_descriptor_count := s2.file_descriptor_count + 1 } j
        = if s2.file_descriptor_count = j ∧ s2.file_descriptor_count < s2.file_descriptors.length
          then slot.desc ⟨a, mode, 0, 0⟩
          else slot_at s2 j := fun j => slot_at_set s2 _ _ j _ rfl _ rfl
    have hlen := h.table_len
    have hcnt := h.count_le
    have hfree_old : ∀ d, slot_at s s.file_descriptor_count ≠ slot.desc d := by
      intro d hd
      have := h.desc_below _ d hd
      omega
    refine ⟨by omega, ?_, r1, ?_, ?_, ?_, r2, r3, r4, ?_⟩
    · intro d
      simp only [Int.toNat_ofNat, r5a]
      exact hfree_old d
    · simp only [Int.toNat_ofNat]; rw [hslot]; simp [hlt]
    · intro j hj hj2
      simp only [Int.toNat_ofNat] at hj
      rw [hslot]
      have : ¬ (s2.file_descriptor_count = j ∧
          s2.file_descriptor_count < s2.file_descriptors.length) := by omega
      simp only [this, if_false]
      exact r8a j hj2
    · intro j d hj
      simp only [Int.toNat_ofNat] at hj
      rw [hslot]
      have : ¬ (s2.file_descriptor_count = j ∧
          s2.file_descriptor_count < s2.file_descriptors.length) := by omega
      simp only [this, if_false]
      by_cases hj2 : j < s.file_descriptors.length
      · rw [r8a j hj2]
      · constructor
        · intro hd; exact absurd hd (r9a j d (by omega))
        · intro hd
          have := slot_at_lt_of_desc hd
          omega
    · refine ⟨?_, ?_, ?_, ?_, ?_, ?_, ?_, ?_, ?_⟩
      · show ∀ x ∈ s2.file_list, file_ok x
        rw [r1]; exact hInv1.files_ok
      · show ∀ x ∈ s2.file_list, x.addr < s2.next_addr
        rw [r1, r2]; exact hInv1.addr_lt
      · show (s2.file_list.map file.addr).Nodup
        rw [r1]; exact hInv1.addr_nodup
      · show (s2.file_list.map file.name).Nodup
        rw [r1]; exact hInv1.name_nodup
      · show (s2.file_descriptors.set _ _).length = s2.file_descriptor_capacity
        rw [List.length_set]; exact r6
      · show s2.file_descriptor_count + 1 ≤ s2.file_descriptor_capacity
        omega
      · intro j hj
        have hj1 : j < s2.file_descriptor_count + 1 := hj
        rw [hslot]
        split
        · simp
        · rename_i hne
          have hj3 : j < s.file_descriptor_count := by omega
          rw [r8a j (by omega)]
          exact h.below_count j hj3
      · intro j d hd
        show j < s2.file_descriptor_count + 1
        rw [hslot] at hd
        split at hd
        · omega
        · by_cases hj2 : j < s.file_descriptors.length
          · rw [r8a j hj2] at hd
            have := h.desc_below j d hd
            omega
          · exact absurd hd (r9a j d (by omega))
      · intro j d hd
        rw [hslot] at hd
        have hcongr : ∀ d1, desc_ok
            { s with file_list := set_file s.file_list a { f with refs := f.refs + 1 } } d1 →
            desc_ok { s2 with
              file_descriptors := s2.file_descriptors.set s2.file_descriptor_count
                (slot.desc ⟨a, mode, 0, 0⟩),
              file_descriptor_count := s2.file_descriptor_count + 1 } d1 :=
          fun d1 hd1 => desc_ok_congr hd1 r1 r2
        split at hd
        · cases hd
          exact hcongr _ hdok
        · by_cases hj2 : j < s.file_descriptors.length
          · rw [r8a j hj2] at hd
            exact hcongr _ (hInv1.descs_ok j d hd)
          · exact absurd hd (r9a j d (by omega))

theorem file_at_append (fl : List file) (g : file) (a : Nat) :
    file_at (fl ++ [g]) a =
      match file_at fl a with
      | some x => some x
      | none => if g.addr = a then some g else none := by
  induction fl with
  | nil => simp [file_at]
  | cons c rest ih =>
    simp only [List.cons_append, file_at]
    split
    · rfl
    · exact ih

theorem get_file_append (fl : List file) (g : file) (n : String) :
    get_file (fl ++ [g]) n =
      match get_file fl n with
      | some x => some x
      | none => if g.name = n then some g else none := by
  induction fl with
  | nil => simp [get_file]
  | cons c rest ih =>
    simp only [List.cons_append, get_file]
    split
    · rfl
    · exact ih

theorem new_file_ok (u : Uninit) (a : Nat) (n : String) : file_ok (new_file u a n) := by
  refine ⟨by simp [new_file], rfl, ?_, ?_, trivial, ?_⟩
  · intro b hb
    simp only [new_file, List.mem_singleton] at hb
    subst hb
    exact Nat.zero_le _
  · intro b hb
    simp only [new_file, List.mem_singleton] at hb
    subst hb
    simp only [fresh_memory_length]
  · simp only [new_file, List.length_singleton, BLOCK_SIZE, MAX_FILE_SIZE]
    omega

theorem Inv_add_file {s : State} (h : Inv s) {n : String} (g : file)
    (hn : get_file s.file_list n = none) (hga : g.addr = s.next_addr) (hgn : g.name = n)
    (hg : file_ok g) :
    Inv { s with file_list := file_list_add s.file_list g, next_addr := s.next_addr + 1 } := by
  rw [file_list_add_eq]
  refine ⟨?_, ?_, ?_, ?_, h.table_len, h.count_le, h.below_count, h.desc_below, ?_⟩
  · intro x hx
    rcases List.mem_append.mp hx with hx | hx
    · exact h.files_ok x hx
    · rw [List.mem_singleton] at hx
      subst hx
      exact hg
  · intro x hx
    show x.addr < s.next_addr + 1
    rcases List.mem_append.mp hx with hx | hx
    · have := h.addr_lt x hx
      omega
    · rw [List.mem_singleton] at hx
      subst hx
      omega
  · show ((s.file_list ++ [g]).map file.addr).Nodup
    rw [List.map_append, List.nodup_append]
    refine ⟨h.addr_nodup, by simp, ?_⟩
    intro x hx1 hx2
    simp only [List.map_cons, List.map_nil, List.mem_singleton] at hx2
    obtain ⟨y, hy, rfl⟩ := List.mem_map.mp hx1
    have := h.addr_lt y hy
    omega
  · show ((s.file_list ++ [g]).map file.name).Nodup
    rw [List.map_append, List.nodup_append]
    refine ⟨h.name_nodup, by simp, ?_⟩
    intro x hx1 hx2
    simp only [List.map_cons, List.map_nil, List.mem_singleton] at hx2
    obtain ⟨y, hy, rfl⟩ := List.mem_map.mp hx1
    exact get_file_none hn y hy (hx2.trans hgn)
  · intro i d hd
    have hd1 := h.descs_ok i d hd
    refine ⟨?_, hd1.pos_le, ?_⟩
    · show d.file < s.next_addr + 1
      have := hd1.addr_lt
      omega
    · intro x hx
      have hx1 : file_at (s.file_list ++ [g]) d.file = some x := hx
      rw [file_at_append] at hx1
      have hne : ¬ g.addr = d.file := by
        have := hd1.addr_lt
        omega
      cases hfa : file_at s.file_list d.file with
      | some y =>
        rw [hfa] at hx1
        cases hx1
        exact hd1.block_lt _ hfa
      | none =>
        rw [hfa] at hx1
        simp [hne] at hx1

theorem ufs_open_missing (s : State) (filename : String) (flags : Int)
    (hflags : flags ≠ UFS_CREATE) (hn : get_file s.file_list filename = none) :
    ufs_open s filename flags = some (-1, { s with error_code := UFS_ERR_NO_FILE }) := by
  unfold ufs_open
  simp [hflags, hn]

/-- The mode `ufs_open` gives the descriptor. -/
theorem ufs_open_existing {s : State} (h : Inv s) {filename : String} {f : file} (flags : Int)
    (hf : get_file s.file_list filename = some f) :
    ∃ fd s1, ufs_open s filename flags = some (fd, s1) ∧
      create_post s f.addr (if flags = UFS_CREATE ∨ flags = 0 then UFS_READ_WRITE else flags)
        f fd s1 := by
  have hfa : file_at s.file_list f.addr = some f :=
    file_at_of_mem h.addr_nodup (get_file_some hf).1
  unfold ufs_open
  by_cases hc : flags = UFS_CREATE
  · simp only [hc, ne_eq, not_true_eq_false, if_false, hf, true_or, if_true]
    exact create_fd_post h _ hfa
  · by_cases h0 : flags = 0
    · simp only [hc, ne_eq, not_false_eq_true, if_true, hf, h0, or_true]
      exact create_fd_post h _ hfa
    · simp only [hc, ne_eq, not_false_eq_true, if_true, hf, h0, if_false, or_self]
      exact create_fd_post h _ hfa

theorem ufs_open_new {s : State} (h : Inv s) {filename : String}
    (hn : get_file s.file_list filename = none) :
    ∃ fd s1, ufs_open s filename UFS_CREATE = some (fd, s1) ∧
      create_post
        { s with file_list := file_list_add s.file_list (new_file s.uninit s.next_addr filename),
                 next_addr := s.next_addr + 1 }
        s.next_addr UFS_READ_WRITE (new_file s.uninit s.next_addr filename) fd s1 := by
  have hInv := Inv_add_file h _ hn rfl rfl (new_file_ok s.uninit s.next_addr filename)
  unfold ufs_open
  simp only [ne_eq, not_true_eq_false, if_false, hn]
  apply create_fd_post hInv
  rw [file_list_add_eq, file_at_append]
  have hnone : file_at s.file_list s.next_addr = none := by
    cases hfa : file_at s.file_list s.next_addr with
    | none => rfl
    | some y =>
      have hy := file_at_some hfa
      have := h.addr_lt y hy.1
      omega
  simp [hnone, new_file]

theorem ufs_open_inv {s s1 : State} {r : Int} (h : Inv s) {filename : String} {flags : Int}
    (ho : ufs_open s filename flags = some (r, s1)) : Inv s1 := by
  cases hg : get_file s.file_list filename with
  | some f =>
    obtain ⟨fd, s2, h1, h2⟩ := ufs_open_existing h flags hg
    rw [h1] at ho
    cases ho
    exact h2.inv
  | none =>
    by_cases hc : flags = UFS_CREATE
    · subst hc
      obtain ⟨fd, s2, h1, h2⟩ := ufs_open_new h hg
      rw [h1] at ho
      cases ho
      exact h2.inv
    · rw [ufs_open_missing s filename flags hc hg] at ho
      cases ho
      exact Inv_congr h rfl rfl rfl rfl rfl

/-! ## `ufs_close` and `ufs_delete` -/

theorem is_incorrect_fd_false {s : State} {fd : Int} (h : is_incorrect_fd s fd = false) :
    0 ≤ fd ∧ fd < (s.file_descriptor_capacity : Int) ∧ slot_at s fd.toNat ≠ slot.null := by
  unfold is_incorrect_fd at h
  simp only [Bool.or_eq_false_iff, decide_eq_false_iff_not, not_lt, ge_iff_le, not_le] at h
  refine ⟨h.1.1, h.1.2, ?_⟩
  intro hn
  rw [hn] at h
  simp at h

theorem ufs_close_inv {s s1 : State} {r : Int} (h : Inv s) {fd : Int}
    (hc : ufs_close s fd = some (r, s1)) : Inv s1 := by
  unfold ufs_close delete_fd at hc
  by_cases hi : is_incorrect_fd s fd = true
  · simp only [hi, if_true] at hc
    cases hc
    exact Inv_congr h rfl rfl rfl rfl rfl
  · simp only [hi] at hc
    cases hs : slot_at s fd.toNat with
    | null => rw [hs] at hc; simp at hc
    | wild => rw [hs] at hc; simp at hc
    | desc d =>
      rw [hs] at hc
      simp only [Bool.false_eq_true, if_false] at hc
      cases hf : file_at s.file_list d.file with
      | none => rw [hf] at hc; simp at hc
      | some f =>
        rw [hf] at hc
        simp only [Option.some.injEq, Prod.mk.injEq] at hc
        obtain ⟨_, rfl⟩ := hc
        have hfm := file_at_some hf
        have hfok := h.files_ok f hfm.1
        have hInv1 : Inv { s with
            file_list := set_file s.file_list d.file { f with refs := f.refs - 1 } } :=
          Inv_set_file h hf (show ({ f with refs := f.refs - 1 } : file).addr = d.file from hfm.2)
            rfl ⟨hfok.nonempty, hfok.size_eq, hfok.occ_le, hfok.mem_len, hfok.full, hfok.len_le⟩
            (le_refl _) rfl rfl rfl rfl rfl
        exact Inv_set_slot hInv1 (h.desc_below _ d hs) (Or.inl rfl) rfl rfl rfl rfl rfl

theorem get_file_index_lt {fl : List file} {n : String} {f : file}
    (h : get_file fl n = some f) : get_file_index fl n < fl.length := by
  induction fl with
  | nil => simp [get_file] at h
  | cons c rest ih =>
    unfold get_file at h
    unfold get_file_index
    split at h
    · rename_i hc; simp [hc]
    · rename_i hc
      have := ih h
      simp only [hc, if_false, List.length_cons]
      omega

theorem unlink_eq_take_drop (fl : List file) (i : Nat) (hi : i < fl.length) :
    unlink fl i = fl.take i ++ fl.drop (i + 1) := by
  unfold unlink
  split
  · rename_i h
    obtain ⟨h0, h1⟩ := h
    subst h0
    rw [List.drop_of_length_le (by omega)]
    simp
  · split
    · rename_i h0
      subst h0
      simp
    · split
      · rename_i h1
        rw [List.drop_of_length_le (by omega)]
        simp
      · rfl

theorem unlink_eq_erase_name (fl : List file) (n : String) (f : file)
    (h : get_file fl n = some f) : unlink fl (get_file_index fl n) = erase_name fl n := by
  rw [unlink_eq_take_drop fl _ (get_file_index_lt h)]
  induction fl with
  | nil => simp [get_file] at h
  | cons c rest ih =>
    unfold get_file at h
    unfold get_file_index erase_name
    split at h
    · rename_i hc
      simp [hc]
    · rename_i hc
      simp only [hc, if_false, List.take_succ_cons, List.drop_succ_cons, List.cons_append]
      rw [ih h]

theorem ufs_delete_missing (s : State) (n : String) (h : get_file s.file_list n = none) :
    ufs_delete s n = (-1, { s with error_code := UFS_ERR_NO_FILE }) := by
  unfold ufs_delete; rw [h]

theorem ufs_delete_existing (s : State) (n : String) (f : file)
    (h : get_file s.file_list n = some f) :
    ufs_delete s n = (0, { s with file_list := erase_name s.file_list n }) := by
  unfold ufs_delete; rw [h]; simp only; rw [unlink_eq_erase_name _ _ _ h]

theorem erase_name_sublist (fl : List file) (n : String) : (erase_name fl n).Sublist fl := by
  induction fl with
  | nil => exact List.Sublist.slnil
  | cons c rest ih =>
    unfold erase_name
    split
    · exact List.sublist_cons_self c rest
    · exact List.Sublist.cons₂ c ih

theorem file_at_sublist {fl1 fl : List file} (hs : fl1.Sublist fl)
    (hn : (fl.map file.addr).Nodup) {a : Nat} {f : file} (h : file_at fl1 a = some f) :
    file_at fl a = some f := by
  have hm := file_at_some h
  have := file_at_of_mem hn (hs.subset hm.1)
  rw [hm.2] at this
  exact this

theorem ufs_delete_inv {s : State} (h : Inv s) (n : String) : Inv (ufs_delete s n).2 := by
  cases hg : get_file s.file_list n with
  | none =>
    rw [ufs_delete_missing s n hg]
    exact Inv_congr h rfl rfl rfl rfl rfl
  | some f =>
    rw [ufs_delete_existing s n f hg]
    have hsub := erase_name_sublist s.file_list n
    refine ⟨?_, ?_, ?_, ?_, h.table_len, h.count_le, h.below_count, h.desc_below, ?_⟩
    · intro x hx; exact h.files_ok x (hsub.subset hx)
    · intro x hx; exact h.addr_lt x (hsub.subset hx)
    · exact h.addr_nodup.sublist (hsub.map file.addr)
    · exact h.name_nodup.sublist (hsub.map file.name)
    · intro i d hd
      have hd1 := h.descs_ok i d hd
      refine ⟨hd1.addr_lt, hd1.pos_le, ?_⟩
      intro x hx
      exact hd1.block_lt x (file_at_sublist hsub h.addr_nodup hx)

/-! ## `ufs_read` keeps the invariant -/

theorem read_loop_cursor (fuel : Nat) : ∀ (bs : List block) (cb pos read size : Nat)
    (out : List Byte) (r : rloop), bs ≠ [] → pos ≤ INT_MAX →
    read_loop fuel bs cb pos read size out = some r →
    cb ≤ r.current_block ∧ r.current_block < cb + bs.length ∧ r.current_position ≤ INT_MAX := by
  induction fuel with
  | zero => intro bs cb pos read size out r _ _ h; simp [read_loop] at h
  | succ fuel ih =>
    intro bs cb pos read size out r hne hpos h
    unfold read_loop at h
    by_cases hlt : read < size
    · simp only [hlt, if_true] at h
      cases bs with
      | nil => exact absurd rfl hne
      | cons b rest =>
        simp only at h
        generalize loop_read_size (size - read) b.occupied = rs at h
        by_cases h1 : rs < 0
        · simp only [h1, if_true] at h; cases h
        · simp only [h1, if_false] at h
          by_cases h2 : rs.toNat > BLOCK_SIZE
          · simp only [h2, if_true] at h; cases h
          · simp only [h2, if_false] at h
            by_cases h3 : pos + rs.toNat > INT_MAX
            · simp only [h3, if_true] at h; cases h
            · simp only [h3, if_false] at h
              by_cases h4 : b.occupied < BLOCK_SIZE
              · simp only [h4, if_true] at h
                cases h
                simp only [List.length_cons]
                exact ⟨le_refl _, by omega, by omega⟩
              · simp only [h4, if_false] at h
                by_cases h5 : (read + rs.toNat) % SIZE_MOD < size ∧ rest ≠ []
                · rw [if_pos h5] at h
                  have := ih rest (cb + 1) 0 _ size _ r h5.2 (by simp [INT_MAX]) h
                  simp only [List.length_cons]
                  omega
                · rw [if_neg h5] at h
                  exact ih (b :: rest) cb _ _ size _ r (by simp) (by omega) h
    · simp only [hlt, if_false] at h
      cases h
      have : 0 < bs.length := List.length_pos.mpr hne
      exact ⟨le_refl _, Nat.lt_add_of_pos_right this, hpos⟩

theorem Inv_set_cursor {s : State} (h : Inv s) {fd : Int} {d : filedesc} {f : file}
    (hs : slot_at s fd.toNat = slot.desc d) (hf : file_at s.file_list d.file = some f)
    {cb pos : Nat} (hcb : cb < f.block_list.length) (hpos : pos ≤ INT_MAX) :
    Inv (set_cursor s fd d cb pos) := by
  have hdok := h.descs_ok _ d hs
  refine Inv_set_slot h (h.desc_below _ d hs) (Or.inr ⟨_, rfl, ?_⟩) rfl rfl rfl rfl rfl
  refine ⟨hdok.addr_lt, hpos, ?_⟩
  intro x hx
  have hx1 : file_at s.file_list d.file = some x := hx
  rw [hf] at hx1
  cases hx1
  exact hcb

theorem read_blocks_inv {s s1 : State} {r : Int} {out : List Byte} (h : Inv s) {fd : Int}
    {d : filedesc} {f : file} (hs : slot_at s fd.toNat = slot.desc d)
    (hf : file_at s.file_list d.file = some f) {b : block} {rest : List block}
    (hdrop : f.block_list.drop d.current_block = b :: rest) {size rs fuel : Nat}
    (hr : read_blocks s fd d b rest size rs fuel = some (r, out, s1)) : Inv s1 := by
  have hdok := h.descs_ok _ d hs
  have hblk := hdok.block_lt f hf
  have hlen : (b :: rest).length = f.block_list.length - d.current_block := by
    rw [← hdrop, List.length_drop]
  simp only [List.length_cons] at hlen
  unfold read_blocks at hr
  by_cases h1 : d.current_position + rs > BLOCK_SIZE
  · rw [if_pos h1] at hr; cases hr
  · rw [if_neg h1] at hr
    by_cases h2 : rs < size ∧ rest ≠ []
    · rw [if_pos h2] at hr
      have hrl : 0 < rest.length := List.length_pos.mpr h2.2
      by_cases h3 : end_of_chain rest 0 = true
      · rw [if_pos h3] at hr
        simp only [Option.some.injEq, Prod.mk.injEq] at hr
        obtain ⟨_, _, rfl⟩ := hr
        exact Inv_set_cursor h hs hf (by omega) (by simp [INT_MAX])
      · rw [if_neg h3] at hr
        cases hl : read_loop fuel rest (d.current_block + 1) 0 rs size
            ((b.memory.drop d.current_position).take rs) with
        | none => rw [hl] at hr; simp at hr
        | some rl =>
          rw [hl] at hr
          simp only [Option.some.injEq, Prod.mk.injEq] at hr
          obtain ⟨_, _, rfl⟩ := hr
          have := read_loop_cursor fuel rest _ _ _ _ _ rl h2.2 (by simp [INT_MAX]) hl
          exact Inv_set_cursor h hs hf (by omega) this.2.2
    · rw [if_neg h2] at hr
      by_cases h3 : end_of_chain (b :: rest) (d.current_position + rs) = true
      · rw [if_pos h3] at hr
        simp only [Option.some.injEq, Prod.mk.injEq] at hr
        obtain ⟨_, _, rfl⟩ := hr
        exact Inv_set_cursor h hs hf hblk (by simp only [BLOCK_SIZE, INT_MAX] at *; omega)
      · rw [if_neg h3] at hr
        cases hl : read_loop fuel (b :: rest) d.current_block (d.current_position + rs) rs size
            ((b.memory.drop d.current_position).take rs) with
        | none => rw [hl] at hr; simp at hr
        | some rl =>
          rw [hl] at hr
          simp only [Option.some.injEq, Prod.mk.injEq] at hr
          obtain ⟨_, _, rfl⟩ := hr
          have := read_loop_cursor fuel (b :: rest) _ _ _ _ _ rl (by simp)
            (by simp only [BLOCK_SIZE, INT_MAX] at *; omega) hl
          simp only [List.length_cons] at this
          exact Inv_set_cursor h hs hf (by omega) this.2.2

theorem ufs_read_inv {s s1 : State} {r : Int} {out : List Byte} (h : Inv s) {fd : Int}
    {size : Nat} (hr : ufs_read s fd size = some (r, out, s1)) : Inv s1 := by
  unfold ufs_read at hr
  by_cases hi : is_incorrect_fd s fd = true
  · simp only [hi, if_true] at hr
    cases hr
    exact Inv_congr h rfl rfl rfl rfl rfl
  · simp only [hi] at hr
    cases hs : slot_at s fd.toNat with
    | null => rw [hs] at hr; simp at hr
    | wild => rw [hs] at hr; simp at hr
    | desc d =>
      rw [hs] at hr
      simp only [Bool.false_eq_true, if_false] at hr
      by_cases hp : does_have_read_permission d.mode = true
      · simp only [hp, Bool.not_true, Bool.false_eq_true, if_false] at hr
        cases hf : file_at s.file_list d.file with
        | none => rw [hf] at hr; simp at hr
        | some f =>
          rw [hf] at hr
          simp only at hr
          cases hdrop : f.block_list.drop d.current_block with
          | nil => rw [hdrop] at hr; simp at hr
          | cons b rest =>
            rw [hdrop] at hr
            simp only at hr
            by_cases h1 : end_of_chain (b :: rest) d.current_position = true
            · simp only [h1, if_true] at hr
              cases hr
              exact h
            · simp only [h1, Bool.false_eq_true, if_false] at hr
              by_cases h2 : size = 0
              · simp only [h2, if_true] at hr
                cases hr
                exact h
              · simp only [h2, if_false] at hr
                exact read_blocks_inv h hs hf hdrop hr
      · simp only [hp, Bool.not_false, if_true] at hr
        cases hr
        exact Inv_congr h rfl rfl rfl rfl rfl

/-! ## `ufs_write` keeps the invariant -/

theorem occupied_sum_append (xs ys : List block) :
    occupied_sum (xs ++ ys) = occupied_sum xs + occupied_sum ys := by
  induction xs with
  | nil => simp [occupied_sum]
  | cons x rest ih =>
    show x.occupied + occupied_sum (rest ++ ys) = _
    rw [ih]
    simp only [occupied_sum]
    omega

theorem interior_full_drop (k : Nat) : ∀ (l : List block), interior_full l →
    interior_full (l.drop k) := by
  induction k with
  | zero => intro l h; exact h
  | succ k ih =>
    intro l h
    cases l with
    | nil => exact h
    | cons x rest =>
      rw [List.drop_succ_cons]
      apply ih
      cases rest with
      | nil => trivial
      | cons y ys => exact h.2

theorem interior_full_take_full (k : Nat) : ∀ (l : List block), interior_full l →
    k < l.length → ∀ b ∈ l.take k, b.occupied = BLOCK_SIZE := by
  induction k with
  | zero => intro l _ _ b hb; simp at hb
  | succ k ih =>
    intro l h hk b hb
    cases l with
    | nil => simp at hb
    | cons x rest =>
      cases rest with
      | nil => simp at hk
      | cons y ys =>
        rw [List.take_succ_cons] at hb
        rcases List.mem_cons.mp hb with rfl | hb
        · exact h.1
        · exact ih (y :: ys) h.2 (by simpa using hk) b hb

theorem interior_full_append (xs ys : List block) (hx : ∀ b ∈ xs, b.occupied = BLOCK_SIZE)
    (hy : interior_full ys) : interior_full (xs ++ ys) := by
  induction xs with
  | nil => exact hy
  | cons x rest ih =>
    rw [List.cons_append]
    exact interior_full_cons (hx x (List.mem_cons_self _ _))
      (ih (fun b hb => hx b (List.mem_cons_of_mem _ hb)))

theorem Inv_set_written {s : State} (h : Inv s) {fd : Int} {d : filedesc} {f : file}
    (hs : slot_at s fd.toNat = slot.desc d) (hf : file_at s.file_list d.file = some f)
    {chain : List block} {size last cb pos : Nat} (e : ufs_error_code)
    (hok : file_ok (written_file f chain size last))
    (hlen : f.block_list.length ≤ chain.length) (hcb : cb < chain.length)
    (hpos : pos ≤ INT_MAX) :
    Inv { set_written s fd d f chain size last cb pos with error_code := e } := by
  have hfm := file_at_some hf
  have hga : (written_file f chain size last).addr = d.file := hfm.2
  have hInv1 : Inv { s with
      file_list := set_file s.file_list d.file (written_file f chain size last) } :=
    Inv_set_file h hf hga rfl hok hlen rfl rfl rfl rfl rfl
  have hdok := h.descs_ok _ d hs
  refine Inv_set_slot hInv1 (h.desc_below _ d hs) (Or.inr ⟨_, rfl, ?_⟩) rfl rfl rfl rfl rfl
  refine ⟨hdok.addr_lt, hpos, ?_⟩
  intro x hx
  have hx1 : file_at (set_file s.file_list d.file (written_file f chain size last)) d.file
      = some x := hx
  rw [file_at_set_file_same hf hga] at hx1
  cases hx1
  exact hcb

theorem is_incorrect_fd_of_desc {s : State} (h : Inv s) {i : Nat} {d : filedesc}
    (hs : slot_at s i = slot.desc d) : is_incorrect_fd s (i : Int) = false := by
  have h1 := slot_at_lt_of_desc hs
  have h2 := h.table_len
  unfold is_incorrect_fd
  simp only [Int.toNat_ofNat, hs, Bool.or_false, Bool.or_eq_false_iff, decide_eq_false_iff_not,
    not_lt, ge_iff_le, not_le]
  omega

/-- The run of `ufs_write` once the handle, the permission and the size cap
are checked: either the first loop copies past the end of a block (no defined
result), or it stops with `NoMem`, or both loops run to their end. -/
theorem ufs_write_run {s : State} (h : Inv s) {fd : Int} {d : filedesc} {f : file}
    {buf : List Byte} (hi : is_incorrect_fd s fd = false)
    (hs : slot_at s fd.toNat = slot.desc d)
    (hp : does_have_write_permission d.mode = true)
    (hf : file_at s.file_list d.file = some f) (hbuf : buf.length ≤ PTRDIFF_MAX)
    (hcap : ¬ (d.current_block * BLOCK_SIZE + d.current_position + buf.length) % SIZE_MOD
      > MAX_FILE_SIZE) :
    (write_existing (f.block_list.drop d.current_block) d.current_block d.current_position
        f.size buf = none ∧ ufs_write s fd buf = none) ∨
    ∃ r1, write_existing (f.block_list.drop d.current_block) d.current_block
        d.current_position f.size buf = some r1 ∧
      we_post (f.block_list.drop d.current_block) d.current_block d.current_position
        (occupied_sum (f.block_list.take d.current_block)) r1 ∧
      ((r1.nomem = true ∧ ufs_write s fd buf = some (-1,
          { set_written s fd d f (f.block_list.take d.current_block ++ r1.blocks) r1.size
              f.last_block r1.current_block r1.current_position with
            error_code := UFS_ERR_NO_MEM })) ∨
       (r1.nomem = false ∧ ∃ r2, write_new s.uninit d.file r1.rest.length r1.current_block
          r1.current_position r1.size r1.rest = some r2 ∧
          wn_post r1.current_block r1.current_position r1.size r1.rest r2 ∧
          ufs_write s fd buf = some ((buf.length : Int),
            set_written s fd d f (f.block_list.take d.current_block ++ r1.blocks ++ r2.blocks)
              r2.size (if r2.blocks.length = 0 then f.last_block else r2.current_block)
              r2.current_block r2.current_position))) := by
  have hdok := h.descs_ok _ d hs
  have hblk := hdok.block_lt f hf
  have hfok := h.files_ok f (file_at_some hf).1
  have hnot : ¬ d.current_block > f.block_list.length := by omega
  have hw : ufs_write s fd buf =
      match write_existing (f.block_list.drop d.current_block) d.current_block
          d.current_position f.size buf with
      | none => none
      | some r1 =>
        if r1.nomem then
          some (-1,
            { set_written s fd d f (f.block_list.take d.current_block ++ r1.blocks) r1.size
                f.last_block r1.current_block r1.current_position with
              error_code := UFS_ERR_NO_MEM })
        else
          match write_new s.uninit d.file r1.rest.length r1.current_block
              r1.current_position r1.size r1.rest with
          | none => none
          | some r2 =>
            if r2.nomem then
              some (-1,
                { set_written s fd d f
                    (f.block_list.take d.current_block ++ r1.blocks ++ r2.blocks) r2.size
                    (if r2.blocks.length = 0 then f.last_block else r2.current_block)
                    r2.current_block r2.current_position with
                  error_code := UFS_ERR_NO_MEM })
            else
              some (((buf.length - r2.rest.length : Nat) : Int),
                set_written s fd d f
                  (f.block_list.take d.current_block ++ r1.blocks ++ r2.blocks) r2.size
                  (if r2.blocks.length = 0 then f.last_block else r2.current_block)
                  r2.current_block r2.current_position) := by
    have hint : ¬ d.current_block * BLOCK_SIZE + d.current_position > INT_MAX := by
      have hpl := hdok.pos_le
      have hll := hfok.len_le
      simp only [BLOCK_SIZE, MAX_FILE_SIZE, SIZE_MOD, INT_MAX, PTRDIFF_MAX] at *
      omega
    unfold ufs_write
    simp only [hi, hs, hp, hf, Bool.false_eq_true, if_false, Bool.not_true]
    rw [if_neg hint, if_neg hcap, if_neg hnot]
  rw [hw]
  cases h1 : write_existing (f.block_list.drop d.current_block) d.current_block
      d.current_position f.size buf with
  | none => left; exact ⟨rfl, rfl⟩
  | some r1 =>
    right
    refine ⟨r1, rfl, ?_⟩
    have hsum : f.size = occupied_sum (f.block_list.take d.current_block)
        + occupied_sum (f.block_list.drop d.current_block) := by
      rw [hfok.size_eq, ← occupied_sum_append, List.take_append_drop]
    have htake_len : (f.block_list.take d.current_block).length = d.current_block := by
      rw [List.length_take]; omega
    have hA := occupied_sum_le (f.block_list.take d.current_block)
      (fun b hb => hfok.occ_le b (List.mem_of_mem_take hb))
    rw [htake_len] at hA
    have hdl : (f.block_list.drop d.current_block).length
        = f.block_list.length - d.current_block := List.length_drop _ _
    have hlenle := hfok.len_le
    have hposle := hdok.pos_le
    have hpost := write_existing_post _ d.current_block d.current_position f.size
      (occupied_sum (f.block_list.take d.current_block)) buf r1
      (fun b hb => hfok.occ_le b (List.mem_of_mem_drop hb))
      (fun b hb => hfok.mem_len b (List.mem_of_mem_drop hb))
      (interior_full_drop _ _ hfok.full) hsum hA
      (by rw [hdl]; simp only [BLOCK_SIZE, MAX_FILE_SIZE] at *; omega)
      (by simp only [BLOCK_SIZE, MAX_FILE_SIZE, SIZE_MOD, INT_MAX, PTRDIFF_MAX] at *; omega)
      (by intro hc; rw [hc] at hdl; simp at hdl; omega) h1
    refine ⟨hpost, ?_⟩
    simp only
    by_cases hn : r1.nomem = true
    · left
      rw [if_pos hn]
      exact ⟨hn, rfl⟩
    · right
      rw [if_neg hn]
      have hn1 : r1.nomem = false := by simpa using hn
      have hsumle := occupied_sum_le r1.blocks hpost.occ_le
      have hlen1 := hpost.len
      have hsz := hpost.size_eq
      obtain ⟨r2, hr2, hp2⟩ := write_new_post s.uninit d.file r1.rest.length r1.current_block
        r1.current_position r1.size r1.rest (le_refl _)
        (by
          by_cases hr : r1.rest = []
          · left; simp [hr]
          · right; exact (hpost.more hn1 hr).2.2.2)
        (by
          have hrl : r1.rest.length ≤ MAX_FILE_SIZE := by
            by_cases hr : r1.rest = []
            · simp [hr]
            · have := (hpost.more hn1 hr).2.2.2
              omega
          rw [hdl] at hlen1
          simp only [BLOCK_SIZE, MAX_FILE_SIZE, SIZE_MOD, INT_MAX, PTRDIFF_MAX] at *
          omega)
      refine ⟨hn1, r2, hr2, hp2, ?_⟩
      rw [hr2]
      simp only [hp2.nomem, Bool.false_eq_true, if_false, hp2.rest, List.length_nil, Nat.sub_zero]

/-- The file and the cursor the first loop of `ufs_write` leaves satisfy the
invariant. -/
theorem written_ok_first {f : file} (hfok : file_ok f) {cb pos : Nat}
    (hblk : cb < f.block_list.length) (hpos : pos ≤ INT_MAX) {r1 : wloop}
    (hpost : we_post (f.block_list.drop cb) cb pos (occupied_sum (f.block_list.take cb)) r1)
    (last : Nat) :
    file_ok (written_file f (f.block_list.take cb ++ r1.blocks) r1.size last) ∧
    (f.block_list.take cb ++ r1.blocks).length = f.block_list.length ∧
    r1.current_block < f.block_list.length ∧ r1.current_position ≤ INT_MAX ∧
    (r1.rest ≠ [] → r1.nomem = false →
      ∀ b ∈ f.block_list.take cb ++ r1.blocks, b.occupied = BLOCK_SIZE) := by
  have hdl : (f.block_list.drop cb).length = f.block_list.length - cb := List.length_drop _ _
  have htl : (f.block_list.take cb).length = cb := by rw [List.length_take]; omega
  have hlen : (f.block_list.take cb ++ r1.blocks).length = f.block_list.length := by
    rw [List.length_append, htl, hpost.len, hdl]; omega
  have htake_full := interior_full_take_full cb f.block_list hfok.full hblk
  refine ⟨⟨?_, ?_, ?_, ?_, ?_, ?_⟩, hlen, ?_, ?_, ?_⟩
  · show f.block_list.take cb ++ r1.blocks ≠ []
    intro hc
    rw [hc] at hlen
    simp at hlen
    omega
  · show r1.size = occupied_sum (f.block_list.take cb ++ r1.blocks)
    rw [occupied_sum_append, hpost.size_eq]
  · intro b hb
    rcases List.mem_append.mp hb with hb | hb
    · exact hfok.occ_le b (List.mem_of_mem_take hb)
    · exact hpost.occ_le b hb
  · intro b hb
    rcases List.mem_append.mp hb with hb | hb
    · exact hfok.mem_len b (List.mem_of_mem_take hb)
    · exact hpost.mem_len b hb
  · exact interior_full_append _ _ htake_full hpost.full
  · show (f.block_list.take cb ++ r1.blocks).length * BLOCK_SIZE ≤ MAX_FILE_SIZE
    rw [hlen]; exact hfok.len_le
  · have := hpost.cb_lt
    omega
  · rcases hpost.pos_le with hp | hp
    · simp only [BLOCK_SIZE, INT_MAX] at *; omega
    · omega
  · intro hr hn b hb
    rcases List.mem_append.mp hb with hb | hb
    · exact htake_full b hb
    · exact (hpost.more hn hr).1 b hb

/-- The file and the cursor both loops of `ufs_write` leave satisfy the
invariant. -/
theorem written_ok_second {f : file} (hfok : file_ok f) {cb pos : Nat}
    (hblk : cb < f.block_list.length) (hpos : pos ≤ INT_MAX) {r1 r2 : wloop}
    (hpost : we_post (f.block_list.drop cb) cb pos (occupied_sum (f.block_list.take cb)) r1)
    (hn : r1.nomem = false)
    (hp2 : wn_post r1.current_block r1.current_position r1.size r1.rest r2) (last : Nat) :
    file_ok (written_file f (f.block_list.take cb ++ r1.blocks ++ r2.blocks) r2.size last) ∧
    (f.block_list.take cb ++ r1.blocks ++ r2.blocks).length
      = f.block_list.length + r2.blocks.length ∧
    r2.current_block < f.block_list.length + r2.blocks.length ∧
    r2.current_position ≤ INT_MAX := by
  obtain ⟨hok1, hlen1, hcb1, hpos1, hfull1⟩ := written_ok_first hfok hblk hpos hpost last
  have hdl : (f.block_list.drop cb).length = f.block_list.length - cb := List.length_drop _ _
  have hlen : (f.block_list.take cb ++ r1.blocks ++ r2.blocks).length
      = f.block_list.length + r2.blocks.length := by
    rw [List.length_append, hlen1]
  have hlen2 := hp2.len_eq
  refine ⟨⟨?_, ?_, ?_, ?_, ?_, ?_⟩, hlen, ?_, ?_⟩
  · show f.block_list.take cb ++ r1.blocks ++ r2.blocks ≠ []
    intro hc
    rw [hc] at hlen
    simp at hlen
    omega
  · show r2.size = occupied_sum (f.block_list.take cb ++ r1.blocks ++ r2.blocks)
    rw [occupied_sum_append, hp2.size_eq, hp2.sum]
    have := hok1.size_eq
    simp only [written_file] at this
    omega
  · intro b hb
    rcases List.mem_append.mp hb with hb | hb
    · exact hok1.occ_le b hb
    · exact hp2.occ_le b hb
  · intro b hb
    rcases List.mem_append.mp hb with hb | hb
    · exact hok1.mem_len b hb
    · exact hp2.mem_len b hb
  · show interior_full (f.block_list.take cb ++ r1.blocks ++ r2.blocks)
    by_cases hr : r1.rest = []
    · have h0 : r2.blocks = [] := by
        apply List.length_eq_zero.mp
        rw [hlen2, hr]
        rfl
      rw [h0, List.append_nil]
      exact hok1.full
    · exact interior_full_append _ _ (hfull1 hr hn) hp2.full
  · show (f.block_list.take cb ++ r1.blocks ++ r2.blocks).length * BLOCK_SIZE ≤ MAX_FILE_SIZE
    rw [hlen, hlen2]
    have hle := hfok.len_le
    by_cases hr : r1.rest = []
    · rw [hr]
      simp only [List.length_nil, BLOCK_SIZE, MAX_FILE_SIZE] at *
      omega
    · obtain ⟨_, h2, _, h4⟩ := hpost.more hn hr
      rw [hdl] at h2
      simp only [BLOCK_SIZE, MAX_FILE_SIZE] at *
      omega
  · rw [hp2.cb_eq]
    omega
  · rw [hp2.pos_eq]
    split
    · exact hpos1
    · simp only [INT_MAX]
      omega

theorem ufs_write_inv {s s1 : State} {r : Int} (h : Inv s) {fd : Int} {buf : List Byte}
    (hbuf : buf.length ≤ PTRDIFF_MAX) (hw : ufs_write s fd buf = some (r, s1)) : Inv s1 := by
  by_cases hi : is_incorrect_fd s fd = true
  · unfold ufs_write at hw
    simp only [hi, if_true] at hw
    cases hw
    exact Inv_congr h rfl rfl rfl rfl rfl
  · have hi1 : is_incorrect_fd s fd = false := by simpa using hi
    cases hs : slot_at s fd.toNat with
    | null => unfold ufs_write at hw; rw [hs] at hw; simp [hi1] at hw
    | wild => unfold ufs_write at hw; rw [hs] at hw; simp [hi1] at hw
    | desc d =>
      by_cases hp : does_have_write_permission d.mode = true
      · cases hf : file_at s.file_list d.file with
        | none => unfold ufs_write at hw; rw [hs] at hw; simp [hi1, hp, hf] at hw
        | some f =>
          by_cases hcap : (d.current_block * BLOCK_SIZE + d.current_position + buf.length)
              % SIZE_MOD > MAX_FILE_SIZE
          · unfold ufs_write at hw
            rw [hs] at hw
            simp only [hi1, hp, hf, Bool.false_eq_true, if_false, Bool.not_true] at hw
            by_cases hint : d.current_block * BLOCK_SIZE + d.current_position > INT_MAX
            · rw [if_pos hint] at hw
              cases hw
            · rw [if_neg hint, if_pos hcap] at hw
              cases hw
              exact Inv_congr h rfl rfl rfl rfl rfl
          · have hdok := h.descs_ok _ d hs
            have hblk := hdok.block_lt f hf
            have hfok := h.files_ok f (file_at_some hf).1
            rcases ufs_write_run h hi1 hs hp hf hbuf hcap with ⟨_, h2⟩ | ⟨r1, _, hpost, h2⟩
            · rw [h2] at hw; cases hw
            · rcases h2 with ⟨_, h3⟩ | ⟨hn, r2, _, hp2, h3⟩
              · rw [h3] at hw
                cases hw
                obtain ⟨hok, hlen, hcb, hpos, _⟩ :=
                  written_ok_first hfok hblk hdok.pos_le hpost f.last_block
                refine Inv_set_written h hs hf _ hok ?_ ?_ hpos
                · omega
                · omega
              · rw [h3] at hw
                cases hw
                obtain ⟨hok, hlen, hcb, hpos⟩ := written_ok_second hfok hblk hdok.pos_le hpost hn
                  hp2 (if r2.blocks.length = 0 then f.last_block else r2.current_block)
                refine Inv_congr (Inv_set_written h hs hf s.error_code hok ?_ ?_ hpos)
                  rfl rfl rfl rfl rfl
                · omega
                · omega
      · unfold ufs_write at hw
        rw [hs] at hw
        simp only [hi1, hp, Bool.false_eq_true, if_false, Bool.not_false, if_true] at hw
        cases hw
        exact Inv_congr h rfl rfl rfl rfl rfl

/-! ## Every reachable state satisfies the invariant -/

theorem Reachable_inv {s : State} (h : Reachable s) : Inv s := by
  induction h with
  | start u => exact Inv_init u
  | opened filename flags _ ho ih => exact ufs_open_inv ih ho
  | written fd buf _ hbuf hw ih => exact ufs_write_inv ih hbuf hw
  | read fd size _ _ hr ih => exact ufs_read_inv ih hr
  | closed fd _ hc ih => exact ufs_close_inv ih hc
  | deleted filename _ ih => exact ufs_delete_inv ih filename

/-! ## What `ufs_read` returns below the end of the data -/

theorem read_loop_done (fuel : Nat) (bs : List block) (cb pos read size : Nat) (out : List Byte)
    (hfuel : 0 < fuel) (h : ¬ read < size) :
    read_loop fuel bs cb pos read size out = some ⟨cb, pos, read, out⟩ := by
  cases fuel with
  | zero => omega
  | succ fuel =>
    unfold read_loop
    rw [if_neg h]

theorem toInt32_small (x : Nat) (h : x < 2147483648) : toInt32 x = (x : Int) := by
  unfold toInt32
  have h1 : x % 4294967296 = x := Nat.mod_eq_of_lt (by omega)
  rw [h1, if_pos h]

theorem loop_read_size_small (left occ : Nat) (h : left < 2147483648) :
    loop_read_size left occ = ((min left occ : Nat) : Int) := by
  unfold loop_read_size
  rw [toInt32_small left h]
  split
  · rename_i hlt
    have : left < occ := by exact_mod_cast hlt
    rw [Nat.min_eq_left (by omega)]
  · rename_i hlt
    have : ¬ left < occ := by
      intro hc
      exact hlt (by exact_mod_cast hc)
    rw [Nat.min_eq_right (by omega)]

/-- The first loop of `ufs_write` leaves through `return -1` when the bytes
fit the block of the cursor and end exactly at `MAX_FILE_SIZE`: its test is
`>=`. -/
theorem write_existing_at_cap (b : block) (rest : List block) (cb pos fsize : Nat)
    (data : List Byte) (hlen : 0 < data.length) (hpos : pos < BLOCK_SIZE)
    (hfit : data.length ≤ BLOCK_SIZE - pos)
    (hend : cb * BLOCK_SIZE + pos + data.length = MAX_FILE_SIZE) :
    write_existing (b :: rest) cb pos fsize data
      = some ⟨true, b :: rest, cb, pos, fsize, data⟩ := by
  have hws : write_size data.length (left_space pos) = data.length := by
    unfold write_size left_space
    simp only [BLOCK_SIZE] at *
    split_ifs <;> omega
  unfold write_existing
  have h0 : ¬ data.length = 0 := by omega
  rw [if_neg h0, hws, hend]
  have hck : MAX_FILE_SIZE % SIZE_MOD ≥ MAX_FILE_SIZE := by decide
  rw [if_pos hck]

/-- `ufs_write` fails with `UFS_ERR_NO_MEM` when the bytes fit the block of
the cursor and end exactly at `MAX_FILE_SIZE`. -/
theorem ufs_write_at_cap {s : State} {fd : Int} {d : filedesc} {f : file} {data : List Byte}
    (hi : is_incorrect_fd s fd = false) (hs : slot_at s fd.toNat = slot.desc d)
    (hp : does_have_write_permission d.mode = true)
    (hf : file_at s.file_list d.file = some f)
    (hcb : d.current_block < f.block_list.length)
    (hlen : 0 < data.length) (hpos : d.current_position < BLOCK_SIZE)
    (hfit : data.length ≤ BLOCK_SIZE - d.current_position)
    (hend : d.current_block * BLOCK_SIZE + d.current_position + data.length = MAX_FILE_SIZE) :
    ∃ s1, ufs_write s fd data = some (-1, s1) ∧ ufs_errno s1 = UFS_ERR_NO_MEM := by
  have hcap : ¬ (d.current_block * BLOCK_SIZE + d.current_position + data.length) % SIZE_MOD
      > MAX_FILE_SIZE := by
    rw [hend]; decide
  have hnot : ¬ d.current_block > f.block_list.length := by omega
  cases hdrop : f.block_list.drop d.current_block with
  | nil =>
    have := List.length_drop d.current_block f.block_list
    rw [hdrop] at this
    simp at this
    omega
  | cons b rest =>
    have hint : ¬ d.current_block * BLOCK_SIZE + d.current_position > INT_MAX := by
      simp only [BLOCK_SIZE, MAX_FILE_SIZE, INT_MAX] at *
      omega
    unfold ufs_write
    simp only [hi, hs, hp, hf, Bool.false_eq_true, if_false, Bool.not_true]
    rw [if_neg hint, if_neg hcap, if_neg hnot, hdrop,
      write_existing_at_cap b rest _ _ _ data hlen hpos hfit hend]
    exact ⟨_, rfl, rfl⟩

theorem slot_at_set_written (s : State) (fd : Int) (d : filedesc) (f : file)
    (chain : List block) (size last cb pos : Nat)
    (hlt : fd.toNat < s.file_descriptors.length) :
    slot_at (set_written s fd d f chain size last cb pos) fd.toNat
      = slot.desc { d with current_block := cb, current_position := pos } := by
  rw [slot_at_set s _ fd.toNat fd.toNat _ rfl (set_written s fd d f chain size last cb pos) rfl]
  simp [hlt]

theorem file_at_set_written (s : State) (fd : Int) (d : filedesc) (f : file)
    (chain : List block) (size last cb pos : Nat) (hf : file_at s.file_list d.file = some f) :
    file_at (set_written s fd d f chain size last cb pos).file_list d.file
      = some (written_file f chain size last) :=
  file_at_set_file_same hf (file_at_some hf).2

/-- The first loop of `ufs_write` on the last block of a chain, when its test
of the size cap does not fire. -/
theorem write_existing_last (b : block) (cb pos fsize : Nat) (data : List Byte)
    (hlen : 0 < data.length) (hpos : pos ≤ BLOCK_SIZE)
    (hbelow : cb * BLOCK_SIZE + BLOCK_SIZE < MAX_FILE_SIZE) :
    write_existing [b] cb pos fsize data
      = some ⟨false, [store_block b pos (data.take (write_size data.length (left_space pos)))],
          cb, pos + write_size data.length (left_space pos),
          size_after fsize b.occupied (pos + write_size data.length (left_space pos)),
          data.drop (write_size data.length (left_space pos))⟩ := by
  have hws : pos + write_size data.length (left_space pos) ≤ BLOCK_SIZE := by
    unfold write_size left_space
    simp only [BLOCK_SIZE] at *
    split_ifs <;> omega
  unfold write_existing
  have h0 : ¬ data.length = 0 := by omega
  have h1 : ¬ (cb * BLOCK_SIZE + pos + write_size data.length (left_space pos)) % SIZE_MOD
      ≥ MAX_FILE_SIZE := by
    simp only [BLOCK_SIZE, MAX_FILE_SIZE, SIZE_MOD] at *
    omega
  have h2 : ¬ pos + write_size data.length (left_space pos) > BLOCK_SIZE := by omega
  rw [if_neg h0, if_neg h1, if_neg h2]

/-! ## The list of files after `ufs_delete` and `create_fd` -/

theorem get_file_eq_none {fl : List file} {n : String} (h : ∀ f ∈ fl, f.name ≠ n) :
    get_file fl n = none := by
  induction fl with
  | nil => rfl
  | cons c rest ih =>
    unfold get_file
    rw [if_neg (h c (List.mem_cons_self _ _))]
    exact ih (fun f hf => h f (List.mem_cons_of_mem _ hf))

theorem get_file_erase_name_ne (fl : List file) {n m : String} (hm : m ≠ n) :
    get_file (erase_name fl n) m = get_file fl m := by
  induction fl with
  | nil => rfl
  | cons c rest ih =>
    unfold erase_name
    by_cases hc : c.name = n
    · rw [if_pos hc]
      have hcm : ¬ c.name = m := by rw [hc]; exact fun h => hm h.symm
      conv => rhs; unfold get_file
      rw [if_neg hcm]
    · rw [if_neg hc]
      unfold get_file
      rw [ih]

theorem get_file_erase_name_self (fl : List file) (n : String)
    (hn : (fl.map file.name).Nodup) : get_file (erase_name fl n) n = none := by
  induction fl with
  | nil => rfl
  | cons c rest ih =>
    simp only [List.map_cons, List.nodup_cons] at hn
    unfold erase_name
    by_cases hc : c.name = n
    · rw [if_pos hc]
      apply get_file_eq_none
      intro f hf hfn
      apply hn.1
      rw [hc, ← hfn]
      exact List.mem_map_of_mem file.name hf
    · rw [if_neg hc]
      unfold get_file
      rw [if_neg hc]
      exact ih hn.2

theorem mem_erase_name {fl : List file} {n : String} (hn : (fl.map file.name).Nodup)
    {g : file} (hg : g ∈ erase_name fl n) : g ∈ fl ∧ g.name ≠ n := by
  refine ⟨(erase_name_sublist fl n).subset hg, ?_⟩
  intro hgn
  have h1 := get_file_erase_name_self fl n hn
  exact get_file_none h1 g hg hgn

theorem eq_some_state_of {r : Option (Int × State)} {v : Int} (s : State)
    (h : value_of r = some v) : r = some (v, state_of r s) := by
  cases r with
  | none => simp [value_of] at h
  | some p =>
    obtain ⟨a, b⟩ := p
    simp only [value_of, Option.map_some', Option.some.injEq] at h
    subst h
    rfl

theorem demo_s1_reachable : Reachable demo_s1 :=
  Reachable.opened "a" UFS_CREATE (Reachable.start demo_u)
    (show ufs_open (init demo_u) "a" UFS_CREATE = some (0, demo_s1) from rfl)

theorem demo_s2_reachable : Reachable demo_s2 :=
  Reachable.written 0 [1, 2, 3] demo_s1_reachable (by decide)
    (show ufs_write demo_s1 0 [1, 2, 3] = some (3, demo_s2) from rfl)

theorem demo_s3_reachable : Reachable demo_s3 :=
  Reachable.opened "b" UFS_CREATE demo_s2_reachable
    (show ufs_open demo_s2 "b" UFS_CREATE = some (1, demo_s3) from rfl)

theorem demo_r2_reachable : Reachable demo_r2 :=
  Reachable.written 0 (List.replicate 1024 7) demo_s1_reachable (by decide!)
    (eq_some_state_of demo_s1
      (show value_of (ufs_write demo_s1 0 (List.replicate 1024 7)) = some 1024 by decide!))

theorem demo_r3_reachable : Reachable demo_r3 :=
  Reachable.opened "a" UFS_READ_ONLY demo_r2_reachable
    (eq_some_state_of demo_r2
      (show value_of (ufs_open demo_r2 "a" UFS_READ_ONLY) = some 1 by decide!))

theorem demo_t2_reachable : Reachable demo_t2 :=
  Reachable.written 0 (List.replicate 513 7) demo_s1_reachable (by decide!)
    (eq_some_state_of demo_s1
      (show value_of (ufs_write demo_s1 0 (List.replicate 513 7)) = some 513 by decide!))

theorem demo_t3_reachable : Reachable demo_t3 :=
  Reachable.opened "a" UFS_CREATE demo_t2_reachable
    (eq_some_state_of demo_t2
      (show value_of (ufs_open demo_t2 "a" UFS_CREATE) = some 1 by decide!))

theorem cap_data_length : cap_data.length = 104857599 := by
  unfold cap_data
  exact List.length_replicate _ _

/-- The run at the size cap: on the new file "a", a first write of 104857599
bytes through the handle 0 succeeds and leaves the cursor one byte before
`MAX_FILE_SIZE`; a second write of one byte through the same handle, which
ends exactly at `MAX_FILE_SIZE`, returns -1 with `UFS_ERR_NO_MEM`. -/
theorem cap_run :
    ∃ s d s1, ufs_write demo_s1 0 cap_data = some (104857599, s) ∧ Reachable s ∧
      is_incorrect_fd s 0 = false ∧ slot_at s 0 = slot.desc d ∧
      does_have_write_permission d.mode = true ∧
      d.current_block * BLOCK_SIZE + d.current_position = 104857599 ∧
      ufs_write s 0 [0] = some (-1, s1) ∧ ufs_errno s1 = UFS_ERR_NO_MEM := by
  have hInv := Reachable_inv demo_s1_reachable
  have hlen : cap_data.length = 104857599 := cap_data_length
  have hs0 : slot_at demo_s1 (0 : Int).toNat = slot.desc ⟨0, UFS_READ_WRITE, 0, 0⟩ := rfl
  have hf0 : file_at demo_s1.file_list 0 = some (first_file demo_s1) := rfl
  have hbl : (first_file demo_s1).block_list
      = [{ memory := fresh_memory demo_u 0 0, occupied := 0 }] := rfl
  have hrun := @ufs_write_run demo_s1 hInv 0 ⟨0, UFS_READ_WRITE, 0, 0⟩
    (first_file demo_s1) cap_data rfl hs0 rfl hf0
    (by rw [hlen]; decide) (by rw [hlen]; decide)
  have hwe := write_existing_last { memory := fresh_memory demo_u 0 0, occupied := 0 } 0 0
    (first_file demo_s1).size cap_data (by rw [hlen]; decide) (by decide) (by decide)
  have hws : write_size cap_data.length (left_space 0) = 512 := by rw [hlen]; decide
  rw [hws] at hwe
  simp only [List.drop_zero, hbl] at hrun
  rw [hwe] at hrun
  rcases hrun with ⟨h1, _⟩ | ⟨r1, h1, _, h2⟩
  · exact absurd h1 (by simp)
  · have hr1 := (Option.some.inj h1).symm
    have hn1 : r1.nomem = false := by rw [hr1]
    have hcb0 : r1.current_block = 0 := by rw [hr1]
    have hrest : r1.rest.length = 104857087 := by
      rw [hr1]
      dsimp only
      rw [List.length_drop, hlen]
    have hbl1 : r1.blocks.length = 1 := by rw [hr1]; rfl
    clear hr1 h1 hwe
    rcases h2 with ⟨h3, _⟩ | ⟨_, r2, _, hp2, h3⟩
    · rw [hn1] at h3; exact absurd h3 (by simp)
    · have hcb := hp2.cb_eq
      have hbn := hp2.len_eq
      have hpos := hp2.pos_eq
      have hbn1 : r2.blocks.length = 204799 := by omega
      have hpos1 : r2.current_position = 511 := by
        split at hpos <;> omega
      have hcb1 : r2.current_block = 204799 := by omega
      rw [hlen] at h3
      have hreach : Reachable _ := Reachable.written 0 cap_data demo_s1_reachable
        (by rw [hlen]; decide) h3
      have hInv2 := Reachable_inv hreach
      have hslot := slot_at_set_written demo_s1 0 ⟨0, UFS_READ_WRITE, 0, 0⟩ (first_file demo_s1)
        (List.take 0 [{ memory := fresh_memory demo_u 0 0, occupied := 0 }] ++
          r1.blocks ++ r2.blocks) r2.size
        (if r2.blocks.length = 0 then (first_file demo_s1).last_block else r2.current_block)
        r2.current_block r2.current_position (by decide)
      have hfile := file_at_set_written demo_s1 0 ⟨0, UFS_READ_WRITE, 0, 0⟩ (first_file demo_s1)
        (List.take 0 [{ memory := fresh_memory demo_u 0 0, occupied := 0 }] ++
          r1.blocks ++ r2.blocks) r2.size
        (if r2.blocks.length = 0 then (first_file demo_s1).last_block else r2.current_block)
        r2.current_block r2.current_position hf0
      have hi2 := is_incorrect_fd_of_desc hInv2 hslot
      obtain ⟨s1, hw2, he2⟩ := @ufs_write_at_cap _ _ _ _ [0] hi2 hslot rfl hfile
        (by
          show r2.current_block < (List.take 0 _ ++ r1.blocks ++ r2.blocks).length
          simp only [List.take_zero, List.nil_append, List.length_append]
          omega)
        (by decide)
        (by show r2.current_position < BLOCK_SIZE; rw [hpos1]; decide)
        (by show 1 ≤ BLOCK_SIZE - r2.current_position; rw [hpos1]; decide)
        (by
          show r2.current_block * BLOCK_SIZE + r2.current_position + 1 = MAX_FILE_SIZE
          rw [hpos1, hcb1]; decide)
      refine ⟨_, _, s1, h3, hreach, hi2, hslot, rfl, ?_, hw2, he2⟩
      show r2.current_block * BLOCK_SIZE + r2.current_position = 104857599
      rw [hpos1, hcb1]; decide

theorem write_all_nil (s : State) (fd : Int) : write_all s fd [] = some ([], s) := by
  unfold write_all
  rfl

theorem write_all_cons {s s1 s2 : State} {fd : Int} {w : List Byte} {ws : List (List Byte)}
    {r : Int} {rs : List Int} (h1 : ufs_write s fd w = some (r, s1))
    (h2 : write_all s1 fd ws = some (rs, s2)) :
    write_all s fd (w :: ws) = some (r :: rs, s2) := by
  unfold write_all
  rw [h1]
  simp only [h2]

/-! ## The guard of the size cap -/

/-- `cap_guard` is the test `ufs_write` makes after the checks of the handle
and of the permission, for a cursor whose `int` offset does not overflow: when
it holds, the call fails with `UFS_ERR_NO_MEM`. -/
theorem ufs_write_cap_guard {s : State} {fd : Int} {d : filedesc} {f : file} {buf : List Byte}
    (hi : is_incorrect_fd s fd = false) (hs : slot_at s fd.toNat = slot.desc d)
    (hp : does_have_write_permission d.mode = true)
    (hf : file_at s.file_list d.file = some f)
    (hint : d.current_block * BLOCK_SIZE + d.current_position ≤ INT_MAX)
    (hg : cap_guard d.current_block d.current_position buf.length = true) :
    ufs_write s fd buf = some (-1, { s with error_code := UFS_ERR_NO_MEM }) := by
  unfold cap_guard at hg
  have hcap := of_decide_eq_true hg
  unfold ufs_write
  simp only [hi, hs, hp, hf, Bool.false_eq_true, if_false, Bool.not_true]
  rw [if_neg (Nat.not_lt.mpr hint), if_pos hcap]

/-- A read whose result is defined, with its parts named. -/
theorem read_result_of {r : Option (Int × List Byte × State)} {α : Type}
    (g : Int × List Byte × State → α) {v : α} (h : r.map g = some v) : ∃ p, r = some p ∧ g p = v := by
  cases r with
  | none => simp at h
  | some p => exact ⟨p, rfl, by simpa using h⟩

/-! ## What a call leaves of the descriptor table -/

theorem slot_cases {x : slot} (h1 : x ≠ slot.null) (h2 : x ≠ slot.wild) :
    ∃ d, x = slot.desc d := by
  cases x with
  | null => exact absurd rfl h1
  | wild => exact absurd rfl h2
  | desc d => exact ⟨d, rfl⟩

/-- The state `ufs_write` leaves: the old one with a new error code, or the
old one with the file and the cursor of the descriptor written. -/
theorem ufs_write_shape {s s1 : State} {r : Int} {fd : Int} {buf : List Byte}
    (hw : ufs_write s fd buf = some (r, s1)) :
    (∃ e, s1 = { s with error_code := e }) ∨
    ∃ d f chain size last cb pos e, slot_at s fd.toNat = slot.desc d ∧
      file_at s.file_list d.file = some f ∧
      s1 = { set_written s fd d f chain size last cb pos with error_code := e } := by
  by_cases hi : is_incorrect_fd s fd = true
  · unfold ufs_write at hw
    simp only [hi, if_true] at hw
    cases hw
    exact Or.inl ⟨_, rfl⟩
  · have hi1 : is_incorrect_fd s fd = false := by simpa using hi
    cases hs : slot_at s fd.toNat with
    | null => unfold ufs_write at hw; rw [hs] at hw; simp [hi1] at hw
    | wild => unfold ufs_write at hw; rw [hs] at hw; simp [hi1] at hw
    | desc d =>
      by_cases hp : does_have_write_permission d.mode = true
      · cases hf : file_at s.file_list d.file with
        | none => unfold ufs_write at hw; rw [hs] at hw; simp [hi1, hp, hf] at hw
        | some f =>
          unfold ufs_write at hw
          rw [hs] at hw
          simp only [hi1, hp, hf, Bool.false_eq_true, if_false, Bool.not_true] at hw
          have hint : ¬ d.current_block * BLOCK_SIZE + d.current_position > INT_MAX := by
            intro hc
            rw [if_pos hc] at hw
            cases hw
          rw [if_neg hint] at hw
          by_cases hcap : (d.current_block * BLOCK_SIZE + d.current_position + buf.length)
              % SIZE_MOD > MAX_FILE_SIZE
          · rw [if_pos hcap] at hw
            cases hw
            exact Or.inl ⟨_, rfl⟩
          · rw [if_neg hcap] at hw
            by_cases hnot : d.current_block > f.block_list.length
            · rw [if_pos hnot] at hw
              cases hw
            · rw [if_neg hnot] at hw
              cases h1 : write_existing (f.block_list.drop d.current_block) d.current_block
                  d.current_position f.size buf with
              | none => rw [h1] at hw; cases hw
              | some r1 =>
                rw [h1] at hw
                simp only at hw
                by_cases hn : r1.nomem = true
                · rw [if_pos hn] at hw
                  cases hw
                  exact Or.inr ⟨d, f, _, _, _, _, _, _, rfl, hf, rfl⟩
                · rw [if_neg hn] at hw
                  cases h2 : write_new s.uninit d.file r1.rest.length r1.current_block
                      r1.current_position r1.size r1.rest with
                  | none => rw [h2] at hw; cases hw
                  | some r2 =>
                    rw [h2] at hw
                    simp only at hw
                    by_cases hn2 : r2.nomem = true
                    · rw [if_pos hn2] at hw
                      cases hw
                      exact Or.inr ⟨d, f, _, _, _, _, _, _, rfl, hf, rfl⟩
                    · rw [if_neg hn2] at hw
                      cases hw
                      exact Or.inr ⟨d, f, _, _, _, _, _, s.error_code, rfl, hf, rfl⟩
      · unfold ufs_write at hw
        rw [hs] at hw
        simp only [hi1, hp, Bool.false_eq_true, if_false, Bool.not_false, if_true] at hw
        cases hw
        exact Or.inl ⟨_, rfl⟩

/-- The state `ufs_read` leaves: the old one, possibly with a new error code,
or the old one with the cursor of the descriptor moved. -/
theorem ufs_read_shape {s s1 : State} {r : Int} {out : List Byte} {fd : Int} {size : Nat}
    (hr : ufs_read s fd size = some (r, out, s1)) :
    (∃ e, s1 = { s with error_code := e }) ∨
    ∃ d cb pos, slot_at s fd.toNat = slot.desc d ∧ s1 = set_cursor s fd d cb pos := by
  unfold ufs_read at hr
  by_cases hi : is_incorrect_fd s fd = true
  · simp only [hi, if_true] at hr
    cases hr
    exact Or.inl ⟨_, rfl⟩
  · simp only [hi] at hr
    cases hs : slot_at s fd.toNat with
    | null => rw [hs] at hr; simp at hr
    | wild => rw [hs] at hr; simp at hr
    | desc d =>
      rw [hs] at hr
      simp only [Bool.false_eq_true, if_false] at hr
      by_cases hp : does_have_read_permission d.mode = true
      · simp only [hp, Bool.not_true, Bool.false_eq_true, if_false] at hr
        cases hf : file_at s.file_list d.file with
        | none => rw [hf] at hr; simp at hr
        | some f =>
          rw [hf] at hr
          simp only at hr
          cases hdrop : f.block_list.drop d.current_block with
          | nil => rw [hdrop] at hr; simp at hr
          | cons b rest =>
            rw [hdrop] at hr
            simp only at hr
            by_cases h1 : end_of_chain (b :: rest) d.current_position = true
            · simp only [h1, if_true] at hr
              cases hr
              exact Or.inl ⟨s.error_code, rfl⟩
            · simp only [h1, Bool.false_eq_true, if_false] at hr
              by_cases h2 : size = 0
              · simp only [h2, if_true] at hr
                cases hr
                exact Or.inl ⟨s.error_code, rfl⟩
              · simp only [h2, if_false] at hr
                right
                unfold read_blocks at hr
                by_cases h3 : d.current_position
                    + write_size size (available_size b.occupied d.current_position) > BLOCK_SIZE
                · rw [if_pos h3] at hr; cases hr
                · rw [if_neg h3] at hr
                  by_cases h4 : write_size size (available_size b.occupied d.current_position)
                      < size ∧ rest ≠ []
                  · rw [if_pos h4] at hr
                    by_cases h5 : end_of_chain rest 0 = true
                    · rw [if_pos h5] at hr
                      simp only [Option.some.injEq, Prod.mk.injEq] at hr
                      exact ⟨d, _, _, rfl, hr.2.2.symm⟩
                    · rw [if_neg h5] at hr
                      cases hl : read_loop (size + f.block_list.length + 1) rest
                          (d.current_block + 1) 0
                          (write_size size (available_size b.occupied d.current_position)) size
                          ((b.memory.drop d.current_position).take
                            (write_size size (available_size b.occupied d.current_position))) with
                      | none => rw [hl] at hr; simp at hr
                      | some rl =>
                        rw [hl] at hr
                        simp only [Option.some.injEq, Prod.mk.injEq] at hr
                        exact ⟨d, _, _, rfl, hr.2.2.symm⟩
                  · rw [if_neg h4] at hr
                    by_cases h5 : end_of_chain (b :: rest) (d.current_position
                        + write_size size (available_size b.occupied d.current_position)) = true
                    · rw [if_pos h5] at hr
                      simp only [Option.some.injEq, Prod.mk.injEq] at hr
                      exact ⟨d, _, _, rfl, hr.2.2.symm⟩
                    · rw [if_neg h5] at hr
                      cases hl : read_loop (size + f.block_list.length + 1) (b :: rest)
                          d.current_block (d.current_position
                            + write_size size (available_size b.occupied d.current_position))
                          (write_size size (available_size b.occupied d.current_position)) size
                          ((b.memory.drop d.current_position).take
                            (write_size size (available_size b.occupied d.current_position))) with
                      | none => rw [hl] at hr; simp at hr
                      | some rl =>
                        rw [hl] at hr
                        simp only [Option.some.injEq, Prod.mk.injEq] at hr
                        exact ⟨d, _, _, rfl, hr.2.2.symm⟩
      · simp only [hp, Bool.not_false, if_true] at hr
        cases hr
        exact Or.inl ⟨_, rfl⟩

/-- The state `ufs_close` leaves: for a handle that is not open the old one
with the error code `UFS_ERR_NO_FILE`, else the old one with one reference
less on the file and the slot of the handle null. -/
theorem ufs_close_shape {s s1 : State} {r : Int} {fd : Int}
    (hc : ufs_close s fd = some (r, s1)) :
    (r = -1 ∧ is_incorrect_fd s fd = true ∧ s1 = { s with error_code := UFS_ERR_NO_FILE }) ∨
    (r = 0 ∧ is_incorrect_fd s fd = false ∧ ∃ d f, slot_at s fd.toNat = slot.desc d ∧
      file_at s.file_list d.file = some f ∧
      s1 = { s with file_list := set_file s.file_list d.file { f with refs := f.refs - 1 },
                    file_descriptors := s.file_descriptors.set fd.toNat slot.null }) := by
  unfold ufs_close delete_fd at hc
  by_cases hi : is_incorrect_fd s fd = true
  · simp only [hi, if_true] at hc
    cases hc
    exact Or.inl ⟨rfl, hi, rfl⟩
  · have hi1 : is_incorrect_fd s fd = false := by simpa using hi
    simp only [hi] at hc
    cases hs : slot_at s fd.toNat with
    | null => rw [hs] at hc; simp at hc
    | wild => rw [hs] at hc; simp at hc
    | desc d =>
      rw [hs] at hc
      simp only [Bool.false_eq_true, if_false] at hc
      cases hf : file_at s.file_list d.file with
      | none => rw [hf] at hc; simp at hc
      | some f =>
        rw [hf] at hc
        simp only [Option.some.injEq, Prod.mk.injEq] at hc
        obtain ⟨rfl, rfl⟩ := hc
        exact Or.inr ⟨rfl, hi1, d, f, rfl, hf, rfl⟩
theorem find_free_first (s : State) (n : Nat) : ∀ (i j : Nat), find_free s n i = some j →
    ∀ k, i ≤ k → k < j → slot_at s k ≠ slot.null := by
  induction n with
  | zero => intro i j h; simp [find_free] at h
  | succ n ih =>
    intro i j h k h1 h2
    unfold find_free at h
    split at h
    · cases h
      omega
    · rename_i hnull
      by_cases hki : k = i
      · subst hki
        intro hc
        exact hnull hc
      · exact ih (i + 1) j h k (by omega) h2

/-- The capacity after `resize_file_descriptors`: as before, or 2 when there
was no array, or twice what it was. -/
theorem resize_capacity (s : State)
    (hcount : s.file_descriptor_count ≤ s.file_descriptor_capacity) :
    (resize_file_descriptors s).file_descriptor_capacity = s.file_descriptor_capacity ∨
    (s.file_descriptor_capacity = 0 ∧
      (resize_file_descriptors s).file_descriptor_capacity = 2) ∨
    (s.file_descriptor_capacity ≠ 0 ∧
      (resize_file_descriptors s).file_descriptor_capacity = 2 * s.file_descriptor_capacity) := by
  generalize hr : resize_file_descriptors s = s2
  unfold resize_file_descriptors at hr
  by_cases hc : s.file_descriptor_capacity = 0
  · have h0 : s.file_descriptor_count = 0 := by omega
    simp only [hc, if_true, h0] at hr
    simp only [show ¬ (0 = 2) by decide, if_false] at hr
    subst hr
    exact Or.inr (Or.inl ⟨hc, rfl⟩)
  · simp only [hc, if_false] at hr
    by_cases hfull : s.file_descriptor_count = s.file_descriptor_capacity
    · simp only [hfull, if_true] at hr
      subst hr
      exact Or.inr (Or.inr ⟨hc, Nat.mul_comm _ _⟩)
    · simp only [hfull, if_false] at hr
      subst hr
      exact Or.inl rfl

/-- The handle `create_fd` returns is the least index that holds no open
descriptor; the capacity of the table is as before, or 2 when there was no
array, or twice what it was. -/
theorem create_fd_table {s : State} (h : Inv s) {a : Nat} {mode : Int} {fd : Int} {s1 : State}
    (hc : create_fd s a mode = some (fd, s1)) :
    (∀ j : Nat, (j : Int) < fd → ∃ d, slot_at s j = slot.desc d) ∧
    (s1.file_descriptor_capacity = s.file_descriptor_capacity ∨
      (s.file_descriptor_capacity = 0 ∧ s1.file_descriptor_capacity = 2) ∨
      (s.file_descriptor_capacity ≠ 0 ∧
        s1.file_descriptor_capacity = 2 * s.file_descriptor_capacity)) := by
  unfold create_fd at hc
  cases hf : file_at s.file_list a with
  | none => rw [hf] at hc; cases hc
  | some f =>
    rw [hf] at hc
    simp only at hc
    cases hfree : find_free
        { s with file_list := set_file s.file_list a { f with refs := f.refs + 1 } }
        s.file_descriptor_count 0 with
    | some i =>
      rw [hfree] at hc
      simp only [Option.some.injEq, Prod.mk.injEq] at hc
      obtain ⟨rfl, rfl⟩ := hc
      obtain ⟨_, hi2, _⟩ := find_free_some _ _ _ _ hfree
      refine ⟨?_, Or.inl rfl⟩
      intro j hj
      have hji : j < i := by omega
      have hnn : slot_at s j ≠ slot.null :=
        find_free_first _ _ _ _ hfree j (Nat.zero_le _) hji
      exact slot_cases hnn (h.below_count j (by omega))
    | none =>
      rw [hfree] at hc
      simp only at hc
      have hnn := find_free_none _ _ _ hfree
      obtain ⟨_, _, _, _, r5, _, _, _, _⟩ := resize_post
        { s with file_list := set_file s.file_list a { f with refs := f.refs + 1 } }
        h.table_len h.count_le
      have hcap := resize_capacity
        { s with file_list := set_file s.file_list a { f with refs := f.refs + 1 } } h.count_le
      generalize resize_file_descriptors
        { s with file_list := set_file s.file_list a { f with refs := f.refs + 1 } } = s2 at *
      have r5a : s2.file_descriptor_count = s.file_descriptor_count := r5
      by_cases hlt : s2.file_descriptor_count < s2.file_descriptors.length
      · rw [if_pos hlt] at hc
        simp only [Option.some.injEq, Prod.mk.injEq] at hc
        obtain ⟨rfl, rfl⟩ := hc
        refine ⟨?_, hcap⟩
        intro j hj
        have hjc : j < s.file_descriptor_count := by omega
        have hn1 : slot_at s j ≠ slot.null := hnn j (Nat.zero_le _) (by omega)
        exact slot_cases hn1 (h.below_count j hjc)
      · rw [if_neg hlt] at hc
        cases hc

/-- The call of `create_fd` that `ufs_open` ends in, when it does not fail
with `UFS_ERR_NO_FILE`. -/
theorem ufs_open_calls {s s1 : State} {filename : String} {flags : Int} {fd : Int}
    (ho : ufs_open s filename flags = some (fd, s1)) :
    (fd = -1 ∧ s1 = { s with error_code := UFS_ERR_NO_FILE }) ∨
    (∃ f mode, get_file s.file_list filename = some f ∧
      create_fd s f.addr mode = some (fd, s1)) ∨
    (get_file s.file_list filename = none ∧ flags = UFS_CREATE ∧
      create_fd
        { s with file_list := file_list_add s.file_list (new_file s.uninit s.next_addr filename),
                 next_addr := s.next_addr + 1 }
        s.next_addr UFS_READ_WRITE = some (fd, s1)) := by
  unfold ufs_open at ho
  by_cases hc : flags = UFS_CREATE
  · simp only [hc, ne_eq, not_true_eq_false, if_false] at ho
    cases hg : get_file s.file_list filename with
    | some f =>
      rw [hg] at ho
      exact Or.inr (Or.inl ⟨f, _, rfl, ho⟩)
    | none =>
      rw [hg] at ho
      exact Or.inr (Or.inr ⟨rfl, hc, ho⟩)
  · simp only [hc, ne_eq, not_false_eq_true, if_true] at ho
    cases hg : get_file s.file_list filename with
    | some f =>
      rw [hg] at ho
      simp only at ho
      by_cases h0 : flags = 0
      · rw [if_pos h0] at ho
        exact Or.inr (Or.inl ⟨f, _, rfl, ho⟩)
      · rw [if_neg h0] at ho
        exact Or.inr (Or.inl ⟨f, _, rfl, ho⟩)
    | none =>
      rw [hg] at ho
      simp only [Option.some.injEq, Prod.mk.injEq] at ho
      exact Or.inl ⟨ho.1.symm, ho.2.symm⟩

/-- What `ufs_open` does to the descriptor table: the handle it returns was
not open and is the least such index, the capacity is as before, 2 or twice
what it was, and every descriptor open before is as it was. -/
theorem ufs_open_table {s s1 : State} (h : Inv s) {filename : String} {flags : Int} {fd : Int}
    (ho : ufs_open s filename flags = some (fd, s1)) :
    (0 ≤ fd → (∀ d, slot_at s fd.toNat ≠ slot.desc d) ∧
      (∀ j : Nat, (j : Int) < fd → ∃ d, slot_at s j = slot.desc d) ∧
      ∃ a, slot_at s1 fd.toNat
        = slot.desc ⟨a, if flags = UFS_CREATE ∨ flags = 0 then UFS_READ_WRITE else flags, 0, 0⟩) ∧
    (s1.file_descriptor_capacity = s.file_descriptor_capacity ∨
      (s.file_descriptor_capacity = 0 ∧ s1.file_descriptor_capacity = 2) ∨
      (s.file_descriptor_capacity ≠ 0 ∧
        s1.file_descriptor_capacity = 2 * s.file_descriptor_capacity)) ∧
    (∀ i d, slot_at s i = slot.desc d → slot_at s1 i = slot.desc d) := by
  have hkeep : ∀ {s0 : State} {a : Nat} {mode : Int} {f : file},
      create_post s0 a mode f fd s1 → s0.file_descriptors = s.file_descriptors →
      ∀ i d, slot_at s i = slot.desc d → slot_at s1 i = slot.desc d := by
    intro s0 a mode f hp h0 i d hd
    rw [← slot_at_congr h0] at hd
    have hne : i ≠ fd.toNat := by
      intro hc
      rw [hc] at hd
      exact hp.was_free d hd
    exact (hp.open_iff i d hne).mpr hd
  rcases ufs_open_calls ho with ⟨hfd, hs1⟩ | ⟨f, mode, hg, hc⟩ | ⟨hg, hcr, hc⟩
  · subst hs1
    refine ⟨fun h0 => ?_, Or.inl rfl, fun i d hd => hd⟩
    omega
  · obtain ⟨fd1, s2, h1, h2⟩ := ufs_open_existing h flags hg
    rw [ho] at h1
    simp only [Option.some.injEq, Prod.mk.injEq] at h1
    obtain ⟨rfl, rfl⟩ := h1
    have ht := create_fd_table h hc
    exact ⟨fun _ => ⟨h2.was_free, ht.1, _, h2.slot_eq⟩, ht.2, hkeep h2 rfl⟩
  · subst hcr
    obtain ⟨fd1, s2, h1, h2⟩ := ufs_open_new h hg
    rw [ho] at h1
    simp only [Option.some.injEq, Prod.mk.injEq] at h1
    obtain ⟨rfl, rfl⟩ := h1
    have hInv0 := Inv_add_file h _ hg rfl rfl (new_file_ok s.uninit s.next_addr filename)
    have ht := create_fd_table hInv0 hc
    refine ⟨fun _ => ⟨h2.was_free, ht.1, s.next_addr, ?_⟩, ht.2, hkeep h2 rfl⟩
    rw [h2.slot_eq]
    simp

/-- A write leaves the counters of the descriptor table and every slot as
they were, but for the cursor of the descriptor it wrote through. -/
theorem ufs_write_table {s s1 : State} {r : Int} {fd : Int} {buf : List Byte}
    (hw : ufs_write s fd buf = some (r, s1)) :
    s1.file_descriptor_count = s.file_descriptor_count ∧
    s1.file_descriptor_capacity = s.file_descriptor_capacity ∧
    ∀ i, slot_at s1 i = slot_at s i ∨
      ∃ d d1, slot_at s i = slot.desc d ∧ slot_at s1 i = slot.desc d1 ∧
        d1.file = d.file ∧ d1.mode = d.mode := by
  rcases ufs_write_shape hw with ⟨e, rfl⟩ | ⟨d, f, chain, size, last, cb, pos, e, hs, _, rfl⟩
  · exact ⟨rfl, rfl, fun i => Or.inl rfl⟩
  · refine ⟨rfl, rfl, fun i => ?_⟩
    have hlt := slot_at_lt_of_desc hs
    have hslot := slot_at_set s _ fd.toNat i
      (slot.desc { d with current_block := cb, current_position := pos }) rfl
      { set_written s fd d f chain size last cb pos with error_code := e } rfl
    by_cases hi : fd.toNat = i
    · subst hi
      right
      refine ⟨d, { d with current_block := cb, current_position := pos }, hs, ?_, rfl, rfl⟩
      rw [hslot]
      simp [hlt]
    · left
      rw [hslot]
      simp [hi]

/-- A read leaves the list of files, the counters of the descriptor table and
every slot as they were, but for the cursor of the descriptor it read
through. -/
theorem ufs_read_table {s s1 : State} {r : Int} {out : List Byte} {fd : Int} {size : Nat}
    (hr : ufs_read s fd size = some (r, out, s1)) :
    s1.file_list = s.file_list ∧
    s1.file_descriptor_count = s.file_descriptor_count ∧
    s1.file_descriptor_capacity = s.file_descriptor_capacity ∧
    ∀ i, slot_at s1 i = slot_at s i ∨
      ∃ d d1, slot_at s i = slot.desc d ∧ slot_at s1 i = slot.desc d1 ∧
        d1.file = d.file ∧ d1.mode = d.mode := by
  rcases ufs_read_shape hr with ⟨e, rfl⟩ | ⟨d, cb, pos, hs, rfl⟩
  · exact ⟨rfl, rfl, rfl, fun i => Or.inl rfl⟩
  · refine ⟨rfl, rfl, rfl, fun i => ?_⟩
    have hlt := slot_at_lt_of_desc hs
    have hslot := slot_at_set s _ fd.toNat i
      (slot.desc { d with current_block := cb, current_position := pos }) rfl
      (set_cursor s fd d cb pos) rfl
    by_cases hi : fd.toNat = i
    · subst hi
      right
      refine ⟨d, { d with current_block := cb, current_position := pos }, hs, ?_, rfl, rfl⟩
      rw [hslot]
      simp [hlt]
    · left
      rw [hslot]
      simp [hi]

/-- A successful `ufs_close` sets the slot of the handle to null; every close
leaves the counters of the table and the other slots as they were. -/
theorem ufs_close_table {s s1 : State} {r : Int} {fd : Int}
    (hc : ufs_close s fd = some (r, s1)) :
    s1.file_descriptor_count = s.file_descriptor_count ∧
    s1.file_descriptor_capacity = s.file_descriptor_capacity ∧
    (r = 0 → 0 ≤ fd ∧ (∃ d, slot_at s fd.toNat = slot.desc d) ∧
      slot_at s1 fd.toNat = slot.null) ∧
    (∀ i, i ≠ fd.toNat ∨ r ≠ 0 → slot_at s1 i = slot_at s i) := by
  rcases ufs_close_shape hc with ⟨rfl, _, rfl⟩ | ⟨rfl, hi, d, f, hs, _, rfl⟩
  · refine ⟨rfl, rfl, fun h0 => ?_, fun i _ => rfl⟩
    omega
  · have hlt := slot_at_lt_of_desc hs
    have hslot := fun i => slot_at_set s _ fd.toNat i slot.null rfl
      { s with file_list := set_file s.file_list d.file { f with refs := f.refs - 1 },
               file_descriptors := s.file_descriptors.set fd.toNat slot.null } rfl
    refine ⟨rfl, rfl, fun _ => ⟨(is_incorrect_fd_false hi).1, ⟨d, hs⟩, ?_⟩, fun i hne => ?_⟩
    · rw [hslot]
      simp [hlt]
    · rw [hslot]
      have : fd.toNat ≠ i := by
        rcases hne with h1 | h1
        · exact fun hc => h1 hc.symm
        · exact absurd rfl h1
      simp [this]

/-- `ufs_delete` does not touch the descriptor table. -/
theorem ufs_delete_table (s : State) (filename : String) :
    (ufs_delete s filename).2.file_descriptors = s.file_descriptors ∧
    (ufs_delete s filename).2.file_descriptor_count = s.file_descriptor_count ∧
    (ufs_delete s filename).2.file_descriptor_capacity = s.file_descriptor_capacity := by
  unfold ufs_delete
  cases get_file s.file_list filename with
  | none => exact ⟨rfl, rfl, rfl⟩
  | some f => exact ⟨rfl, rfl, rfl⟩

/-- A call leaves the capacity of the descriptor table as it was, makes it 2
when there was no array, or doubles it; a descriptor open before the call is
open after it on the same file with the same mode, or its slot is null. -/
theorem step_table {s s1 : State} (h : Inv s) (hs : Step s s1) :
    (s1.file_descriptor_capacity = s.file_descriptor_capacity ∨
      (s.file_descriptor_capacity = 0 ∧ s1.file_descriptor_capacity = 2) ∨
      (s.file_descriptor_capacity ≠ 0 ∧
        s1.file_descriptor_capacity = 2 * s.file_descriptor_capacity)) ∧
    (∀ i d, slot_at s i = slot.desc d → slot_at s1 i = slot.null ∨
      ∃ d1, slot_at s1 i = slot.desc d1 ∧ d1.file = d.file ∧ d1.mode = d.mode) := by
  cases hs with
  | opened filename flags ho =>
    have ht := ufs_open_table h ho
    exact ⟨ht.2.1, fun i d hd => Or.inr ⟨d, ht.2.2 i d hd, rfl, rfl⟩⟩
  | written fd buf _ hw =>
    have ht := ufs_write_table hw
    refine ⟨Or.inl ht.2.1, fun i d hd => Or.inr ?_⟩
    rcases ht.2.2 i with h1 | ⟨d0, d1, h1, h2, h3, h4⟩
    · exact ⟨d, by rw [h1]; exact hd, rfl, rfl⟩
    · rw [hd] at h1
      cases h1
      exact ⟨d1, h2, h3, h4⟩
  | read fd size _ hr =>
    have ht := ufs_read_table hr
    refine ⟨Or.inl ht.2.2.1, fun i d hd => Or.inr ?_⟩
    rcases ht.2.2.2 i with h1 | ⟨d0, d1, h1, h2, h3, h4⟩
    · exact ⟨d, by rw [h1]; exact hd, rfl, rfl⟩
    · rw [hd] at h1
      cases h1
      exact ⟨d1, h2, h3, h4⟩
  | @closed _ r fd hc =>
    have ht := ufs_close_table hc
    refine ⟨Or.inl ht.2.1, fun i d hd => ?_⟩
    by_cases hi : i ≠ fd.toNat ∨ r ≠ 0
    · right
      exact ⟨d, by rw [ht.2.2.2 i hi]; exact hd, rfl, rfl⟩
    · left
      have hi1 : i = fd.toNat := by
        by_contra hc1
        exact hi (Or.inl hc1)
      have hr0 : r = 0 := by
        by_contra hc1
        exact hi (Or.inr hc1)
      rw [hi1]
      exact (ht.2.2.1 hr0).2.2
  | deleted filename =>
    have ht := ufs_delete_table s filename
    refine ⟨Or.inl ht.2.2, fun i d hd => Or.inr ⟨d, ?_, rfl, rfl⟩⟩
    rw [slot_at_congr ht.1]
    exact hd

/-- The capacity of the descriptor table of a reachable state is 0 or a power
of two, at least 2. -/
theorem Reachable_capacity {s : State} (h : Reachable s) :
    s.file_descriptor_capacity = 0 ∨ ∃ k, 1 ≤ k ∧ s.file_descriptor_capacity = 2 ^ k := by
  have hstep : ∀ {s s1 : State}, Inv s → Step s s1 →
      (s.file_descriptor_capacity = 0 ∨ ∃ k, 1 ≤ k ∧ s.file_descriptor_capacity = 2 ^ k) →
      (s1.file_descriptor_capacity = 0 ∨ ∃ k, 1 ≤ k ∧ s1.file_descriptor_capacity = 2 ^ k) := by
    intro s s1 hInv hs ih
    rcases (step_table hInv hs).1 with h1 | ⟨_, h1⟩ | ⟨h0, h1⟩
    · rw [h1]; exact ih
    · exact Or.inr ⟨1, le_refl _, by rw [h1]; rfl⟩
    · rcases ih with h2 | ⟨k, hk, h2⟩
      · exact absurd h2 h0
      · exact Or.inr ⟨k + 1, by omega, by rw [h1, h2, pow_succ]; ring⟩
  induction h with
  | start u => exact Or.inl rfl
  | opened filename flags hr ho ih =>
    exact hstep (Reachable_inv hr) (Step.opened filename flags ho) ih
  | written fd buf hr hbuf hw ih =>
    exact hstep (Reachable_inv hr) (Step.written fd buf hbuf hw) ih
  | read fd size hr hsz hrd ih =>
    exact hstep (Reachable_inv hr) (Step.read fd size hsz hrd) ih
  | closed fd hr hc ih => exact hstep (Reachable_inv hr) (Step.closed fd hc) ih
  | deleted filename hr ih => exact hstep (Reachable_inv hr) (Step.deleted filename) ih
theorem demo_w_reachable : Reachable demo_w :=
  Reachable.opened "a" UFS_WRITE_ONLY demo_s2_reachable
    (eq_some_state_of demo_s2
      (show value_of (ufs_open demo_s2 "a" UFS_WRITE_ONLY) = some 1 by decide!))

/-! ## `occupied` never decreases under `ufs_write` -/

theorem occupied_le_refl (l : List block) : occupied_le l l := by
  induction l with
  | nil => trivial
  | cons b rest ih => exact ⟨le_refl _, ih⟩

theorem occupied_le_append_right (e : List block) : ∀ (l l1 : List block),
    occupied_le l l1 → occupied_le l (l1 ++ e) := by
  intro l
  induction l with
  | nil => intro _ _; trivial
  | cons b rest ih =>
    intro l1 h
    cases l1 with
    | nil => exact absurd h (by simp [occupied_le])
    | cons c rest1 => exact ⟨h.1, ih rest1 h.2⟩

theorem occupied_le_append_left (xs : List block) {ys ys1 : List block}
    (h : occupied_le ys ys1) : occupied_le (xs ++ ys) (xs ++ ys1) := by
  induction xs with
  | nil => exact h
  | cons b rest ih => exact ⟨le_refl _, ih⟩

theorem occupied_le_get : ∀ (l l1 : List block), occupied_le l l1 →
    ∀ k b, l.get? k = some b → ∃ b1, l1.get? k = some b1 ∧ b.occupied ≤ b1.occupied := by
  intro l
  induction l with
  | nil => intro _ _ k b hb; simp at hb
  | cons x rest ih =>
    intro l1 h k b hb
    cases l1 with
    | nil => exact absurd h (by simp [occupied_le])
    | cons c rest1 =>
      cases k with
      | zero =>
        simp only [List.get?_cons_zero, Option.some.injEq] at hb
        subst hb
        exact ⟨c, rfl, h.1⟩
      | succ k =>
        simp only [List.get?_cons_succ] at hb
        exact ih rest1 h.2 k b hb

theorem occupied_le_sum : ∀ (l l1 : List block), occupied_le l l1 →
    occupied_sum l ≤ occupied_sum l1 := by
  intro l
  induction l with
  | nil => intro _ _; simp [occupied_sum]
  | cons x rest ih =>
    intro l1 h
    cases l1 with
    | nil => exact absurd h (by simp [occupied_le])
    | cons c rest1 =>
      have := ih rest1 h.2
      have := h.1
      simp only [occupied_sum]
      omega

theorem occupied_sum_full (l : List block) (h : ∀ b ∈ l, b.occupied = BLOCK_SIZE) :
    occupied_sum l = BLOCK_SIZE * l.length := by
  induction l with
  | nil => simp [occupied_sum]
  | cons b rest ih =>
    have h1 := h b (List.mem_cons_self _ _)
    have h2 := ih (fun x hx => h x (List.mem_cons_of_mem _ hx))
    simp only [occupied_sum, List.length_cons, BLOCK_SIZE] at *
    omega

/-- The first loop of `ufs_write` leaves no block with a smaller `occupied`. -/
theorem write_existing_mono (bs : List block) : ∀ (cb pos fsize : Nat) (data : List Byte)
    (r : wloop), write_existing bs cb pos fsize data = some r → occupied_le bs r.blocks := by
  induction bs with
  | nil => intro _ _ _ _ _ _; trivial
  | cons b rest ih =>
    intro cb pos fsize data r h
    unfold write_existing at h
    by_cases hd : data.length = 0
    · simp only [hd, if_true] at h
      cases h
      exact occupied_le_refl _
    · simp only [hd, if_false] at h
      by_cases hck : (cb * BLOCK_SIZE + pos + write_size data.length (left_space pos)) % SIZE_MOD
          ≥ MAX_FILE_SIZE
      · simp only [hck, if_true] at h
        cases h
        exact occupied_le_refl _
      · simp only [hck, if_false] at h
        by_cases hoob : pos + write_size data.length (left_space pos) > BLOCK_SIZE
        · simp only [hoob, if_true] at h
          cases h
        · simp only [hoob, if_false] at h
          generalize write_size data.length (left_space pos) = ws at *
          have hsb_occ := store_block_occupied b pos (data.take ws)
          cases rest with
          | nil =>
            simp only at h
            cases h
            exact ⟨by rw [hsb_occ]; exact le_max_right _ _, trivial⟩
          | cons c rest1 =>
            simp only at h
            cases hrec : write_existing (c :: rest1) (cb + 1) 0
                (size_after fsize b.occupied (pos + ws)) (data.drop ws) with
            | none => rw [hrec] at h; cases h
            | some r1 =>
              rw [hrec] at h
              cases h
              exact ⟨by rw [hsb_occ]; exact le_max_right _ _, ih _ _ _ _ _ hrec⟩

/-- The first loop of `ufs_write`, when the bytes end inside the occupied part
of the chain: no `occupied` changes, the size of the file is as before, and
no byte is left for the second loop. -/
theorem write_existing_inside (bs : List block) : ∀ (cb pos fsize : Nat) (data : List Byte)
    (r : wloop), (∀ b ∈ bs, b.occupied ≤ BLOCK_SIZE) → interior_full bs →
    pos + data.length ≤ occupied_sum bs →
    write_existing bs cb pos fsize data = some r →
    r.blocks.map block.occupied = bs.map block.occupied ∧ r.size = fsize ∧
    (r.nomem = false → r.rest = []) := by
  induction bs with
  | nil =>
    intro cb pos fsize data r _ _ hin h
    have hd : data.length = 0 := by simp only [occupied_sum] at hin; omega
    unfold write_existing at h
    simp only [hd, if_true] at h
    cases h
    exact ⟨rfl, rfl, fun _ => List.length_eq_zero.mp hd⟩
  | cons b rest ih =>
    intro cb pos fsize data r hocc hfull hin h
    have hb_occ := hocc b (List.mem_cons_self _ _)
    unfold write_existing at h
    by_cases hd : data.length = 0
    · simp only [hd, if_true] at h
      cases h
      exact ⟨rfl, rfl, fun _ => List.length_eq_zero.mp hd⟩
    · simp only [hd, if_false] at h
      by_cases hck : (cb * BLOCK_SIZE + pos + write_size data.length (left_space pos)) % SIZE_MOD
          ≥ MAX_FILE_SIZE
      · simp only [hck, if_true] at h
        cases h
        exact ⟨rfl, rfl, fun hn => by cases hn⟩
      · simp only [hck, if_false] at h
        by_cases hoob : pos + write_size data.length (left_space pos) > BLOCK_SIZE
        · simp only [hoob, if_true] at h
          cases h
        · simp only [hoob, if_false] at h
          have hws_le := write_size_le data.length (left_space pos)
          have hws := write_size_cases data.length pos (by omega)
          generalize write_size data.length (left_space pos) = ws at *
          have htake : (data.take ws).length = ws := by
            rw [List.length_take]; omega
          have hsb_occ := store_block_occupied b pos (data.take ws)
          rw [htake] at hsb_occ
          have hdrop : (data.drop ws).length = data.length - ws := List.length_drop _ _
          cases rest with
          | nil =>
            simp only at h
            cases h
            simp only [occupied_sum] at hin
            have hwsn : ws = data.length := by
              rcases hws with h1 | ⟨h1, h2⟩
              · exact h1
              · simp only [BLOCK_SIZE] at *; omega
            refine ⟨?_, ?_, fun _ => ?_⟩
            · show [(store_block b pos (List.take ws data)).occupied] = [b.occupied]
              rw [hsb_occ]
              congr 1
              omega
            · show size_after fsize b.occupied (pos + ws) = fsize
              unfold size_after
              rw [if_neg (by omega)]
            · show data.drop ws = []
              apply List.length_eq_zero.mp
              omega
          | cons c rest1 =>
            simp only at h
            cases hrec : write_existing (c :: rest1) (cb + 1) 0
                (size_after fsize b.occupied (pos + ws)) (data.drop ws) with
            | none => rw [hrec] at h; cases h
            | some r1 =>
              rw [hrec] at h
              cases h
              have hbfull : b.occupied = BLOCK_SIZE := hfull.1
              have hsa : size_after fsize b.occupied (pos + ws) = fsize := by
                unfold size_after
                rw [if_neg (by omega)]
              rw [hsa] at hrec
              have hrest := ih (cb + 1) 0 fsize (data.drop ws) r1
                (fun x hx => hocc x (List.mem_cons_of_mem _ hx)) hfull.2
                (by
                  simp only [occupied_sum] at hin ⊢
                  rcases hws with h1 | ⟨h1, h2⟩ <;> simp only [BLOCK_SIZE] at * <;> omega)
                hrec
              refine ⟨?_, hrest.2.1, hrest.2.2⟩
              show (store_block b pos (List.take ws data)).occupied
                  :: r1.blocks.map block.occupied
                = b.occupied :: (c :: rest1).map block.occupied
              rw [hsb_occ, hrest.1]
              congr 1
              omega

/-- The cases of a call of `ufs_write` whose result is defined: a failure
before any store, or the run of the two loops. -/
theorem ufs_write_cases {s s1 : State} {r : Int} (h : Inv s) {fd : Int} {buf : List Byte}
    (hbuf : buf.length ≤ PTRDIFF_MAX) (hw : ufs_write s fd buf = some (r, s1)) :
    (r = -1 ∧ ∃ e, s1 = { s with error_code := e }) ∨
    ∃ d f r1, slot_at s fd.toNat = slot.desc d ∧ does_have_write_permission d.mode = true ∧
      file_at s.file_list d.file = some f ∧
      ¬ (d.current_block * BLOCK_SIZE + d.current_position + buf.length) % SIZE_MOD
        > MAX_FILE_SIZE ∧
      write_existing (f.block_list.drop d.current_block) d.current_block d.current_position
        f.size buf = some r1 ∧
      we_post (f.block_list.drop d.current_block) d.current_block d.current_position
        (occupied_sum (f.block_list.take d.current_block)) r1 ∧
      ((r1.nomem = true ∧ r = -1 ∧ s1 =
          { set_written s fd d f (f.block_list.take d.current_block ++ r1.blocks) r1.size
              f.last_block r1.current_block r1.current_position with
            error_code := UFS_ERR_NO_MEM }) ∨
       (r1.nomem = false ∧ ∃ r2, write_new s.uninit d.file r1.rest.length r1.current_block
          r1.current_position r1.size r1.rest = some r2 ∧
          wn_post r1.current_block r1.current_position r1.size r1.rest r2 ∧
          r = (buf.length : Int) ∧ s1 =
            set_written s fd d f (f.block_list.take d.current_block ++ r1.blocks ++ r2.blocks)
              r2.size (if r2.blocks.length = 0 then f.last_block else r2.current_block)
              r2.current_block r2.current_position)) := by
  by_cases hi : is_incorrect_fd s fd = true
  · unfold ufs_write at hw
    simp only [hi, if_true] at hw
    cases hw
    exact Or.inl ⟨rfl, _, rfl⟩
  · have hi1 : is_incorrect_fd s fd = false := by simpa using hi
    cases hs : slot_at s fd.toNat with
    | null => unfold ufs_write at hw; rw [hs] at hw; simp [hi1] at hw
    | wild => unfold ufs_write at hw; rw [hs] at hw; simp [hi1] at hw
    | desc d =>
      by_cases hp : does_have_write_permission d.mode = true
      · cases hf : file_at s.file_list d.file with
        | none => unfold ufs_write at hw; rw [hs] at hw; simp [hi1, hp, hf] at hw
        | some f =>
          by_cases hcap : (d.current_block * BLOCK_SIZE + d.current_position + buf.length)
              % SIZE_MOD > MAX_FILE_SIZE
          · unfold ufs_write at hw
            rw [hs] at hw
            simp only [hi1, hp, hf, Bool.false_eq_true, if_false, Bool.not_true] at hw
            by_cases hint : d.current_block * BLOCK_SIZE + d.current_position > INT_MAX
            · rw [if_pos hint] at hw
              cases hw
            · rw [if_neg hint, if_pos hcap] at hw
              cases hw
              exact Or.inl ⟨rfl, _, rfl⟩
          · right
            rcases ufs_write_run h hi1 hs hp hf hbuf hcap with ⟨_, h2⟩ | ⟨r1, hr1, hpost, h2⟩
            · rw [h2] at hw; cases hw
            · refine ⟨d, f, r1, rfl, hp, hf, hcap, hr1, hpost, ?_⟩
              rcases h2 with ⟨hn, h3⟩ | ⟨hn, r2, hr2, hp2, h3⟩
              · rw [h3] at hw
                cases hw
                exact Or.inl ⟨hn, rfl, rfl⟩
              · rw [h3] at hw
                cases hw
                exact Or.inr ⟨hn, r2, hr2, hp2, rfl, rfl⟩
      · unfold ufs_write at hw
        rw [hs] at hw
        simp only [hi1, hp, Bool.false_eq_true, if_false, Bool.not_false, if_true] at hw
        cases hw
        exact Or.inl ⟨rfl, _, rfl⟩
/-- Every file of the list is in the list after `ufs_write`, under its
address and its name, with no block lost and no `occupied` smaller. -/
theorem ufs_write_files {s s1 : State} {r : Int} (h : Inv s) {fd : Int} {buf : List Byte}
    (hbuf : buf.length ≤ PTRDIFF_MAX) (hw : ufs_write s fd buf = some (r, s1)) :
    ∀ f ∈ s.file_list, ∃ g, file_at s1.file_list f.addr = some g ∧ g.name = f.name ∧
      occupied_le f.block_list g.block_list := by
  rcases ufs_write_cases h hbuf hw with
    ⟨_, e, rfl⟩ | ⟨d, f0, r1, hs, hp, hf0, hcap, hr1, hpost, h2⟩
  · intro f hf
    exact ⟨f, file_at_of_mem h.addr_nodup hf, rfl, occupied_le_refl _⟩
  · have hmono := write_existing_mono _ _ _ _ _ _ hr1
    have hchain : ∀ extra, occupied_le f0.block_list
        (f0.block_list.take d.current_block ++ r1.blocks ++ extra) := by
      intro extra
      have := occupied_le_append_left (f0.block_list.take d.current_block)
        (occupied_le_append_right extra _ _ hmono)
      rw [List.take_append_drop, ← List.append_assoc] at this
      exact this
    have key : ∀ (chain : List block) (size last : Nat), occupied_le f0.block_list chain →
        ∀ f ∈ s.file_list, ∃ g,
          file_at (set_file s.file_list d.file (written_file f0 chain size last)) f.addr
            = some g ∧ g.name = f.name ∧ occupied_le f.block_list g.block_list := by
      intro chain size last hle f hf
      have hff : file_at s.file_list f.addr = some f := file_at_of_mem h.addr_nodup hf
      by_cases ha : f.addr = d.file
      · rw [ha] at hff
        rw [hf0] at hff
        cases hff
        refine ⟨written_file f0 chain size last, ?_, rfl, hle⟩
        rw [ha]
        exact file_at_set_file_same hf0
          (show (written_file f0 chain size last).addr = d.file from (file_at_some hf0).2)
      · refine ⟨f, ?_, rfl, occupied_le_refl _⟩
        rw [file_at_set_file_other
          (show (written_file f0 chain size last).addr = d.file from (file_at_some hf0).2) ha]
        exact hff
    rcases h2 with ⟨_, _, rfl⟩ | ⟨_, r2, _, _, _, rfl⟩
    · have := hchain []
      rw [List.append_nil] at this
      exact key _ _ _ this
    · exact key _ _ _ (hchain r2.blocks)

/-! ## The layout of the chain of blocks -/

theorem occupied_le_drop_pos : ∀ (l l1 : List block) (n : Nat), occupied_le l l1 →
    l.length = l1.length → (∀ b ∈ l.drop n, 1 ≤ b.occupied) →
    ∀ b ∈ l1.drop n, 1 ≤ b.occupied := by
  intro l
  induction l with
  | nil =>
    intro l1 n _ hlen _ b hb
    have : l1 = [] := List.length_eq_zero.mp hlen.symm
    subst this
    simp at hb
  | cons x rest ih =>
    intro l1 n h hlen hpos b hb
    cases l1 with
    | nil => exact absurd h (by simp [occupied_le])
    | cons c rest1 =>
      have hlen1 : rest.length = rest1.length := by simpa using hlen
      cases n with
      | zero =>
        simp only [List.drop_zero] at hb hpos
        rcases List.mem_cons.mp hb with rfl | hb1
        · have := hpos x (List.mem_cons_self _ _)
          have := h.1
          omega
        · exact ih rest1 0 h.2 hlen1
            (fun y hy => hpos y (List.mem_cons_of_mem _ (by simpa using hy))) b (by simpa using hb1)
      | succ n =>
        simp only [List.drop_succ_cons] at hb hpos
        exact ih rest1 n h.2 hlen1 hpos b hb

/-- Every block the second loop of `ufs_write` appends holds a byte. -/
theorem write_new_pos (u : Uninit) (a : Nat) (fuel : Nat) :
    ∀ (cb pos fsize : Nat) (data : List Byte) (r : wloop),
    write_new u a fuel cb pos fsize data = some r → r.nomem = false →
    ∀ b ∈ r.blocks, 1 ≤ b.occupied := by
  induction fuel with
  | zero =>
    intro cb pos fsize data r h _ b hb
    unfold write_new at h
    by_cases hd : data.length = 0
    · simp only [hd, if_true] at h
      cases h
      simp at hb
    · simp only [hd, if_false] at h
      cases h
  | succ fuel ih =>
    intro cb pos fsize data r h hn b hb
    unfold write_new at h
    by_cases hd : data.length = 0
    · simp only [hd, if_true] at h
      cases h
      simp at hb
    · simp only [hd, if_false] at h
      by_cases hck : ((cb + 1) * BLOCK_SIZE + 0 + write_size data.length BLOCK_SIZE) % SIZE_MOD
          > MAX_FILE_SIZE
      · simp only [hck, if_true] at h
        cases h
        cases hn
      · simp only [hck, if_false] at h
        have hws : 1 ≤ write_size data.length BLOCK_SIZE ∧
            write_size data.length BLOCK_SIZE ≤ data.length := by
          unfold write_size
          simp only [BLOCK_SIZE]
          split <;> omega
        generalize write_size data.length BLOCK_SIZE = ws at *
        cases hrec : write_new u a fuel (cb + 1) (0 + ws) ((fsize + ws) % SIZE_MOD)
            (data.drop ws) with
        | none => rw [hrec] at h; cases h
        | some r1 =>
          rw [hrec] at h
          cases h
          rcases List.mem_cons.mp hb with rfl | hb1
          · simp only [new_block, List.length_take]
            omega
          · exact ih _ _ _ _ r1 hrec hn b hb1

theorem chain_ok_refs {f : file} (h : chain_ok f) (r : Int) : chain_ok { f with refs := r } :=
  ⟨h.tail_pos, h.last_eq⟩

theorem chain_ok_new_file (u : Uninit) (a : Nat) (n : String) : chain_ok (new_file u a n) :=
  ⟨by intro b hb; simp [new_file] at hb, rfl⟩

theorem chain_ok_set_file {fl : List file} {a : Nat} {g : file}
    (h : ∀ f ∈ fl, chain_ok f) (hg : chain_ok g) : ∀ f ∈ set_file fl a g, chain_ok f := by
  intro f hf
  rcases mem_set_file hf with rfl | ⟨hf1, _⟩
  · exact hg
  · exact h f hf1

/-- `ufs_write` keeps the chains well formed. -/
theorem ufs_write_chain_ok {s s1 : State} {r : Int} (h : Inv s)
    (hc : ∀ f ∈ s.file_list, chain_ok f) {fd : Int} {buf : List Byte}
    (hbuf : buf.length ≤ PTRDIFF_MAX) (hw : ufs_write s fd buf = some (r, s1)) :
    ∀ f ∈ s1.file_list, chain_ok f := by
  rcases ufs_write_cases h hbuf hw with
    ⟨_, e, rfl⟩ | ⟨d, f0, r1, hs, hp, hf0, hcap, hr1, hpost, h2⟩
  · exact hc
  · have hc0 := hc f0 (file_at_some hf0).1
    have hblk := (h.descs_ok _ d hs).block_lt f0 hf0
    have hmono := write_existing_mono _ _ _ _ _ _ hr1
    have hle : occupied_le f0.block_list (f0.block_list.take d.current_block ++ r1.blocks) := by
      have := occupied_le_append_left (f0.block_list.take d.current_block) hmono
      rw [List.take_append_drop] at this
      exact this
    have hdl : (f0.block_list.drop d.current_block).length
        = f0.block_list.length - d.current_block := List.length_drop _ _
    have htl : (f0.block_list.take d.current_block).length = d.current_block := by
      rw [List.length_take]; omega
    have hlen : (f0.block_list.take d.current_block ++ r1.blocks).length
        = f0.block_list.length := by
      rw [List.length_append, htl, hpost.len, hdl]; omega
    have hpos := occupied_le_drop_pos _ _ 1 hle hlen.symm hc0.tail_pos
    rcases h2 with ⟨_, _, rfl⟩ | ⟨hn, r2, hr2, hp2, _, rfl⟩
    · apply chain_ok_set_file hc
      exact ⟨hpos, by
        show f0.last_block + 1 = (f0.block_list.take d.current_block ++ r1.blocks).length
        rw [hlen]; exact hc0.last_eq⟩
    · apply chain_ok_set_file hc
      constructor
      · intro b hb
        have hb1 : b ∈ ((f0.block_list.take d.current_block ++ r1.blocks) ++ r2.blocks).drop 1 :=
          hb
        rw [List.drop_append_of_le_length (by omega)] at hb1
        rcases List.mem_append.mp hb1 with hb2 | hb2
        · exact hpos b hb2
        · exact write_new_pos _ _ _ _ _ _ _ _ hr2 hp2.nomem b hb2
      · show (if r2.blocks.length = 0 then f0.last_block else r2.current_block) + 1
          = ((f0.block_list.take d.current_block ++ r1.blocks) ++ r2.blocks).length
        rw [List.length_append, hlen]
        by_cases h0 : r2.blocks.length = 0
        · rw [if_pos h0, h0]
          exact hc0.last_eq
        · rw [if_neg h0]
          have hlen2 := hp2.len_eq
          have hrest : r1.rest ≠ [] := by
            intro hnil
            rw [hnil] at hlen2
            simp at hlen2
            exact h0 (by simpa using hlen2)
          have hmore := (hpost.more hn hrest).2.1
          have hcb := hp2.cb_eq
          omega

/-- `ufs_open` keeps the chains well formed. -/
theorem ufs_open_chain_ok {s s1 : State} {r : Int} (h : Inv s)
    (hc : ∀ f ∈ s.file_list, chain_ok f) {filename : String} {flags : Int}
    (ho : ufs_open s filename flags = some (r, s1)) : ∀ f ∈ s1.file_list, chain_ok f := by
  cases hg : get_file s.file_list filename with
  | some f =>
    obtain ⟨fd, s2, h1, h2⟩ := ufs_open_existing h flags hg
    rw [h1] at ho
    cases ho
    rw [h2.files]
    exact chain_ok_set_file hc (chain_ok_refs (hc f (get_file_some hg).1) _)
  | none =>
    by_cases hcr : flags = UFS_CREATE
    · subst hcr
      obtain ⟨fd, s2, h1, h2⟩ := ufs_open_new h hg
      rw [h1] at ho
      cases ho
      rw [h2.files]
      apply chain_ok_set_file
      · intro f hf
        have hf1 : f ∈ file_list_add s.file_list (new_file s.uninit s.next_addr filename) := hf
        rw [file_list_add_eq] at hf1
        rcases List.mem_append.mp hf1 with hf2 | hf2
        · exact hc f hf2
        · rw [List.mem_singleton] at hf2
          subst hf2
          exact chain_ok_new_file _ _ _
      · exact chain_ok_refs (chain_ok_new_file _ _ _) _
    · rw [ufs_open_missing s filename flags hcr hg] at ho
      cases ho
      exact hc

/-- A call keeps the chains well formed. -/
theorem step_chain_ok {s s1 : State} (h : Inv s) (hc : ∀ f ∈ s.file_list, chain_ok f)
    (hs : Step s s1) : ∀ f ∈ s1.file_list, chain_ok f := by
  cases hs with
  | opened filename flags ho => exact ufs_open_chain_ok h hc ho
  | written fd buf hbuf hw => exact ufs_write_chain_ok h hc hbuf hw
  | read fd size _ hr =>
    rw [(ufs_read_table hr).1]
    exact hc
  | closed fd hcl =>
    rcases ufs_close_shape hcl with ⟨_, _, rfl⟩ | ⟨_, _, d, f, _, hf, rfl⟩
    · exact hc
    · exact chain_ok_set_file hc (chain_ok_refs (hc f (file_at_some hf).1) _)
  | deleted filename =>
    cases hg : get_file s.file_list filename with
    | none =>
      rw [ufs_delete_missing s filename hg]
      exact hc
    | some f =>
      rw [ufs_delete_existing s filename f hg]
      intro x hx
      exact hc x ((erase_name_sublist s.file_list filename).subset hx)

/-- In every reachable state the chains are well formed. -/
theorem Reachable_chain_ok {s : State} (h : Reachable s) : ∀ f ∈ s.file_list, chain_ok f := by
  induction h with
  | start u => intro f hf; cases hf
  | opened filename flags hr ho ih =>
    exact step_chain_ok (Reachable_inv hr) ih (Step.opened filename flags ho)
  | written fd buf hr hbuf hw ih =>
    exact step_chain_ok (Reachable_inv hr) ih (Step.written fd buf hbuf hw)
  | read fd size hr hsz hrd ih =>
    exact step_chain_ok (Reachable_inv hr) ih (Step.read fd size hsz hrd)
  | closed fd hr hc ih => exact step_chain_ok (Reachable_inv hr) ih (Step.closed fd hc)
  | deleted filename hr ih => exact step_chain_ok (Reachable_inv hr) ih (Step.deleted filename)
theorem interior_full_dropLast : ∀ (l : List block), interior_full l →
    ∀ b ∈ l.dropLast, b.occupied = BLOCK_SIZE := by
  intro l
  induction l with
  | nil => intro _ b hb; simp at hb
  | cons x rest ih =>
    intro h b hb
    cases rest with
    | nil => simp at hb
    | cons y ys =>
      have hd : (x :: y :: ys).dropLast = x :: (y :: ys).dropLast := rfl
      rw [hd] at hb
      rcases List.mem_cons.mp hb with rfl | hb1
      · exact h.1
      · exact ih h.2 b hb1

theorem getLast_cons_cons (x y : block) (ys : List block) :
    (x :: y :: ys).getLast? = (y :: ys).getLast? := by
  simp [List.getLast?_cons_cons]

/-- The sum of `occupied` over a chain whose blocks but the last are full. -/
theorem occupied_sum_interior : ∀ (l : List block), interior_full l →
    ∀ b, l.getLast? = some b →
    occupied_sum l = BLOCK_SIZE * (l.length - 1) + b.occupied := by
  intro l
  induction l with
  | nil => intro _ b hb; simp at hb
  | cons x rest ih =>
    intro h b hb
    cases rest with
    | nil =>
      simp only [List.getLast?_singleton, Option.some.injEq] at hb
      subst hb
      simp [occupied_sum]
    | cons y ys =>
      rw [getLast_cons_cons] at hb
      have h1 := ih h.2 b hb
      have hx : x.occupied = BLOCK_SIZE := h.1
      simp only [occupied_sum, List.length_cons, BLOCK_SIZE] at *
      omega

theorem getLast_mem : ∀ (l : List block) (b : block), l.getLast? = some b → b ∈ l := by
  intro l
  induction l with
  | nil => intro b hb; simp at hb
  | cons x rest ih =>
    intro b hb
    cases rest with
    | nil =>
      simp only [List.getLast?_singleton, Option.some.injEq] at hb
      subst hb
      exact List.mem_cons_self _ _
    | cons y ys =>
      rw [getLast_cons_cons] at hb
      exact List.mem_cons_of_mem _ (ih b hb)

/-- A well formed file has the layout of sequential writes of `size` bytes. -/
theorem layout_of_ok {f : file} (hfok : file_ok f) (hc : chain_ok f) :
    sequential_layout f f.size := by
  have hfull := hfok.full
  have hsize := hfok.size_eq
  have hocc := hfok.occ_le
  have hne := hfok.nonempty
  have htail := hc.tail_pos
  refine ⟨?_, interior_full_dropLast _ hfull, ?_, hc.last_eq⟩
  · cases hl : f.block_list with
    | nil => exact absurd hl hne
    | cons x rest =>
      rw [hl] at hfull hsize hocc htail
      cases rest with
      | nil =>
        have hx := hocc x (List.mem_cons_self _ _)
        simp only [occupied_sum] at hsize
        simp only [List.length_singleton, BLOCK_SIZE] at *
        omega
      | cons y ys =>
        cases hlast : (x :: y :: ys).getLast? with
        | none => simp at hlast
        | some b =>
          have hsum := occupied_sum_interior _ hfull b hlast
          have hb_mem : b ∈ (x :: y :: ys).drop 1 := by
            rw [getLast_cons_cons] at hlast
            exact getLast_mem _ b hlast
          have hb1 := htail b hb_mem
          have hb2 := hocc b (getLast_mem _ b hlast)
          simp only [List.length_cons, BLOCK_SIZE] at *
          omega
  · intro b hb
    have hsum := occupied_sum_interior _ hfull b hb
    simp only [BLOCK_SIZE] at *
    omega

/-- The first loop of `ufs_write` on the last block of a chain, from a cursor
at the end of the data of the block. -/
theorem write_existing_single (b : block) (cb pos fsize : Nat) (data : List Byte) (r : wloop)
    (hpos : pos = b.occupied) (h : write_existing [b] cb pos fsize data = some r)
    (hn : r.nomem = false) :
    ∃ ws b1, r.blocks = [b1] ∧ b1.occupied = pos + ws ∧ ws ≤ data.length ∧
      r.current_block = cb ∧ r.current_position = pos + ws ∧
      r.rest.length = data.length - ws ∧
      (ws = data.length ∨ (pos + ws = BLOCK_SIZE ∧ ws < data.length)) := by
  unfold write_existing at h
  by_cases hd : data.length = 0
  · simp only [hd, if_true] at h
    cases h
    exact ⟨0, b, rfl, hpos.symm, Nat.zero_le _, rfl, rfl, by simp [hd], Or.inl hd.symm⟩
  · simp only [hd, if_false] at h
    by_cases hck : (cb * BLOCK_SIZE + pos + write_size data.length (left_space pos)) % SIZE_MOD
        ≥ MAX_FILE_SIZE
    · simp only [hck, if_true] at h
      cases h
      cases hn
    · simp only [hck, if_false] at h
      by_cases hoob : pos + write_size data.length (left_space pos) > BLOCK_SIZE
      · simp only [hoob, if_true] at h
        cases h
      · simp only [hoob, if_false] at h
        have hws_le := write_size_le data.length (left_space pos)
        have hws := write_size_cases data.length pos (by omega)
        generalize write_size data.length (left_space pos) = ws at *
        have htake : (data.take ws).length = ws := by
          rw [List.length_take]; omega
        have hsb_occ := store_block_occupied b pos (data.take ws)
        rw [htake] at hsb_occ
        cases h
        refine ⟨ws, _, rfl, ?_, hws_le, rfl, rfl, List.length_drop _ _, ?_⟩
        · rw [hsb_occ]; omega
        · rcases hws with h1 | ⟨h1, h2⟩
          · exact Or.inl h1
          · right
            simp only [BLOCK_SIZE] at *
            omega

theorem at_end_size (n cb pos bocc ws len m A fsz b1occ r1size r2size : Nat)
    (hlin : cb * 512 + pos = n) (hsize : fsz = n) (hsum : fsz = A + (bocc + 0))
    (htake : A = 512 * cb) (hocc1 : b1occ = pos + ws) (hsz1 : r1size = A + (b1occ + 0))
    (hm : m = len - ws) (hwsle : ws ≤ len) (hsz2 : r2size = r1size + m) :
    r2size = n + len := by
  omega

theorem at_end_cursor (n cb pos ws len m len2 r2cb r2pos : Nat) (hlin : cb * 512 + pos = n)
    (hwsle : ws ≤ len) (hm : m = len - ws) (hlen2 : len2 = (m + 511) / 512)
    (hcb : r2cb = cb + len2)
    (hpos2 : r2pos = if m = 0 then pos + ws else m - 512 * ((m - 1) / 512))
    (hcase : ws = len ∨ (pos + ws = 512 ∧ ws < len)) :
    r2cb * 512 + r2pos = n + len := by
  split at hpos2 <;> omega

/-- A successful write through a handle whose cursor is at the end of the data
appends the bytes and leaves the cursor at the end of the data. -/
theorem write_at_end {s s1 : State} (h : Inv s) {fd : Int} {a : Nat} {name : String} {n : Nat}
    (he : cursor_at_end s fd a name n) {buf : List Byte} (hbuf : buf.length ≤ PTRDIFF_MAX)
    (hw : ufs_write s fd buf = some ((buf.length : Int), s1)) :
    cursor_at_end s1 fd a name (n + buf.length) := by
  obtain ⟨d, f, hs, hda, hf, hname, hsize, hcb, hlin⟩ := he
  subst hda
  rcases ufs_write_cases h hbuf hw with
    ⟨hr, _⟩ | ⟨d0, f0, r1, hs0, hp, hf0, hcap, hr1, hpost, h2⟩
  · omega
  · rw [hs] at hs0
    cases hs0
    rw [hf] at hf0
    cases hf0
    rcases h2 with ⟨_, hr, _⟩ | ⟨hn, r2, hr2, hp2, _, rfl⟩
    · omega
    · have hfok := h.files_ok f (file_at_some hf).1
      have hblk : d.current_block < f.block_list.length := by omega
      have hdl : (f.block_list.drop d.current_block).length = 1 := by
        rw [List.length_drop]; omega
      obtain ⟨b, hdrop⟩ := List.length_eq_one.mp hdl
      have htl : (f.block_list.take d.current_block).length = d.current_block := by
        rw [List.length_take]; omega
      have htake := occupied_sum_full (f.block_list.take d.current_block)
        (interior_full_take_full _ _ hfok.full hblk)
      rw [htl] at htake
      have hsum : f.size = occupied_sum (f.block_list.take d.current_block)
          + occupied_sum (f.block_list.drop d.current_block) := by
        rw [hfok.size_eq, ← occupied_sum_append, List.take_append_drop]
      rw [hdrop] at hsum hr1
      simp only [occupied_sum] at hsum
      have hposb : d.current_position = b.occupied := by
        have h1 : d.current_block * 512 + d.current_position = n := hlin
        have h2 : occupied_sum (f.block_list.take d.current_block) = 512 * d.current_block :=
          htake
        clear hw hr1 hr2 hpost hp2 hcap hp hlin htake
        omega
      obtain ⟨ws, b1, hb1, hocc1, hwsle, hcb1, hpos1, hrest1, hcase⟩ :=
        write_existing_single b _ _ _ _ r1 hposb hr1 hn
      have hsz1 := hpost.size_eq
      rw [hb1] at hsz1
      simp only [occupied_sum] at hsz1
      have hsz2 := hp2.size_eq
      have hcb2 := hp2.cb_eq
      have hlen2 := hp2.len_eq
      have hpos2 := hp2.pos_eq
      have hlt := slot_at_lt_of_desc hs
      rw [hcb1] at hcb2
      rw [hpos1] at hpos2
      have hlen3 : (f.block_list.take d.current_block ++ r1.blocks ++ r2.blocks).length
          = d.current_block + 1 + r2.blocks.length := by
        rw [List.length_append, List.length_append, htl, hb1, List.length_singleton]
      refine ⟨{ d with current_block := r2.current_block,
                       current_position := r2.current_position },
        written_file f (f.block_list.take d.current_block ++ r1.blocks ++ r2.blocks) r2.size
          (if r2.blocks.length = 0 then f.last_block else r2.current_block),
        slot_at_set_written s fd d f _ _ _ _ _ hlt, rfl,
        file_at_set_written s fd d f _ _ _ _ _ hf, hname, ?_, ?_, ?_⟩
      · exact at_end_size n d.current_block d.current_position b.occupied ws buf.length
          r1.rest.length _ f.size b1.occupied r1.size r2.size hlin hsize hsum htake hocc1 hsz1
          hrest1 hwsle hsz2
      · show r2.current_block + 1
          = (f.block_list.take d.current_block ++ r1.blocks ++ r2.blocks).length
        rw [hlen3, hcb2]
        exact Nat.add_right_comm _ _ _
      · exact at_end_cursor n d.current_block d.current_position ws buf.length
          r1.rest.length r2.blocks.length r2.current_block r2.current_position hlin hwsle
          hrest1 hlen2 hcb2 hpos2 hcase

theorem write_all_at_end : ∀ (ws : List (List Byte)) {s s2 : State} {fd : Int} {a : Nat}
    {name : String} {n : Nat}, Reachable s → cursor_at_end s fd a name n →
    (∀ w ∈ ws, w.length ≤ PTRDIFF_MAX) →
    write_all s fd ws = some (ws.map (fun w => (w.length : Int)), s2) →
    Reachable s2 ∧ cursor_at_end s2 fd a name (n + (ws.map List.length).sum) := by
  intro ws
  induction ws with
  | nil =>
    intro s s2 fd a name n hr he _ h
    rw [write_all_nil] at h
    cases h
    exact ⟨hr, by simpa using he⟩
  | cons w ws ih =>
    intro s s2 fd a name n hr he hbuf h
    unfold write_all at h
    cases hw : ufs_write s fd w with
    | none => rw [hw] at h; cases h
    | some p =>
      obtain ⟨r, s1⟩ := p
      rw [hw] at h
      simp only at h
      cases hrec : write_all s1 fd ws with
      | none => rw [hrec] at h; cases h
      | some q =>
        obtain ⟨rs, s3⟩ := q
        rw [hrec] at h
        simp only [List.map_cons, Option.some.injEq, Prod.mk.injEq, List.cons.injEq] at h
        obtain ⟨⟨rfl, rfl⟩, rfl⟩ := h
        have hb := hbuf w (List.mem_cons_self _ _)
        have he1 := write_at_end (Reachable_inv hr) he hb hw
        have hr1 := Reachable.written fd w hr hb hw
        obtain ⟨hr2, he2⟩ := ih hr1 he1 (fun x hx => hbuf x (List.mem_cons_of_mem _ hx)) hrec
        refine ⟨hr2, ?_⟩
        simp only [List.map_cons, List.sum_cons]
        rw [← Nat.add_assoc]
        exact he2

/-- After `ufs_open` with `UFS_CREATE` of a name no file has, the cursor of
the handle is at the end of the empty new file. -/
theorem open_new_at_end {s s1 : State} (h : Inv s) {filename : String} {fd : Int}
    (hg : get_file s.file_list filename = none)
    (ho : ufs_open s filename UFS_CREATE = some (fd, s1)) :
    cursor_at_end s1 fd s.next_addr filename 0 := by
  obtain ⟨fd1, s2, h1, h2⟩ := ufs_open_new h hg
  rw [ho] at h1
  simp only [Option.some.injEq, Prod.mk.injEq] at h1
  obtain ⟨rfl, rfl⟩ := h1
  have hnone : file_at s.file_list s.next_addr = none := by
    cases hfa : file_at s.file_list s.next_addr with
    | none => rfl
    | some y =>
      have hy := file_at_some hfa
      have := h.addr_lt y hy.1
      omega
  have hfa : file_at (file_list_add s.file_list (new_file s.uninit s.next_addr filename))
      s.next_addr = some (new_file s.uninit s.next_addr filename) := by
    rw [file_list_add_eq, file_at_append]
    simp [hnone, new_file]
  refine ⟨⟨s.next_addr, UFS_READ_WRITE, 0, 0⟩,
    { new_file s.uninit s.next_addr filename with
      refs := (new_file s.uninit s.next_addr filename).refs + 1 },
    h2.slot_eq, rfl, ?_, rfl, rfl, ?_, ?_⟩
  · rw [h2.files]
    exact file_at_set_file_same hfa rfl
  · show 0 + 1 = [({ memory := fresh_memory s.uninit s.next_addr 0, occupied := 0 } : block)].length
    rfl
  · show 0 * BLOCK_SIZE + 0 = 0
    rfl

/-- The layout of sequential writes: after `ufs_open` with `UFS_CREATE` of a
new name and writes through its handle that all return the length of their
buffer, the file has the layout of the total number of bytes written. -/
theorem sequential_writes_layout {s s1 s2 : State} (h : Reachable s) {filename : String}
    {fd : Int} {ws : List (List Byte)} (hg : get_file s.file_list filename = none)
    (ho : ufs_open s filename UFS_CREATE = some (fd, s1))
    (hbuf : ∀ w ∈ ws, w.length ≤ PTRDIFF_MAX)
    (hw : write_all s1 fd ws = some (ws.map (fun w => (w.length : Int)), s2)) :
    ∃ f, get_file s2.file_list filename = some f ∧ f.size = (ws.map List.length).sum ∧
      sequential_layout f (ws.map List.length).sum := by
  have he := open_new_at_end (Reachable_inv h) hg ho
  obtain ⟨hr2, d, f, _, _, hf, hname, hsize, _, _⟩ :=
    write_all_at_end ws (Reachable.opened filename UFS_CREATE h ho) he hbuf hw
  have hInv2 := Reachable_inv hr2
  have hmem := (file_at_some hf).1
  refine ⟨f, ?_, by simpa using hsize, ?_⟩
  · rw [← hname]
    exact get_file_of_mem hInv2.name_nodup hmem
  · have := layout_of_ok (hInv2.files_ok f hmem) (Reachable_chain_ok hr2 f hmem)
    rw [hsize] at this
    simpa using this
/-- The block a cursor at the end of the data is in: the last of the chain,
with the cursor at its `occupied`. -/
theorem cursor_at_end_block {s : State} (h : Inv s) {d : filedesc} {f : file}
    (hf : file_at s.file_list d.file = some f)
    (hcb : d.current_block + 1 = f.block_list.length)
    (hlin : d.current_block * BLOCK_SIZE + d.current_position = f.size) :
    ∃ b, f.block_list.drop d.current_block = [b] ∧ d.current_position = b.occupied ∧
      b.occupied ≤ BLOCK_SIZE := by
  have hfok := h.files_ok f (file_at_some hf).1
  have hblk : d.current_block < f.block_list.length := by omega
  have hdl : (f.block_list.drop d.current_block).length = 1 := by
    rw [List.length_drop]; omega
  obtain ⟨b, hdrop⟩ := List.length_eq_one.mp hdl
  have htl : (f.block_list.take d.current_block).length = d.current_block := by
    rw [List.length_take]; omega
  have htake := occupied_sum_full (f.block_list.take d.current_block)
    (interior_full_take_full _ _ hfok.full hblk)
  rw [htl] at htake
  have hsum : f.size = occupied_sum (f.block_list.take d.current_block)
      + occupied_sum (f.block_list.drop d.current_block) := by
    rw [hfok.size_eq, ← occupied_sum_append, List.take_append_drop]
  rw [hdrop] at hsum
  simp only [occupied_sum] at hsum
  have hbm : b ∈ f.block_list :=
    List.mem_of_mem_drop (by rw [hdrop]; exact List.mem_singleton_self b)
  refine ⟨b, hdrop, ?_, hfok.occ_le b hbm⟩
  have h1 : d.current_block * 512 + d.current_position = f.size := hlin
  have h2 : occupied_sum (f.block_list.take d.current_block) = 512 * d.current_block := htake
  omega

/-- The chain after the run at the size cap: the two writes have the total
length `MAX_FILE_SIZE`, the first returns its length, the second -1, and the
file "a" is left with 104857599 bytes, the last block holding 511. -/
theorem cap_run_layout :
    ∃ s2 f b, write_all demo_s1 0 [cap_data, [0]] = some ([104857599, -1], s2) ∧
      get_file s2.file_list "a" = some f ∧ f.size = 104857599 ∧
      f.block_list.length = 204800 ∧ f.block_list.getLast? = some b ∧ b.occupied = 511 := by
  obtain ⟨s, d0, s1, hw1, hreach, _, _, _, _, hw2, _⟩ := cap_run
  have hInv1 := Reachable_inv demo_s1_reachable
  have hInv := Reachable_inv hreach
  have he0 : cursor_at_end demo_s1 0 0 "a" 0 :=
    open_new_at_end (Inv_init demo_u) (show get_file (init demo_u).file_list "a" = none from rfl)
      (show ufs_open (init demo_u) "a" UFS_CREATE = some (0, demo_s1) from rfl)
  have hlen := cap_data_length
  have hw1a : ufs_write demo_s1 0 cap_data = some ((cap_data.length : Int), s) := by
    rw [hlen]; exact hw1
  have hbuf : cap_data.length ≤ PTRDIFF_MAX := by rw [hlen]; decide
  obtain ⟨d, f, hs, hda, hf, hname, hsize, hcb, hlin⟩ := write_at_end hInv1 he0 hbuf hw1a
  rw [hlen] at hsize hlin
  have hfm := (file_at_some hf).1
  have hfok := hInv.files_ok f hfm
  have hlay := layout_of_ok hfok (Reachable_chain_ok hreach f hfm)
  rw [hsize] at hlay
  obtain ⟨hL, _, hlast, _⟩ := hlay
  have hL1 : f.block_list.length = 204800 := by
    rw [hL]; decide
  have hlin1 : d.current_block * BLOCK_SIZE + d.current_position = f.size := by
    rw [hsize]; exact hlin
  rw [← hda] at hf
  obtain ⟨b, hdrop, hposb, hble⟩ := cursor_at_end_block hInv hf hcb hlin1
  have hcbv : d.current_block = 204799 := by omega
  have hposv : d.current_position = 511 := by
    have h1 : d.current_block * 512 + d.current_position = 0 + 104857599 := hlin
    omega
  have hInv2 := ufs_write_inv hInv (show [(0 : Byte)].length ≤ PTRDIFF_MAX by decide) hw2
  have hfile : file_at s1.file_list d.file = some f := by
    rcases ufs_write_cases hInv (show [(0 : Byte)].length ≤ PTRDIFF_MAX by decide) hw2 with
      ⟨_, e, rfl⟩ | ⟨d1, f1, r1, hs1, _, hf1, _, hr1, _, h2⟩
    · exact hf
    · rw [hs] at hs1
      cases hs1
      rw [hf] at hf1
      cases hf1
      rw [hdrop] at hr1
      have hcap := write_existing_at_cap b [] d.current_block d.current_position f.size [0]
        (by decide) (by rw [hposv]; decide) (by rw [hposv]; decide)
        (by rw [hposv, hcbv]; decide)
      rw [hcap] at hr1
      have hr1a := (Option.some.inj hr1).symm
      rcases h2 with ⟨_, _, rfl⟩ | ⟨hn, _⟩
      · have hchain : f.block_list.take d.current_block ++ r1.blocks = f.block_list := by
          rw [hr1a]
          show f.block_list.take d.current_block ++ [b] = f.block_list
          rw [← hdrop, List.take_append_drop]
        have hsz : r1.size = f.size := by rw [hr1a]
        show file_at (set_file s.file_list d.file (written_file f
          (f.block_list.take d.current_block ++ r1.blocks) r1.size f.last_block)) d.file = some f
        rw [hchain, hsz]
        have hwf : written_file f f.block_list f.size f.last_block = f := by
          cases f; rfl
        rw [hwf]
        exact file_at_set_file_same hf (file_at_some hf).2
      · rw [hr1a] at hn
        cases hn
  have hfm2 := (file_at_some hfile).1
  have hlastb : f.block_list.getLast? = some b := by
    have h1 : f.block_list = f.block_list.take d.current_block ++ [b] := by
      rw [← hdrop, List.take_append_drop]
    rw [h1]
    simp
  refine ⟨s1, f, b, write_all_cons hw1 (write_all_cons hw2 (write_all_nil s1 0)), ?_, hsize,
    hL1, hlastb, ?_⟩
  · rw [← hname]
    exact get_file_of_mem hInv2.name_nodup hfm2
  · have := hlast b hlastb
    rw [hL1] at this
    rw [this]
    decide

/-! ## The `int` offset of the cursor in the test of the size cap -/

/-- The rejection at the size cap is atomic for a cursor whose `int` offset
`current_block * BLOCK_SIZE + current_position` does not overflow: for an open
handle with write permission whose prospective end offset exceeds
`MAX_FILE_SIZE` (and fits a `size_t`), `ufs_write` returns -1 with
`UFS_ERR_NO_MEM` and leaves the list of files and the descriptor table as they
were. -/
theorem cap_rejection_in_range (s : State) (fd : Int) (d : filedesc) (f : file)
    (data : List Byte) (hi : is_incorrect_fd s fd = false)
    (hs : slot_at s fd.toNat = slot.desc d)
    (hp : does_have_write_permission d.mode = true)
    (hf : file_at s.file_list d.file = some f)
    (hint : d.current_block * BLOCK_SIZE + d.current_position ≤ INT_MAX)
    (hfit : d.current_block * BLOCK_SIZE + d.current_position + data.length < SIZE_MOD)
    (hover : d.current_block * BLOCK_SIZE + d.current_position + data.length > MAX_FILE_SIZE) :
    ∃ s1, ufs_write s fd data = some (-1, s1) ∧ ufs_errno s1 = UFS_ERR_NO_MEM ∧
      s1.file_list = s.file_list ∧ s1.file_descriptors = s.file_descriptors ∧
      s1.file_descriptor_count = s.file_descriptor_count ∧
      s1.file_descriptor_capacity = s.file_descriptor_capacity := by
  refine ⟨{ s with error_code := UFS_ERR_NO_MEM }, ?_, rfl, rfl, rfl, rfl, rfl⟩
  have hcap : (d.current_block * BLOCK_SIZE + d.current_position + data.length) % SIZE_MOD
      > MAX_FILE_SIZE := by
    rw [Nat.mod_eq_of_lt hfit]; exact hover
  unfold ufs_write
  simp only [hi, hs, hp, hf, Bool.false_eq_true, if_false, Bool.not_true]
  rw [if_neg (Nat.not_lt.mpr hint), if_pos hcap]

/-- `ufs_write` has no defined result where the `int` offset of the cursor
overflows. -/
theorem ufs_write_int_overflow {s : State} {fd : Int} {d : filedesc} {f : file}
    (buf : List Byte) (hi : is_incorrect_fd s fd = false)
    (hs : slot_at s fd.toNat = slot.desc d)
    (hp : does_have_write_permission d.mode = true)
    (hf : file_at s.file_list d.file = some f)
    (hint : d.current_block * BLOCK_SIZE + d.current_position > INT_MAX) :
    ufs_write s fd buf = none := by
  unfold ufs_write
  simp only [hi, hs, hp, hf, Bool.false_eq_true, if_false, Bool.not_true]
  rw [if_pos hint]

/-- The last loop of `ufs_read` on a full last block: every round copies the
block again and adds `BLOCK_SIZE` to the cursor, until `size` bytes are
read. -/
theorem read_loop_full_last (b : block) (hb : b.occupied = BLOCK_SIZE) (cb size : Nat)
    (hsize : size ≤ 2147483648) : ∀ (k fuel pos read : Nat) (out : List Byte),
    k < fuel → 0 < read → read + k * 512 = size → pos + k * 512 ≤ INT_MAX →
    ∃ out1, read_loop fuel [b] cb pos read size out
      = some ⟨cb, pos + k * 512, size, out1⟩ := by
  intro k
  induction k with
  | zero =>
    intro fuel pos read out hfuel _ hread _
    refine ⟨out, ?_⟩
    rw [read_loop_done fuel [b] cb pos read size out hfuel (by omega)]
    simp only [Nat.zero_mul, Nat.add_zero] at hread ⊢
    rw [hread]
  | succ k ih =>
    intro fuel pos read out hfuel hpos hread hint
    obtain ⟨fuel1, rfl⟩ : ∃ j, fuel = j + 1 := ⟨fuel - 1, by omega⟩
    have hlt : read < size := by omega
    have hrs1 := loop_read_size_small (size - read) b.occupied (by omega)
    have hmin : min (size - read) b.occupied = 512 := by
      rw [hb]
      simp only [BLOCK_SIZE]
      omega
    rw [hmin] at hrs1
    unfold read_loop
    rw [if_pos hlt]
    simp only
    rw [hrs1]
    simp only [Int.toNat_ofNat]
    have h1 : ¬ (((512 : Nat) : Int) < 0) := by omega
    have h2 : ¬ 512 > BLOCK_SIZE := by simp only [BLOCK_SIZE]; omega
    have h3 : ¬ pos + 512 > INT_MAX := by omega
    have h4 : ¬ b.occupied < BLOCK_SIZE := by omega
    have hmod : (read + 512) % SIZE_MOD = read + 512 := by
      apply Nat.mod_eq_of_lt
      simp only [SIZE_MOD]; omega
    have h5 : ¬ (read + 512 < size ∧ ([] : List block) ≠ []) := by
      intro hc
      exact hc.2 rfl
    rw [if_neg h1, if_neg h2, if_neg h3, if_neg h4, hmod, if_neg h5]
    obtain ⟨out1, hr⟩ := ih fuel1 (pos + 512) (read + 512) (out ++ b.memory.take 512)
      (by omega) (by omega) (by omega) (by omega)
    refine ⟨out1, ?_⟩
    rw [hr]
    have : pos + 512 + k * 512 = pos + (k + 1) * 512 := by omega
    rw [this]

/-- The read of `(k + 1) * BLOCK_SIZE` bytes, `k >= 1`, from the cursor 0 of a
file of two full blocks: after the first block the last loop of `ufs_read`
copies the second block `k` times and leaves the cursor at block 1, offset
`k * BLOCK_SIZE`. -/
theorem ufs_read_past_full {s : State} {fd : Int} {d : filedesc} {f : file} {b0 b1 : block}
    (hi : is_incorrect_fd s fd = false) (hs : slot_at s fd.toNat = slot.desc d)
    (hp : does_have_read_permission d.mode = true)
    (hf : file_at s.file_list d.file = some f) (hbl : f.block_list = [b0, b1])
    (hcb : d.current_block = 0) (hpos : d.current_position = 0)
    (h0 : b0.occupied = BLOCK_SIZE) (h1 : b1.occupied = BLOCK_SIZE) (k : Nat) (hk : 1 ≤ k)
    (hsize : (k + 1) * 512 ≤ 2147483648) :
    ∃ out, ufs_read s fd ((k + 1) * 512)
      = some ((((k + 1) * 512 : Nat) : Int), out, set_cursor s fd d 1 (k * 512)) := by
  have hdrop : f.block_list.drop d.current_block = b0 :: [b1] := by
    rw [hbl, hcb]; rfl
  have he1 : end_of_chain (b0 :: [b1]) d.current_position = false := by
    simp [end_of_chain]
  have hsz : ¬ (k + 1) * 512 = 0 := by omega
  have hav : write_size ((k + 1) * 512) (available_size b0.occupied d.current_position)
      = 512 := by
    rw [h0, hpos]
    unfold write_size available_size
    simp only [BLOCK_SIZE]
    split_ifs <;> omega
  obtain ⟨out1, hloop⟩ := read_loop_full_last b1 h1 (d.current_block + 1) ((k + 1) * 512) hsize
    k ((k + 1) * 512 + f.block_list.length + 1) 0 512
    ((b0.memory.drop d.current_position).take 512) (by omega) (by omega) (by omega)
    (by simp only [INT_MAX]; omega)
  refine ⟨out1, ?_⟩
  unfold ufs_read
  simp only [hi, hs, hp, hf, hdrop, he1, hsz, hav, Bool.false_eq_true, if_false, Bool.not_true]
  unfold read_blocks
  have ha : ¬ d.current_position + 512 > BLOCK_SIZE := by
    rw [hpos]; simp only [BLOCK_SIZE]; omega
  have hb : 512 < (k + 1) * 512 ∧ [b1] ≠ [] := ⟨by omega, by simp⟩
  have he2 : end_of_chain [b1] 0 = false := by
    simp only [end_of_chain, h1, BLOCK_SIZE]
    decide
  rw [if_neg ha, if_pos hb, he2]
  simp only [Bool.false_eq_true, if_false]
  rw [hloop]
  simp only [Nat.zero_add, hcb]

theorem slot_at_set_cursor (s : State) (fd : Int) (d : filedesc) (cb pos : Nat)
    (hlt : fd.toNat < s.file_descriptors.length) :
    slot_at (set_cursor s fd d cb pos) fd.toNat
      = slot.desc { d with current_block := cb, current_position := pos } := by
  rw [slot_at_set s _ fd.toNat fd.toNat _ rfl (set_cursor s fd d cb pos) rfl]
  simp [hlt]

theorem set_cursor_file_list (s : State) (fd : Int) (d : filedesc) (cb pos : Nat) :
    (set_cursor s fd d cb pos).file_list = s.file_list := rfl

theorem demo_o3_reachable : Reachable demo_o3 :=
  Reachable.opened "a" UFS_CREATE demo_r2_reachable
    (eq_some_state_of demo_r2
      (show value_of (ufs_open demo_r2 "a" UFS_CREATE) = some 1 by decide!))

/-! ## The `int` capacity of the descriptor table -/

/-- Where `resize_file_descriptors_int` has a result, it is the state
`resize_file_descriptors` gives. -/
theorem resize_int_some {s s2 : State} (h : resize_file_descriptors_int s = some s2) :
    s2 = resize_file_descriptors s := by
  unfold resize_file_descriptors_int at h
  unfold resize_file_descriptors
  by_cases hc : s.file_descriptor_capacity = 0
  · simp only [hc, if_true] at h ⊢
    by_cases hfull : s.file_descriptor_count = 2
    · simp only [hfull, if_true] at h ⊢
      by_cases hov : 2 * 2 > INT_MAX
      · exact absurd hov (by decide)
      · rw [if_neg hov] at h
        exact (Option.some.inj h).symm
    · simp only [hfull, if_false] at h ⊢
      exact (Option.some.inj h).symm
  · simp only [hc, if_false] at h ⊢
    by_cases hfull : s.file_descriptor_count = s.file_descriptor_capacity
    · simp only [hfull, if_true] at h ⊢
      by_cases hov : s.file_descriptor_capacity * 2 > INT_MAX
      · rw [if_pos hov] at h
        cases h
      · rw [if_neg hov] at h
        exact (Option.some.inj h).symm
    · simp only [hfull, if_false] at h ⊢
      exact (Option.some.inj h).symm

/-- `resize_file_descriptors_int` has a result when the table is not full or
twice its capacity is an `int`. -/
theorem resize_int_defined (s : State)
    (hcount : s.file_descriptor_count ≤ s.file_descriptor_capacity)
    (h : s.file_descriptor_capacity * 2 ≤ INT_MAX ∨
      s.file_descriptor_count < s.file_descriptor_capacity) :
    ∃ s2, resize_file_descriptors_int s = some s2 := by
  unfold resize_file_descriptors_int
  by_cases hc : s.file_descriptor_capacity = 0
  · have h0 : s.file_descriptor_count = 0 := by omega
    simp only [hc, if_true, h0]
    simp only [show ¬ (0 = 2) by decide, if_false]
    exact ⟨_, rfl⟩
  · simp only [hc, if_false]
    by_cases hfull : s.file_descriptor_count = s.file_descriptor_capacity
    · simp only [hfull, if_true]
      have hov : ¬ s.file_descriptor_capacity * 2 > INT_MAX := by omega
      rw [if_neg hov]
      exact ⟨_, rfl⟩
    · simp only [hfull, if_false]
      exact ⟨_, rfl⟩

/-- `resize_file_descriptors_int` has no result when the table is full and
twice its capacity is not an `int`. -/
theorem resize_int_none (s : State) (hc : s.file_descriptor_capacity ≠ 0)
    (hfull : s.file_descriptor_count = s.file_descriptor_capacity)
    (hov : s.file_descriptor_capacity * 2 > INT_MAX) :
    resize_file_descriptors_int s = none := by
  unfold resize_file_descriptors_int
  simp only [hc, if_false, hfull, if_true]
  rw [if_pos hov]

/-- The capacity `resize_file_descriptors` leaves. -/
theorem resize_capacity_exact (s : State)
    (hcount : s.file_descriptor_count ≤ s.file_descriptor_capacity) :
    (resize_file_descriptors s).file_descriptor_capacity
      = if s.file_descriptor_capacity = 0 then 2
        else if s.file_descriptor_count = s.file_descriptor_capacity then
          s.file_descriptor_capacity * 2
        else s.file_descriptor_capacity := by
  unfold resize_file_descriptors
  by_cases hc : s.file_descriptor_capacity = 0
  · have h0 : s.file_descriptor_count = 0 := by omega
    simp only [hc, if_true, h0]
    simp only [show ¬ (0 = 2) by decide, if_false]
  · simp only [hc, if_false]
    by_cases hfull : s.file_descriptor_count = s.file_descriptor_capacity
    · simp only [hfull, if_true]
    · simp only [hfull, if_false]

/-- A result of `resize_file_descriptors_int` has a capacity that is an `int`
when the capacity was one. -/
theorem resize_int_capacity_le {s s2 : State} (h : resize_file_descriptors_int s = some s2)
    (hle : s.file_descriptor_capacity ≤ INT_MAX) : s2.file_descriptor_capacity ≤ INT_MAX := by
  unfold resize_file_descriptors_int at h
  by_cases hc : s.file_descriptor_capacity = 0
  · simp only [hc, if_true] at h
    by_cases hfull : s.file_descriptor_count = 2
    · simp only [hfull, if_true] at h
      by_cases hov : 2 * 2 > INT_MAX
      · exact absurd hov (by decide)
      · rw [if_neg hov] at h
        rw [← Option.some.inj h]
        show 2 * 2 ≤ INT_MAX
        decide
    · simp only [hfull, if_false] at h
      rw [← Option.some.inj h]
      show 2 ≤ INT_MAX
      decide
  · simp only [hc, if_false] at h
    by_cases hfull : s.file_descriptor_count = s.file_descriptor_capacity
    · simp only [hfull, if_true] at h
      by_cases hov : s.file_descriptor_capacity * 2 > INT_MAX
      · rw [if_pos hov] at h
        cases h
      · rw [if_neg hov] at h
        rw [← Option.some.inj h]
        exact Nat.le_of_not_gt hov
    · simp only [hfull, if_false] at h
      rw [← Option.some.inj h]
      exact hle

theorem find_free_all_open (s : State) (n : Nat) : ∀ (i : Nat),
    (∀ j, i ≤ j → j < i + n → slot_at s j ≠ slot.null) → find_free s n i = none := by
  induction n with
  | zero => intro i _; rfl
  | succ n ih =>
    intro i h
    unfold find_free
    have hi := h i (le_refl _) (by omega)
    split
    · rename_i hnull
      exact absurd hnull hi
    · exact ih (i + 1) (fun j h1 h2 => h j (by omega) (by omega))

/-- The counters after `create_fd`: the handle is a null slot below the count
and the counters are as before, or the handle is the count, the count is one
more, and the capacity is the one `resize_file_descriptors` leaves. -/
theorem create_fd_counters {s : State} (h : Inv s) {a : Nat} {mode : Int} {fd : Int}
    {s1 : State} (hc : create_fd s a mode = some (fd, s1)) :
    (∃ i : Nat, fd = (i : Int) ∧ i < s.file_descriptor_count ∧ slot_at s i = slot.null) ∨
    (fd = (s.file_descriptor_count : Int) ∧
      s1.file_descriptor_count = s.file_descriptor_count + 1 ∧
      s1.file_descriptor_capacity
        = if s.file_descriptor_capacity = 0 then 2
          else if s.file_descriptor_count = s.file_descriptor_capacity then
            s.file_descriptor_capacity * 2
          else s.file_descriptor_capacity) := by
  unfold create_fd at hc
  cases hf : file_at s.file_list a with
  | none => rw [hf] at hc; cases hc
  | some f =>
    rw [hf] at hc
    simp only at hc
    cases hfree : find_free
        { s with file_list := set_file s.file_list a { f with refs := f.refs + 1 } }
        s.file_descriptor_count 0 with
    | some i =>
      rw [hfree] at hc
      simp only [Option.some.injEq, Prod.mk.injEq] at hc
      obtain ⟨rfl, rfl⟩ := hc
      obtain ⟨_, hi2, hi3⟩ := find_free_some _ _ _ _ hfree
      exact Or.inl ⟨i, rfl, by omega, hi3⟩
    | none =>
      rw [hfree] at hc
      simp only at hc
      obtain ⟨_, _, _, _, r5, _, _, _, _⟩ := resize_post
        { s with file_list := set_file s.file_list a { f with refs := f.refs + 1 } }
        h.table_len h.count_le
      have hcap := resize_capacity_exact
        { s with file_list := set_file s.file_list a { f with refs := f.refs + 1 } } h.count_le
      generalize resize_file_descriptors
        { s with file_list := set_file s.file_list a { f with refs := f.refs + 1 } } = s2 at *
      have r5a : s2.file_descriptor_count = s.file_descriptor_count := r5
      by_cases hlt : s2.file_descriptor_count < s2.file_descriptors.length
      · rw [if_pos hlt] at hc
        simp only [Option.some.injEq, Prod.mk.injEq] at hc
        obtain ⟨rfl, rfl⟩ := hc
        refine Or.inr ⟨by rw [r5a], ?_, hcap⟩
        show s2.file_descriptor_count + 1 = s.file_descriptor_count + 1
        rw [r5a]
      · rw [if_neg hlt] at hc
        cases hc

/-- After `n + 1` calls `ufs_open("a", UFS_CREATE)` the state is reachable,
`n + 1` descriptors are open in the slots below the count `n + 1`, and the
capacity is 2 or less than twice the count. -/
theorem opens_spec : ∀ (n : Nat), Reachable (opens n) ∧
    (opens n).file_descriptor_count = n + 1 ∧
    (∀ i, i < n + 1 → ∃ d, slot_at (opens n) i = slot.desc d) ∧
    (∃ f, get_file (opens n).file_list "a" = some f) ∧
    ((opens n).file_descriptor_capacity = 2 ∨
      (opens n).file_descriptor_capacity < 2 * (n + 1)) := by
  intro n
  induction n with
  | zero =>
    refine ⟨demo_s1_reachable, rfl, ?_, ⟨first_file demo_s1, rfl⟩, Or.inl rfl⟩
    intro i hi
    have hi0 : i = 0 := by omega
    subst hi0
    exact ⟨⟨0, UFS_READ_WRITE, 0, 0⟩, rfl⟩
  | succ n ih =>
    obtain ⟨hreach, hcount, hslots, ⟨f, hg⟩, hcap⟩ := ih
    have hInv := Reachable_inv hreach
    obtain ⟨fd, s1, ho, hpost⟩ := ufs_open_existing hInv UFS_CREATE hg
    have hs1 : opens (n + 1) = s1 := by
      show state_of (ufs_open (opens n) "a" UFS_CREATE) (opens n) = s1
      rw [ho]
      rfl
    rw [hs1]
    have hreach1 : Reachable s1 := Reachable.opened "a" UFS_CREATE hreach ho
    have htab := ufs_open_table hInv ho
    have hcf : ∃ mode, create_fd (opens n) f.addr mode = some (fd, s1) := by
      rcases ufs_open_calls ho with ⟨hfd, _⟩ | ⟨f1, mode, hg1, hc⟩ | ⟨hg1, _, _⟩
      · have := hpost.fd_nonneg
        omega
      · rw [hg] at hg1
        cases hg1
        exact ⟨mode, hc⟩
      · rw [hg] at hg1
        cases hg1
    obtain ⟨mode, hc⟩ := hcf
    have hcnt := create_fd_counters hInv hc
    rcases hcnt with ⟨i, _, hi, hnull⟩ | ⟨hfd, hcount1, hcap1⟩
    · obtain ⟨d, hd⟩ := hslots i (by omega)
      rw [hd] at hnull
      cases hnull
    · have hfdn : fd.toNat = n + 1 := by
        rw [hfd, hcount]
        exact Int.toNat_ofNat _
      refine ⟨hreach1, by rw [hcount1, hcount], ?_, ?_, ?_⟩
      · intro i hi
        by_cases hin : i < n + 1
        · obtain ⟨d, hd⟩ := hslots i hin
          exact ⟨d, htab.2.2 i d hd⟩
        · have hie : i = n + 1 := by omega
          have hse := hpost.slot_eq
          rw [hfdn] at hse
          rw [hie]
          exact ⟨_, hse⟩
      · have hfa : file_at (opens n).file_list f.addr = some f :=
          file_at_of_mem hInv.addr_nodup (get_file_some hg).1
        have hfa1 : file_at s1.file_list f.addr = some { f with refs := f.refs + 1 } := by
          rw [hpost.files]
          exact file_at_set_file_same hfa rfl
        have hmem := (file_at_some hfa1).1
        have hgf := get_file_of_mem hpost.inv.name_nodup hmem
        have hname : ({ f with refs := f.refs + 1 } : file).name = "a" := (get_file_some hg).2
        rw [hname] at hgf
        exact ⟨_, hgf⟩
      · have hle := hInv.count_le
        rw [hcap1]
        by_cases h0 : (opens n).file_descriptor_capacity = 0
        · rw [if_pos h0]
          exact Or.inl rfl
        · rw [if_neg h0]
          by_cases hfull : (opens n).file_descriptor_count = (opens n).file_descriptor_capacity
          · rw [if_pos hfull]
            right
            omega
          · rw [if_neg hfull]
            rcases hcap with h2 | h2
            · exact Or.inl h2
            · right
              omega

/-- With 1073741824 descriptors open the table is full at the capacity
`2 ^ 30`. -/
theorem opens_full : Reachable (opens 1073741823) ∧
    (opens 1073741823).file_descriptor_count = 1073741824 ∧
    (opens 1073741823).file_descriptor_capacity = 1073741824 ∧
    find_free (opens 1073741823) (opens 1073741823).file_descriptor_count 0 = none := by
  obtain ⟨hreach, hcount, hslots, _, hcap⟩ := opens_spec 1073741823
  have hInv := Reachable_inv hreach
  have hle := hInv.count_le
  have hcapv : (opens 1073741823).file_descriptor_capacity = 1073741824 := by
    rcases Reachable_capacity hreach with h0 | ⟨k, hk, hpow⟩
    · omega
    · rw [hpow] at hle hcap ⊢
      rw [hcount] at hle
      have hk30 : k = 30 := by
        by_contra hne
        rcases Nat.lt_or_gt_of_ne hne with hlt | hgt
        · have h1 : 2 ^ k ≤ 2 ^ 29 := Nat.pow_le_pow_right (by decide) (by omega)
          have h2 : (2 : Nat) ^ 29 = 536870912 := by decide
          omega
        · have h1 : 2 ^ 31 ≤ 2 ^ k := Nat.pow_le_pow_right (by decide) (by omega)
          have h2 : (2 : Nat) ^ 31 = 2147483648 := by decide
          omega
      rw [hk30]
      decide
  refine ⟨hreach, hcount, hcapv, ?_⟩
  apply find_free_all_open
  intro j _ hj
  rw [hcount] at hj
  obtain ⟨d, hd⟩ := hslots j (by omega)
  rw [hd]
  intro hc
  cases hc

/-! ## The claims -/

/-- C1 (round trip), at the failing input: the byte sequences `w1` of
104857599 bytes and `w2` of one byte have the total length `MAX_FILE_SIZE`;
written in order through the handle 0 of the new file "a", the first
`ufs_write` returns the length of `w1` and the second returns -1, not the
length of `w2`. -/
theorem round_trip_fails_at_cap :
    cap_data.length + [(0 : Byte)].length ≤ MAX_FILE_SIZE ∧
    (write_all demo_s1 0 [cap_data, [0]]).map Prod.fst = some [104857599, -1] := by
  obtain ⟨s, d, s1, h1, _, _, _, _, _, h7, _⟩ := cap_run
  refine ⟨by rw [cap_data_length]; simp only [List.length_singleton, MAX_FILE_SIZE]; omega, ?_⟩
  rw [write_all_cons h1 (write_all_cons h7 (write_all_nil s1 0))]
  rfl

/-- C2 (size invariant): in every state reachable from the empty engine by
calls of `ufs_open`, `ufs_write`, `ufs_read`, `ufs_close` and `ufs_delete`,
every file of the registry has a non-empty chain of blocks, and its `size` is
the sum of `occupied` over the blocks of the chain. -/
theorem size_invariant {s : State} (h : Reachable s) (f : file) (hf : f ∈ s.file_list) :
    f.block_list ≠ [] ∧ f.size = occupied_sum f.block_list :=
  ⟨((Reachable_inv h).files_ok f hf).nonempty, ((Reachable_inv h).files_ok f hf).size_eq⟩

/-- The size invariant in the state after `ufs_open("a", UFS_CREATE)` and a
write of three bytes. -/
theorem size_invariant_witness :
    (first_file demo_s2).block_list ≠ [] ∧
      (first_file demo_s2).size = occupied_sum (first_file demo_s2).block_list :=
  size_invariant demo_s2_reachable (first_file demo_s2) (by decide!)

/-- C4 (a write within the cap succeeds in full), at the failing input: in the
reachable state after a write of 104857599 bytes to the new file "a", the
handle 0 has write permission and a write of one byte through it ends at
offset 104857600, which is `MAX_FILE_SIZE` and does not exceed it; yet
`ufs_write` returns -1 with `UFS_ERR_NO_MEM`. -/
theorem write_ending_at_cap_fails :
    ∃ s d s1, Reachable s ∧ is_incorrect_fd s 0 = false ∧ slot_at s 0 = slot.desc d ∧
      does_have_write_permission d.mode = true ∧
      d.current_block * BLOCK_SIZE + d.current_position + [(0 : Byte)].length ≤ MAX_FILE_SIZE ∧
      ufs_write s 0 [0] = some (-1, s1) ∧ ufs_errno s1 = UFS_ERR_NO_MEM := by
  obtain ⟨s, d, s1, _, h2, h3, h4, h5, h6, h7, h8⟩ := cap_run
  refine ⟨s, d, s1, h2, h3, h4, h5, ?_, h7, h8⟩
  rw [h6]
  simp only [List.length_singleton, MAX_FILE_SIZE]
  omega

/-- C5 (read stops at the end of the data), at the failing input: the file
"a" holds 1024 bytes in two full blocks, the handle 1 is open on it read-only
with the cursor at 0, and `ufs_read(1, buf, 2000)` returns 2000 with 2000
bytes copied to `buf`, not the 1024 bytes that remain: the last loop of
`ufs_read` copies the full last block again. -/
theorem read_past_end :
    (first_file demo_r3).size = 1024 ∧
    (first_file demo_r3).block_list.map block.occupied = [512, 512] ∧
    slot_at demo_r3 1 = slot.desc ⟨(first_file demo_r3).addr, UFS_READ_ONLY, 0, 0⟩ ∧
    (ufs_read demo_r3 1 2000).map (fun r => (r.1, r.2.1.length)) = some (2000, 2000) := by
  decide!

/-- C6 (the write cursor advances byte for byte), at the failing input: the
file "a" has two blocks (513 bytes), the handle 1 is open on it read-write
with the cursor at block 0, offset 0; `ufs_write` of 10 bytes through the
handle returns 10 and leaves the cursor at block 1, offset 0: the linear
position went from 0 to 512, not to 10. -/
theorem write_cursor_jumps :
    (first_file demo_t3).block_list.map block.occupied = [512, 1] ∧
    slot_at demo_t3 1 = slot.desc ⟨(first_file demo_t3).addr, UFS_READ_WRITE, 0, 0⟩ ∧
    (ufs_write demo_t3 1 (List.replicate 10 5)).map (fun r => (r.1, slot_at r.2 1))
      = some (10, slot.desc ⟨(first_file demo_t3).addr, UFS_READ_WRITE, 1, 0⟩) := by
  decide!

/-- C9 (delete removes exactly the named file): in a reachable state,
`ufs_delete` returns -1 with `UFS_ERR_NO_FILE` and changes nothing else when no
file has the name; when a file has it, `ufs_delete` returns 0, afterwards
`ufs_open(name, UFS_READ_ONLY)` fails with `UFS_ERR_NO_FILE`, every other file
is still found by its name and is the same (chain, bytes, size), and no file
is in the list that was not there before: wherever the file sat in the list. -/
theorem delete_removes_named {s : State} (h : Reachable s) (filename : String) :
    ((∀ f ∈ s.file_list, f.name ≠ filename) →
      ufs_delete s filename = (-1, { s with error_code := UFS_ERR_NO_FILE })) ∧
    (∀ f ∈ s.file_list, f.name = filename →
      (ufs_delete s filename).1 = 0 ∧
      ufs_open (ufs_delete s filename).2 filename UFS_READ_ONLY
        = some (-1, { (ufs_delete s filename).2 with error_code := UFS_ERR_NO_FILE }) ∧
      (∀ g ∈ s.file_list, g.name ≠ filename →
        get_file (ufs_delete s filename).2.file_list g.name = some g) ∧
      (∀ g ∈ (ufs_delete s filename).2.file_list, g ∈ s.file_list ∧ g.name ≠ filename)) := by
  have hInv := Reachable_inv h
  refine ⟨fun hmiss => ufs_delete_missing s filename (get_file_eq_none hmiss), ?_⟩
  intro f hf hname
  have hg : get_file s.file_list filename = some f := by
    rw [← hname]; exact get_file_of_mem hInv.name_nodup hf
  rw [ufs_delete_existing s filename f hg]
  refine ⟨rfl, ?_, ?_, ?_⟩
  · exact ufs_open_missing _ filename UFS_READ_ONLY (by decide)
      (get_file_erase_name_self s.file_list filename hInv.name_nodup)
  · intro g hgm hgn
    show get_file (erase_name s.file_list filename) g.name = some g
    rw [get_file_erase_name_ne s.file_list hgn]
    exact get_file_of_mem hInv.name_nodup hgm
  · intro g hgm
    exact mem_erase_name hInv.name_nodup hgm

/-- `ufs_delete` in a state with the files "a" and "b": of the missing name
"c", and of "a", the head of the list, after which "b" is found unchanged. -/
theorem delete_removes_named_witness :
    ufs_delete demo_s3 "c" = (-1, { demo_s3 with error_code := UFS_ERR_NO_FILE }) ∧
    (ufs_delete demo_s3 "a").1 = 0 ∧
    ufs_open (ufs_delete demo_s3 "a").2 "a" UFS_READ_ONLY
      = some (-1, { (ufs_delete demo_s3 "a").2 with error_code := UFS_ERR_NO_FILE }) ∧
    get_file (ufs_delete demo_s3 "a").2.file_list "b" = some (nth_file demo_s3 1) :=
  ⟨(delete_removes_named demo_s3_reachable "c").1 (by decide!),
   ((delete_removes_named demo_s3_reachable "a").2 (nth_file demo_s3 0) (by decide!) rfl).1,
   ((delete_removes_named demo_s3_reachable "a").2 (nth_file demo_s3 0) (by decide!) rfl).2.1,
   ((delete_removes_named demo_s3_reachable "a").2 (nth_file demo_s3 0) (by decide!) rfl).2.2.1
     (nth_file demo_s3 1) (by decide!) (by decide!)⟩

/-- C10 (close rejects every handle that is not open), at the failing input:
after one `ufs_open` the descriptor array has two elements, of which element 1
was never written; `ufs_open` never returned the handle 1 and no descriptor is
open on it.  When the memory `malloc` returned holds non-zero bits there,
`is_incorrect_fd(1)` is false and `ufs_close(1)` dereferences them: the call
does not return -1, it has no defined result. -/
theorem close_unwritten_slot :
    demo_s1.file_descriptor_count = 1 ∧ demo_s1.file_descriptor_capacity = 2 ∧
    slot_at demo_s1 1 = slot.wild ∧ is_incorrect_fd demo_s1 1 = false ∧
    (ufs_close demo_s1 1).isNone = true := by
  decide!

/-- C15 (the reference count tracks the open descriptors), at the failing
input: `ufs_open` never sets the field `refs` of the file it allocates, it
only increments it in `create_fd`.  On the empty engine, when the memory
`malloc` returns for the file holds 41 in that field, `ufs_open("a",
UFS_CREATE)` returns the handle 0 and leaves the only file with `refs = 42`,
while one descriptor is open on it. -/
theorem refs_not_initialised :
    (ufs_open (init demo_v) "a" UFS_CREATE).map
        (fun r => (r.1, r.2.file_list.map (fun f => (f.refs, open_count r.2 f.addr))))
      = some (0, [(42, 1)]) := by
  decide!

/-- C16 (unique names): in every reachable state no two files of the list have
the same name; `get_file` of the name of a file of the list returns that file,
and `get_file` of a name no file has returns nothing. -/
theorem unique_names {s : State} (h : Reachable s) :
    (s.file_list.map file.name).Nodup ∧
    (∀ f ∈ s.file_list, ∀ g ∈ s.file_list, f.name = g.name → f = g) ∧
    (∀ f ∈ s.file_list, get_file s.file_list f.name = some f) ∧
    (∀ n, (∀ f ∈ s.file_list, f.name ≠ n) → get_file s.file_list n = none) := by
  have hInv := Reachable_inv h
  refine ⟨hInv.name_nodup, ?_, fun f hf => get_file_of_mem hInv.name_nodup hf,
    fun n hn => get_file_eq_none hn⟩
  intro f hf g hg hfg
  have h1 := get_file_of_mem hInv.name_nodup hf
  have h2 := get_file_of_mem hInv.name_nodup hg
  rw [hfg, h2] at h1
  exact (Option.some.inj h1).symm

/-- The names of the state with the files "a" and "b": they differ, each is
found by `get_file`, and "c" is not found. -/
theorem unique_names_witness :
    (demo_s3.file_list.map file.name).Nodup ∧
    (∀ f ∈ demo_s3.file_list, ∀ g ∈ demo_s3.file_list, f.name = g.name → f = g) ∧
    (∀ f ∈ demo_s3.file_list, get_file demo_s3.file_list f.name = some f) ∧
    (∀ n, (∀ f ∈ demo_s3.file_list, f.name ≠ n) → get_file demo_s3.file_list n = none) :=
  unique_names demo_s3_reachable

/-- C17 (interior blocks are full, cursors are inside their block), at the
failing input: the file "a" holds 1024 bytes in two full blocks and the handle
1 is open on it read-only at cursor 0.  `ufs_read(1, buf, 2000)` returns 2000
and leaves a reachable state in which the descriptor of the handle 1 is at
block 1 with `current_position = 1488`, past the `occupied = 512` of that
block and past `BLOCK_SIZE`. -/
theorem cursor_past_occupied :
    ∃ s out, ufs_read demo_r3 1 2000 = some (2000, out, s) ∧ Reachable s ∧
      slot_at s 1 = slot.desc ⟨0, UFS_READ_ONLY, 1, 1488⟩ ∧
      (file_at s.file_list 0).map (fun f => f.block_list.map block.occupied)
        = some [512, 512] := by
  have hv : (ufs_read demo_r3 1 2000).map
      (fun r => (r.1, slot_at r.2.2 1,
        (file_at r.2.2.file_list 0).map (fun f => f.block_list.map block.occupied)))
      = some (2000, slot.desc ⟨0, UFS_READ_ONLY, 1, 1488⟩, some [512, 512]) := by
    decide!
  obtain ⟨⟨v, out, s⟩, hr, hp⟩ := read_result_of _ hv
  simp only [Prod.mk.injEq] at hp
  obtain ⟨rfl, h1, h2⟩ := hp
  exact ⟨s, out, hr, Reachable.read 1 2000 demo_r3_reachable (by decide) hr, h1, h2⟩

/-- C19 (the cap check does not wrap), counterexample: for the cursor at
offset 1 of block 0 (`pos = 1 <= MAX_FILE_SIZE`) and the requested size
`2 ^ 64 - 1 < 2 ^ 64`, the sum `pos + size` is `2 ^ 64`, more than
`MAX_FILE_SIZE`, and the guard evaluated in `size_t` is false: the sum wraps
to 0. -/
theorem cap_guard_wraps :
    0 * BLOCK_SIZE + 1 ≤ MAX_FILE_SIZE ∧ 18446744073709551615 < SIZE_MOD ∧
    0 * BLOCK_SIZE + 1 + 18446744073709551615 > MAX_FILE_SIZE ∧
    cap_guard 0 1 18446744073709551615 = false := by
  decide

/-- C19, amended: for a cursor with
`pos = current_block * BLOCK_SIZE + current_position <= MAX_FILE_SIZE` and a
requested size below `2 ^ 64`, the guard of `ufs_write` is true exactly when
`pos + size` is more than `MAX_FILE_SIZE` and less than `2 ^ 64`; so for every
size up to `PTRDIFF_MAX`, the largest a buffer in memory has, it is true
exactly when `pos + size > MAX_FILE_SIZE`. -/
theorem cap_guard_exact (cb pos size : Nat) (hpos : cb * BLOCK_SIZE + pos ≤ MAX_FILE_SIZE)
    (hsize : size < SIZE_MOD) :
    (cap_guard cb pos size = true ↔
      cb * BLOCK_SIZE + pos + size > MAX_FILE_SIZE ∧ cb * BLOCK_SIZE + pos + size < SIZE_MOD) ∧
    (size ≤ PTRDIFF_MAX →
      (cap_guard cb pos size = true ↔ cb * BLOCK_SIZE + pos + size > MAX_FILE_SIZE)) := by
  unfold cap_guard
  simp only [decide_eq_true_eq, BLOCK_SIZE, MAX_FILE_SIZE, SIZE_MOD, PTRDIFF_MAX] at *
  constructor
  · constructor
    · intro h; omega
    · intro h; omega
  · intro hp
    constructor
    · intro h; omega
    · intro h; omega

/-- The guard at the cursor of offset 3 with a request of 104857598 bytes,
which ends one byte past `MAX_FILE_SIZE`. -/
theorem cap_guard_exact_witness :
    (cap_guard 0 3 104857598 = true ↔
      0 * BLOCK_SIZE + 3 + 104857598 > MAX_FILE_SIZE ∧ 0 * BLOCK_SIZE + 3 + 104857598 < SIZE_MOD) ∧
    (104857598 ≤ PTRDIFF_MAX →
      (cap_guard 0 3 104857598 = true ↔ 0 * BLOCK_SIZE + 3 + 104857598 > MAX_FILE_SIZE)) :=
  cap_guard_exact 0 3 104857598 (by decide) (by decide)

/-- C11 (lowest free handle): in every reachable state, a successful
`ufs_open` returns a handle that was not open, and every smaller non-negative
integer was an open handle; after a successful `ufs_close(h)` in a state where
every handle below `h` is open, the next successful `ufs_open` returns `h`;
and the first `ufs_open` with `UFS_CREATE` on the empty engine returns 0. -/
theorem lowest_free_handle {s : State} (h : Reachable s) :
    (∀ filename flags fd s1, ufs_open s filename flags = some (fd, s1) → 0 ≤ fd →
      (∀ d, slot_at s fd.toNat ≠ slot.desc d) ∧
      (∀ j : Nat, (j : Int) < fd → ∃ d, slot_at s j = slot.desc d)) ∧
    (∀ hd s1, ufs_close s hd = some (0, s1) →
      (∀ j : Nat, (j : Int) < hd → ∃ d, slot_at s j = slot.desc d) →
      ∀ filename flags fd s2, ufs_open s1 filename flags = some (fd, s2) → 0 ≤ fd → fd = hd) ∧
    (∀ u filename, ∃ s1, ufs_open (init u) filename UFS_CREATE = some (0, s1)) := by
  have hInv := Reachable_inv h
  refine ⟨?_, ?_, ?_⟩
  · intro filename flags fd s1 ho hfd
    have ht := (ufs_open_table hInv ho).1 hfd
    exact ⟨ht.1, ht.2.1⟩
  · intro hd s1 hc hbelow filename flags fd s2 ho hfd
    have hInv1 := ufs_close_inv hInv hc
    obtain ⟨_, _, hcl, hothers⟩ := ufs_close_table hc
    obtain ⟨hhd, _, hnull⟩ := hcl rfl
    obtain ⟨hfree, hlow, _⟩ := (ufs_open_table hInv1 ho).1 hfd
    by_contra hne
    rcases lt_or_gt_of_ne hne with hlt | hgt
    · obtain ⟨d, hd1⟩ := hbelow fd.toNat (by omega)
      have hne1 : fd.toNat ≠ hd.toNat := by omega
      rw [← hothers fd.toNat (Or.inl hne1)] at hd1
      exact hfree d hd1
    · obtain ⟨d, hd1⟩ := hlow hd.toNat (by omega)
      rw [hnull] at hd1
      cases hd1
  · intro u filename
    obtain ⟨fd, s1, ho, hp⟩ := ufs_open_new (Inv_init u) (show get_file (init u).file_list
      filename = none from rfl)
    have hlow := ((ufs_open_table (Inv_init u) ho).1 hp.fd_nonneg).2.1
    have hfd : fd = 0 := by
      by_contra hne
      have hpos : (0 : Int) < fd := lt_of_le_of_ne hp.fd_nonneg (Ne.symm hne)
      obtain ⟨d, hd⟩ := hlow 0 hpos
      cases hd
    subst hfd
    exact ⟨s1, ho⟩

/-- The handles of the state where the handles 0 and 1 are open: `ufs_open`
of a new name returns 2, below which every handle is open; after
`ufs_close(0)` the next `ufs_open` returns 0; and the first `ufs_open` on the
empty engine returns 0. -/
theorem lowest_free_handle_witness :
    ((∀ d, slot_at demo_s3 (2 : Int).toNat ≠ slot.desc d) ∧
      (∀ j : Nat, (j : Int) < 2 → ∃ d, slot_at demo_s3 j = slot.desc d)) ∧
    (∃ s1, ufs_close demo_s3 0 = some (0, s1) ∧
      ∀ fd s2, ufs_open s1 "c" UFS_CREATE = some (fd, s2) → 0 ≤ fd → fd = 0) ∧
    (∃ s1, ufs_open (init demo_u) "a" UFS_CREATE = some (0, s1)) :=
  ⟨(lowest_free_handle demo_s3_reachable).1 "c" UFS_CREATE 2 _
      (eq_some_state_of demo_s3
        (show value_of (ufs_open demo_s3 "c" UFS_CREATE) = some 2 by decide!)) (by decide),
   ⟨demo_c, eq_some_state_of demo_s3 (show value_of (ufs_close demo_s3 0) = some 0 by decide!),
     (lowest_free_handle demo_s3_reachable).2.1 0 demo_c
       (eq_some_state_of demo_s3 (show value_of (ufs_close demo_s3 0) = some 0 by decide!))
       (fun j hj => absurd hj (by omega)) "c" UFS_CREATE⟩,
   (lowest_free_handle demo_s3_reachable).2.2 demo_u "a"⟩

/-- C12 (permission enforcement): in every reachable state, `ufs_write`
through an open handle whose descriptor has the mode `UFS_READ_ONLY` returns
-1 with `UFS_ERR_NO_PERMISSION`, and `ufs_read` through one with the mode
`UFS_WRITE_ONLY` does, for every data and every size; either call changes
nothing but the error code (files, chains, sizes and cursors are as before).
The mode of a descriptor is the one `ufs_open` gave it: the flags, or
`UFS_READ_WRITE` for the flags 0 and `UFS_CREATE`; no later call changes it;
and the mode `UFS_READ_WRITE` passes both permission checks. -/
theorem permission_enforcement {s : State} (h : Reachable s) :
    (∀ (i : Nat) d, slot_at s i = slot.desc d → d.mode = UFS_READ_ONLY → ∀ data,
      ufs_write s (i : Int) data
        = some (-1, { s with error_code := UFS_ERR_NO_PERMISSION })) ∧
    (∀ (i : Nat) d, slot_at s i = slot.desc d → d.mode = UFS_WRITE_ONLY → ∀ size,
      ufs_read s (i : Int) size
        = some (-1, [], { s with error_code := UFS_ERR_NO_PERMISSION })) ∧
    (∀ filename flags fd s1, ufs_open s filename flags = some (fd, s1) → 0 ≤ fd →
      ∃ a, slot_at s1 fd.toNat = slot.desc
        ⟨a, if flags = UFS_CREATE ∨ flags = 0 then UFS_READ_WRITE else flags, 0, 0⟩) ∧
    (∀ s1, Step s s1 → ∀ i d, slot_at s i = slot.desc d → slot_at s1 i = slot.null ∨
      ∃ d1, slot_at s1 i = slot.desc d1 ∧ d1.file = d.file ∧ d1.mode = d.mode) ∧
    (∀ i d, slot_at s i = slot.desc d → d.mode = UFS_READ_WRITE →
      does_have_read_permission d.mode = true ∧ does_have_write_permission d.mode = true) := by
  have hInv := Reachable_inv h
  refine ⟨?_, ?_, ?_, ?_, ?_⟩
  · intro i d hs hm data
    have hi := is_incorrect_fd_of_desc hInv hs
    have hp : does_have_write_permission d.mode = false := by rw [hm]; rfl
    unfold ufs_write
    simp only [hi, Int.toNat_ofNat, hs, hp, Bool.false_eq_true, if_false, Bool.not_false, if_true]
  · intro i d hs hm size
    have hi := is_incorrect_fd_of_desc hInv hs
    have hp : does_have_read_permission d.mode = false := by rw [hm]; rfl
    unfold ufs_read
    simp only [hi, Int.toNat_ofNat, hs, hp, Bool.false_eq_true, if_false, Bool.not_false, if_true]
  · intro filename flags fd s1 ho hfd
    exact ((ufs_open_table hInv ho).1 hfd).2.2
  · intro s1 hs
    exact (step_table hInv hs).2
  · intro i d _ hm
    rw [hm]
    exact ⟨rfl, rfl⟩

/-- The permission checks at concrete handles: the handle 1 of `demo_r3` is
open read-only, and a write of one byte through it fails; the handle 1 of
`demo_w` is open write-only, and a read through it fails; the handle 0 of
`demo_r3` is open read-write. -/
theorem permission_enforcement_witness :
    ufs_write demo_r3 1 [1] = some (-1, { demo_r3 with error_code := UFS_ERR_NO_PERMISSION }) ∧
    ufs_read demo_w 1 5 = some (-1, [], { demo_w with error_code := UFS_ERR_NO_PERMISSION }) ∧
    (does_have_read_permission UFS_READ_WRITE = true ∧
      does_have_write_permission UFS_READ_WRITE = true) :=
  ⟨(permission_enforcement demo_r3_reachable).1 1 ⟨0, UFS_READ_ONLY, 0, 0⟩ (by decide!) rfl [1],
   (permission_enforcement demo_w_reachable).2.1 1 ⟨0, UFS_WRITE_ONLY, 0, 0⟩ (by decide!) rfl 5,
   (permission_enforcement demo_r3_reachable).2.2.2.2 0 ⟨0, UFS_READ_WRITE, 1, 512⟩
     (by decide!) rfl⟩

/-- C14 (`occupied` is monotone): for every reachable state and every call of
`ufs_write` with a defined result, successful or failing, every file of the
list is still in the list under its address and name, every block it had has
a block at the same index whose `occupied` is at least what it was, and its
`size` is at least what it was; and when the bytes end inside the occupied
part of the file (`current_block * BLOCK_SIZE + current_position + len(data)
<= size`), every `occupied` of the chain and the `size` are as before. -/
theorem occupied_monotone {s : State} (h : Reachable s) (fd : Int) (buf : List Byte)
    (hbuf : buf.length ≤ PTRDIFF_MAX) (r : Int) (s1 : State)
    (hw : ufs_write s fd buf = some (r, s1)) :
    (∀ f ∈ s.file_list, ∃ g, file_at s1.file_list f.addr = some g ∧ g.name = f.name ∧
      (∀ k b, f.block_list.get? k = some b →
        ∃ b1, g.block_list.get? k = some b1 ∧ b.occupied ≤ b1.occupied) ∧
      f.size ≤ g.size) ∧
    (∀ d f, slot_at s fd.toNat = slot.desc d → file_at s.file_list d.file = some f →
      d.current_block * BLOCK_SIZE + d.current_position + buf.length ≤ f.size →
      ∃ g, file_at s1.file_list d.file = some g ∧
        g.block_list.map block.occupied = f.block_list.map block.occupied ∧
        g.size = f.size) := by
  have hInv := Reachable_inv h
  have hInv1 := ufs_write_inv hInv hbuf hw
  constructor
  · intro f hf
    obtain ⟨g, hg, hname, hle⟩ := ufs_write_files hInv hbuf hw f hf
    refine ⟨g, hg, hname, occupied_le_get _ _ hle, ?_⟩
    rw [(hInv.files_ok f hf).size_eq, (hInv1.files_ok g (file_at_some hg).1).size_eq]
    exact occupied_le_sum _ _ hle
  · intro d f hs hf hin
    rcases ufs_write_cases hInv hbuf hw with
      ⟨_, e, rfl⟩ | ⟨d0, f0, r1, hs0, hp, hf0, hcap, hr1, hpost, h2⟩
    · exact ⟨f, hf, rfl, rfl⟩
    · rw [hs] at hs0
      cases hs0
      rw [hf] at hf0
      cases hf0
      have hfok := hInv.files_ok f (file_at_some hf).1
      have hblk := (hInv.descs_ok _ d hs).block_lt f hf
      have htl : (f.block_list.take d.current_block).length = d.current_block := by
        rw [List.length_take]; omega
      have htake := occupied_sum_full (f.block_list.take d.current_block)
        (interior_full_take_full _ _ hfok.full hblk)
      rw [htl] at htake
      have hsum : f.size = occupied_sum (f.block_list.take d.current_block)
          + occupied_sum (f.block_list.drop d.current_block) := by
        rw [hfok.size_eq, ← occupied_sum_append, List.take_append_drop]
      obtain ⟨hmap, hsize, hrest⟩ := write_existing_inside _ _ _ _ _ _
        (fun b hb => hfok.occ_le b (List.mem_of_mem_drop hb))
        (interior_full_drop _ _ hfok.full)
        (by simp only [BLOCK_SIZE] at *; omega) hr1
      have hmap1 : (f.block_list.take d.current_block ++ r1.blocks).map block.occupied
          = f.block_list.map block.occupied := by
        rw [List.map_append, hmap, ← List.map_append, List.take_append_drop]
      rcases h2 with ⟨_, _, rfl⟩ | ⟨hn, r2, _, hp2, _, rfl⟩
      · exact ⟨_, file_at_set_written s fd d f
          (f.block_list.take d.current_block ++ r1.blocks) r1.size f.last_block
          r1.current_block r1.current_position hf, hmap1, hsize⟩
      · have hr0 := hrest hn
        have hlen := hp2.len_eq
        have hsz := hp2.size_eq
        rw [hr0] at hlen hsz
        have hnil : r2.blocks = [] := List.length_eq_zero.mp (by simpa using hlen)
        refine ⟨_, file_at_set_written s fd d f
          (f.block_list.take d.current_block ++ r1.blocks ++ r2.blocks) r2.size
          (if r2.blocks.length = 0 then f.last_block else r2.current_block)
          r2.current_block r2.current_position hf, ?_, ?_⟩
        · show (f.block_list.take d.current_block ++ r1.blocks ++ r2.blocks).map block.occupied
            = f.block_list.map block.occupied
          rw [hnil, List.append_nil]
          exact hmap1
        · show r2.size = f.size
          rw [hsz, hsize]
          simp

/-- The monotonicity at two writes: one byte appended through the handle 0 to
the file of three bytes, and ten bytes written at the cursor 0 of the handle 1
over the first bytes of the file of 513 bytes, which leave every `occupied`
and the size as they were. -/
theorem occupied_monotone_witness :
    (∀ f ∈ demo_s2.file_list,
      ∃ g, file_at (state_of (ufs_write demo_s2 0 [9]) demo_s2).file_list f.addr = some g ∧
        g.name = f.name ∧
        (∀ k b, f.block_list.get? k = some b →
          ∃ b1, g.block_list.get? k = some b1 ∧ b.occupied ≤ b1.occupied) ∧
        f.size ≤ g.size) ∧
    (∃ g, file_at (state_of (ufs_write demo_t3 1 (List.replicate 10 5)) demo_t3).file_list 0
        = some g ∧
      g.block_list.map block.occupied = (first_file demo_t3).block_list.map block.occupied ∧
      g.size = (first_file demo_t3).size) :=
  ⟨(occupied_monotone demo_s2_reachable 0 [9] (by decide) 1 _
      (eq_some_state_of demo_s2 (show value_of (ufs_write demo_s2 0 [9]) = some 1 by decide!))).1,
   (occupied_monotone demo_t3_reachable 1 (List.replicate 10 5) (by decide) 10 _
      (eq_some_state_of demo_t3
        (show value_of (ufs_write demo_t3 1 (List.replicate 10 5)) = some 10 by decide!))).2
      ⟨0, UFS_READ_WRITE, 0, 0⟩ (first_file demo_t3) (by decide!) (by decide!) (by decide!)⟩

/-- C18 (size limit): in every reachable state every file has
`size <= MAX_FILE_SIZE` and at most `MAX_FILE_SIZE / BLOCK_SIZE = 204800`
blocks; and for an open handle with write permission and a buffer that passes
the initial check of the size cap, whenever the first loop of `ufs_write` ends
without `NoMem`, the loop that allocates blocks runs to its end without taking
its `NoMem` exit and `ufs_write` returns the length of the buffer. -/
theorem size_limit {s : State} (h : Reachable s) :
    (∀ f ∈ s.file_list, f.size ≤ MAX_FILE_SIZE ∧
      f.block_list.length ≤ MAX_FILE_SIZE / BLOCK_SIZE ∧ f.block_list.length ≤ 204800) ∧
    (∀ (i : Nat) d f buf, slot_at s i = slot.desc d →
      does_have_write_permission d.mode = true → file_at s.file_list d.file = some f →
      buf.length ≤ PTRDIFF_MAX →
      cap_guard d.current_block d.current_position buf.length = false →
      ∀ r1, write_existing (f.block_list.drop d.current_block) d.current_block
          d.current_position f.size buf = some r1 → r1.nomem = false →
        ∃ r2, write_new s.uninit d.file r1.rest.length r1.current_block r1.current_position
            r1.size r1.rest = some r2 ∧ r2.nomem = false ∧
          ∃ s1, ufs_write s (i : Int) buf = some ((buf.length : Int), s1)) := by
  have hInv := Reachable_inv h
  constructor
  · intro f hf
    have hfok := hInv.files_ok f hf
    have h1 := occupied_sum_le f.block_list hfok.occ_le
    have h2 := hfok.len_le
    have h3 := hfok.size_eq
    have h4 : MAX_FILE_SIZE / BLOCK_SIZE = 204800 := by decide
    rw [h4]
    simp only [BLOCK_SIZE, MAX_FILE_SIZE] at *
    omega
  · intro i d f buf hs hp hf hbuf hg r1 hr1 hn
    have hi := is_incorrect_fd_of_desc hInv hs
    have hcap : ¬ (d.current_block * BLOCK_SIZE + d.current_position + buf.length) % SIZE_MOD
        > MAX_FILE_SIZE := by
      unfold cap_guard at hg
      exact of_decide_eq_false hg
    have hs1 : slot_at s (i : Int).toNat = slot.desc d := by
      rw [Int.toNat_ofNat]; exact hs
    rcases ufs_write_run hInv hi hs1 hp hf hbuf hcap with ⟨h1, _⟩ | ⟨r, hr, _, h2⟩
    · rw [hr1] at h1; cases h1
    · rw [hr1] at hr
      cases hr
      rcases h2 with ⟨hn1, _⟩ | ⟨_, r2, hr2, hp2, hw⟩
      · rw [hn] at hn1; cases hn1
      · exact ⟨r2, hr2, hp2.nomem, _, hw⟩

/-- The size limit in the state with the file of three bytes, and at the write
of 513 bytes through the handle 0 of the new file "a", for which the second
loop of `ufs_write` allocates a block. -/
theorem size_limit_witness :
    ((first_file demo_s2).size ≤ MAX_FILE_SIZE ∧
      (first_file demo_s2).block_list.length ≤ MAX_FILE_SIZE / BLOCK_SIZE ∧
      (first_file demo_s2).block_list.length ≤ 204800) ∧
    ∃ s1, ufs_write demo_s1 ((0 : Nat) : Int) (List.replicate 513 7)
      = some ((((List.replicate 513 7 : List Byte).length : Nat) : Int), s1) :=
  ⟨(size_limit demo_s2_reachable).1 (first_file demo_s2) (by decide!),
   ((size_limit demo_s1_reachable).2 0 ⟨0, UFS_READ_WRITE, 0, 0⟩ (first_file demo_s1)
      (List.replicate 513 7) (by decide!) (by decide!) (by decide!) (by decide!) (by decide!)
      ((write_existing (first_file demo_s1).block_list 0 0 0 (List.replicate 513 7)).getD
        ⟨true, [], 0, 0, 0, []⟩) (by decide!) (by decide!)).elim
     (fun _ hr2 => hr2.2.2)⟩

/-- C13 (block layout of sequential writes), at the failing input: on the new
file "a" the writes of 104857599 bytes and of one byte through the handle 0
total `T = MAX_FILE_SIZE`; the first returns its length and the second -1, and
the file is left with `T - 1` bytes: its chain has the 204800 blocks of the
layout for `T`, but the last block has `occupied = 511`, not the
`T - BLOCK_SIZE * (blocks - 1) = 512` of the layout. -/
theorem layout_fails_at_cap :
    ufs_open (init demo_u) "a" UFS_CREATE = some (0, demo_s1) ∧
    ([cap_data, [0]].map List.length).sum = MAX_FILE_SIZE ∧
    ∃ s2 f b, write_all demo_s1 0 [cap_data, [0]] = some ([104857599, -1], s2) ∧
      get_file s2.file_list "a" = some f ∧ f.size = 104857599 ∧
      f.block_list.length = 204800 ∧ f.block_list.getLast? = some b ∧ b.occupied = 511 ∧
      MAX_FILE_SIZE - BLOCK_SIZE * (f.block_list.length - 1) = 512 ∧
      ¬ sequential_layout f MAX_FILE_SIZE := by
  obtain ⟨s2, f, b, h1, h2, h3, h4, h5, h6⟩ := cap_run_layout
  refine ⟨rfl, ?_, s2, f, b, h1, h2, h3, h4, h5, h6, ?_, ?_⟩
  · simp only [List.map_cons, List.map_nil, List.sum_cons, List.sum_nil, cap_data_length,
      List.length_singleton, MAX_FILE_SIZE]
    rfl
  · rw [h4]; decide
  · intro hlay
    have := hlay.2.2.1 b h5
    rw [h4, h6] at this
    exact absurd this (by decide)

/-- C3 (the cap rejection is atomic), at the failing input: the file "a" holds
1024 bytes in two full blocks and the handle 1 is open on it read-write at
cursor 0.  `ufs_read(1, buf, 2147483648)` returns 2147483648 (the last loop of
`ufs_read` copies the full last block again and again) and leaves a reachable
state in which the handle 1 is open with write permission at block 1,
`current_position = 2147483136`.  There the prospective end offset of every
write exceeds `MAX_FILE_SIZE`, but the `int` sum
`current_block * BLOCK_SIZE + current_position` of line 259 is 2147483648, more
than `INT_MAX`: `ufs_write` does not return -1, it has no defined result. -/
theorem cap_rejection_overflow :
    ∃ s out, ufs_read demo_o3 1 2147483648 = some (2147483648, out, s) ∧ Reachable s ∧
      is_incorrect_fd s 1 = false ∧
      slot_at s 1 = slot.desc ⟨0, UFS_READ_WRITE, 1, 2147483136⟩ ∧
      does_have_write_permission UFS_READ_WRITE = true ∧
      1 * BLOCK_SIZE + 2147483136 > INT_MAX ∧
      ∀ data : List Byte, 1 * BLOCK_SIZE + 2147483136 + data.length > MAX_FILE_SIZE ∧
        ufs_write s 1 data = none := by
  have hInv := Reachable_inv demo_o3_reachable
  have hs0 : slot_at demo_o3 (1 : Int).toNat = slot.desc ⟨0, UFS_READ_WRITE, 0, 0⟩ := by
    decide!
  have hi0 : is_incorrect_fd demo_o3 1 = false := by decide!
  have hf0 : file_at demo_o3.file_list 0 = some (first_file demo_o3) := by decide!
  have hbl : (first_file demo_o3).block_list
      = [⟨List.replicate 512 7, 512⟩, ⟨List.replicate 512 7, 512⟩] := by decide!
  obtain ⟨out, hr⟩ := @ufs_read_past_full demo_o3 1 ⟨0, UFS_READ_WRITE, 0, 0⟩
    (first_file demo_o3) ⟨List.replicate 512 7, 512⟩ ⟨List.replicate 512 7, 512⟩
    hi0 hs0 rfl hf0 hbl rfl rfl rfl rfl 4194303 (by decide) (by decide)
  have hr1 : ufs_read demo_o3 1 2147483648 = some (2147483648, out,
      set_cursor demo_o3 1 ⟨0, UFS_READ_WRITE, 0, 0⟩ 1 2147483136) := hr
  have hreach : Reachable (set_cursor demo_o3 1 ⟨0, UFS_READ_WRITE, 0, 0⟩ 1 2147483136) :=
    Reachable.read 1 2147483648 demo_o3_reachable (by decide) hr1
  have hslot : slot_at (set_cursor demo_o3 1 ⟨0, UFS_READ_WRITE, 0, 0⟩ 1 2147483136) 1
      = slot.desc ⟨0, UFS_READ_WRITE, 1, 2147483136⟩ := by
    exact slot_at_set_cursor demo_o3 1 ⟨0, UFS_READ_WRITE, 0, 0⟩ 1 2147483136
      (slot_at_lt_of_desc hs0)
  have hi1 := is_incorrect_fd_of_desc (Reachable_inv hreach) hslot
  refine ⟨_, out, hr1, hreach, hi1, hslot, rfl, by decide, fun data => ⟨?_, ?_⟩⟩
  · simp only [BLOCK_SIZE, MAX_FILE_SIZE]
    omega
  · have hf1 : file_at
        (set_cursor demo_o3 1 ⟨0, UFS_READ_WRITE, 0, 0⟩ 1 2147483136).file_list 0
        = some (first_file demo_o3) := by
      rw [set_cursor_file_list]
      exact hf0
    exact @ufs_write_int_overflow _ 1 ⟨0, UFS_READ_WRITE, 1, 2147483136⟩ (first_file demo_o3)
      data hi1 hslot rfl hf1 (show 1 * BLOCK_SIZE + 2147483136 > INT_MAX by decide)

/-- C20 (bounds of the descriptor table), counterexample: after 1073741824
calls `ufs_open("a", UFS_CREATE)` the state is reachable, every slot below
`file_descriptor_count = 1073741824` holds an open descriptor, so that
`create_fd` finds no free slot, and the capacity is `2 ^ 30`, a power of two;
there `file_descriptor_capacity *= 2` is more than `INT_MAX`:
`resize_file_descriptors` has no defined result, and no capacity above the
index it stores into. -/
theorem table_capacity_overflows :
    ∃ s, Reachable s ∧ s.file_descriptor_count = 1073741824 ∧
      s.file_descriptor_capacity = 2 ^ 30 ∧
      find_free s s.file_descriptor_count 0 = none ∧
      s.file_descriptor_capacity * 2 > INT_MAX ∧
      resize_file_descriptors_int s = none := by
  obtain ⟨hreach, hcount, hcap, hfree⟩ := opens_full
  refine ⟨opens 1073741823, hreach, hcount, by rw [hcap]; decide, hfree,
    by rw [hcap]; decide, ?_⟩
  exact resize_int_none _ (by rw [hcap]; decide) (by rw [hcount, hcap])
    (by rw [hcap]; decide)

/-- C20, amended: in every reachable state
`file_descriptor_count <= file_descriptor_capacity` and the capacity is 0 or a
power of two, at least 2; a call that leaves a capacity that is an `int`
leaves it as it was, makes it 2 when there was no array, or doubles it; when
the table is not full or twice the capacity is an `int` (so for every
capacity below `2 ^ 30`), `resize_file_descriptors` has a result, and in every
result the index `file_descriptor_count`, where `create_fd` stores when it
found no free slot, is unchanged, below the capacity and inside the array, the
capacity is an `int` if it was one, and it is as it was, 2 from 0, or doubled;
and every slot below `file_descriptor_count` is null or holds an open
descriptor. -/
theorem table_bounds_int {s : State} (h : Reachable s) :
    s.file_descriptor_count ≤ s.file_descriptor_capacity ∧
    (s.file_descriptor_capacity = 0 ∨ ∃ k, 1 ≤ k ∧ s.file_descriptor_capacity = 2 ^ k) ∧
    (∀ s1, Step s s1 → s1.file_descriptor_capacity ≤ INT_MAX →
      s1.file_descriptor_capacity = s.file_descriptor_capacity ∨
      (s.file_descriptor_capacity = 0 ∧ s1.file_descriptor_capacity = 2) ∨
      (s.file_descriptor_capacity ≠ 0 ∧
        s1.file_descriptor_capacity = 2 * s.file_descriptor_capacity)) ∧
    (s.file_descriptor_capacity * 2 ≤ INT_MAX ∨
        s.file_descriptor_count < s.file_descriptor_capacity →
      ∃ s2, resize_file_descriptors_int s = some s2) ∧
    (∀ s2, resize_file_descriptors_int s = some s2 →
      s2.file_descriptor_count = s.file_descriptor_count ∧
      s2.file_descriptor_count < s2.file_descriptor_capacity ∧
      s2.file_descriptors.length = s2.file_descriptor_capacity ∧
      (s.file_descriptor_capacity ≤ INT_MAX → s2.file_descriptor_capacity ≤ INT_MAX) ∧
      (s2.file_descriptor_capacity = s.file_descriptor_capacity ∨
        (s.file_descriptor_capacity = 0 ∧ s2.file_descriptor_capacity = 2) ∨
        (s.file_descriptor_capacity ≠ 0 ∧
          s2.file_descriptor_capacity = 2 * s.file_descriptor_capacity))) ∧
    (∀ i, i < s.file_descriptor_count →
      slot_at s i = slot.null ∨ ∃ d, slot_at s i = slot.desc d) := by
  have hInv := Reachable_inv h
  refine ⟨hInv.count_le, Reachable_capacity h, fun s1 hs _ => (step_table hInv hs).1,
    resize_int_defined s hInv.count_le, ?_, ?_⟩
  · intro s2 h2
    have hle := resize_int_capacity_le h2
    have he := resize_int_some h2
    subst he
    obtain ⟨_, _, _, _, r5, r6, r7, _, _⟩ := resize_post s hInv.table_len hInv.count_le
    exact ⟨r5, by rw [r5]; exact r7, r6, hle, resize_capacity s hInv.count_le⟩
  · intro i hi
    by_cases hn : slot_at s i = slot.null
    · exact Or.inl hn
    · exact Or.inr (slot_cases hn (hInv.below_count i hi))

/-- The bounds in the state with the handles 0 and 1 open, where the count and
the capacity are 2: the table is full, 4 is an `int`, and the resize has a
result. -/
theorem table_bounds_int_witness :
    Reachable demo_s3 ∧
    demo_s3.file_descriptor_count ≤ demo_s3.file_descriptor_capacity ∧
    (demo_s3.file_descriptor_capacity = 0 ∨
      ∃ k, 1 ≤ k ∧ demo_s3.file_descriptor_capacity = 2 ^ k) ∧
    demo_s3.file_descriptor_capacity * 2 ≤ INT_MAX ∧
    (∃ s2, resize_file_descriptors_int demo_s3 = some s2) ∧
    (∀ i, i < demo_s3.file_descriptor_count →
      slot_at demo_s3 i = slot.null ∨ ∃ d, slot_at demo_s3 i = slot.desc d) :=
  ⟨demo_s3_reachable, (table_bounds_int demo_s3_reachable).1,
   (table_bounds_int demo_s3_reachable).2.1, by decide,
   (table_bounds_int demo_s3_reachable).2.2.2.1 (Or.inl (by decide)),
   (table_bounds_int demo_s3_reachable).2.2.2.2.2⟩

end Userfs
